import Mathlib

/-!
Verification of the FASP algebraic-multigrid core against its specification.

The C sources under src/ are shallowly embedded: CSR matrices become lists of
offsets, column indices and rational values; REAL is modelled by the rationals,
INT by the integers (indices by naturals where they are provably nonnegative);
stateful loops become folds or fuel/measure-based recursions on explicit state
records.  Definitions are translated from the C sources; parts of the library
that the repository snapshot does not contain (the linklist.inl bucket queue,
the fasp.h type-code macros, the sparse BLAS kernels and fasp_chkerr) are
modelled from the specification and say so in their doc comments.
-/

namespace Fasp

/-- Vertex label from messages.h: fine grid point. -/
def FGPT : ℤ := 0

/-- Vertex label from messages.h: coarse grid point. -/
def CGPT : ℤ := 1

/-- Vertex label from messages.h: isolated point. -/
def ISPT : ℤ := 2

/-- Vertex label from messages.h: undecided point. -/
def UNPT : ℤ := -1

/-- Return status from messages.h: success. -/
def SUCCESS : ℤ := 0

/-- Return status from messages.h: general failure. -/
def RUN_FAIL : ℤ := -100

/-- Modelled from the spec: the numeric type codes live in the fasp.h header,
which is missing from this snapshot of the repository.  Only their mutual
distinctness is relied upon, except that COARSE_AC must equal 4 because
interpolation.c compares coarsening_type against the literal 4.
Coarsening type: modified Ruge-Stuben. -/
def COARSE_RS : ℤ := 1

/-- Modelled from the spec (missing fasp.h): compatible relaxation. -/
def COARSE_CR : ℤ := 3

/-- Modelled from the spec (missing fasp.h): aggressive coarsening; the value 4
is fixed by the literal comparison in fasp_amg_interp. -/
def COARSE_AC : ℤ := 4

/-- Interpolation type from messages.h: INTERP_REG, direct interpolation. -/
def INTERP_REG : ℤ := 1

/-- Modelled from the spec (missing fasp.h): energy-minimization interpolation. -/
def INTERP_ENG_MIN : ℤ := 2

/-- Modelled from the spec (missing fasp.h): standard interpolation. -/
def INTERP_STD : ℤ := 3

/-- Modelled from the spec (missing fasp.h): error code for an unrecognized
coarsening type; any fixed negative value distinct from the other statuses. -/
def ERROR_AMG_COARSE_TYPE : ℤ := -59

/-- Modelled from the spec (missing fasp.h): error code for an unrecognized
interpolation type. -/
def ERROR_AMG_INTERP_TYPE : ℤ := -60

/-- Modelled from the spec (missing fasp.h): SMALLREAL, the tiny positive
constant guarding divisions by the diagonal. -/
def SMALLREAL : ℚ := 1 / 10 ^ 20

/-- dCSRmat from fasp.h: compressed sparse row matrix with REAL values. -/
structure dCSRmat where
  row : ℕ
  col : ℕ
  nnz : ℕ
  IA : List ℕ
  JA : List ℕ
  val : List ℚ
deriving Repr, DecidableEq, Inhabited

/-- iCSRmat from fasp.h: compressed sparse row pattern (no numeric payload
needed by the coarsening routines, whose strength matrices carry val=NULL). -/
structure iCSRmat where
  row : ℕ
  col : ℕ
  nnz : ℕ
  IA : List ℕ
  JA : List ℕ
deriving Repr, DecidableEq

/-- Positions (indices into JA/val) of row i of a CSR matrix with offset list
IA: the interval [IA i, IA (i+1)). -/
def rowPos (IA : List ℕ) (i : ℕ) : List ℕ :=
  List.range' (IA.getD i 0) (IA.getD (i + 1) 0 - IA.getD i 0)

/-- Column indices of row i of a dCSRmat. -/
def dRowJA (A : dCSRmat) (i : ℕ) : List ℕ :=
  (rowPos A.IA i).map (fun p => A.JA.getD p 0)

/-- Values of row i of a dCSRmat. -/
def dRowVal (A : dCSRmat) (i : ℕ) : List ℚ :=
  (rowPos A.IA i).map (fun p => A.val.getD p 0)

/-- Column indices of row i of an iCSRmat. -/
def iRowJA (S : iCSRmat) (i : ℕ) : List ℕ :=
  (rowPos S.IA i).map (fun p => S.JA.getD p 0)

/-- fasp_dcsr_getdiag (BlaSparseCSR.c) with n = 0: for each of the first
min(row,col) rows, the value of the first entry whose column index equals the
row index; the allocated slot stays 0 when the row has no diagonal entry. -/
def fasp_dcsr_getdiag (A : dCSRmat) : List ℚ :=
  (List.range (min A.row A.col)).map (fun i =>
    match (rowPos A.IA i).find? (fun p => A.JA.getD p 0 == i) with
    | some p => A.val.getD p 0
    | none => 0)

/-- The marking pass of generate_S (coarsening_rs.c) on one row: position p of
row i becomes -1 (weak) exactly as in the source: the first diagonal occurrence
is marked; if the scaled absolute row sum exceeds max_row_sum (and
max_row_sum < 1) the whole row is marked; otherwise every position whose value
is >= epsilon_str * row_scale is marked, where row_scale is the minimum of 0
and the row's values.  Unmarked positions keep their column index. -/
def genSmarkRow (A : dCSRmat) (max_row_sum epsilon_str : ℚ) (diag : List ℚ)
    (i : ℕ) : List ℤ :=
  let vals := dRowVal A i
  let row_scale := vals.foldl min 0
  let row_sum := |vals.foldl (fun s v => s + v) 0| / max SMALLREAL |diag.getD i 0|
  let diagFirst := (rowPos A.IA i).find? (fun p => A.JA.getD p 0 == i)
  (rowPos A.IA i).map (fun p =>
    if row_sum > max_row_sum ∧ max_row_sum < 1 then -1
    else if diagFirst = some p then -1
    else if epsilon_str * row_scale ≤ A.val.getD p 0 then -1
    else (A.JA.getD p 0 : ℤ))

/-- Kept (strong) column indices of row i after the marking pass of
generate_S: the entries still > -1, in row order (the compaction loop). -/
def genSkeptRow (A : dCSRmat) (max_row_sum epsilon_str : ℚ) (diag : List ℚ)
    (i : ℕ) : List ℕ :=
  (genSmarkRow A max_row_sum epsilon_str diag i).filterMap (fun m =>
    if m > -1 then some m.toNat else none)

/-- generate_S (coarsening_rs.c): builds the strength matrix S of A.  Marking
per row as in genSmarkRow, then the in-place compaction: S.IA i is the number
of strong entries of the rows before i, S.JA the concatenation of the kept
column indices.  When no entry survives, the source leaves S.JA = NULL,
S.nnz = 0 and S.IA row untouched (still holding A's total nonzero count). -/
def generate_S (A : dCSRmat) (max_row_sum epsilon_str : ℚ) : iCSRmat :=
  let diag := fasp_dcsr_getdiag A
  let kept := (List.range A.row).map (genSkeptRow A max_row_sum epsilon_str diag)
  let counts := kept.map List.length
  let total := counts.foldl (fun s c => s + c) 0
  let starts := (List.range A.row).map (fun i => ((counts.take i).foldl (fun s c => s + c) 0))
  if total > 0 then
    { row := A.row, col := A.col, nnz := total,
      IA := starts ++ [total], JA := kept.flatten }
  else
    { row := A.row, col := A.col, nnz := 0,
      IA := starts ++ [A.IA.getD A.row 0], JA := [] }

/-- Row-major list of (row, column, value) triples of a dCSRmat, the order in
which the second pass of the transpose routines visits the entries. -/
def csrEntries (A : dCSRmat) : List (ℕ × ℕ × ℚ) :=
  (List.range A.row).flatMap (fun i =>
    (rowPos A.IA i).map (fun p => (i, A.JA.getD p 0, A.val.getD p 0)))

/-- Shared core of fasp_dcsr_trans and fasp_icsr_trans (BlaSparseCSR.c): the
counting pass over the first nnz column indices, the prefix-sum loop from
index 2, and the scattering pass that walks the rows in order, writing each
entry to the next free slot of its column and bumping AT.IA in place.
Returns (AT.IA, AT.JA, AT.val). -/
def transCore (m nnz : ℕ) (JAfirst : List ℕ) (entries : List (ℕ × ℕ × ℚ)) :
    List ℕ × List ℕ × List ℚ :=
  let ia1 := JAfirst.foldl (fun ia c =>
    if c < m - 1 then ia.set (c + 2) (ia.getD (c + 2) 0 + 1) else ia)
    (List.replicate (m + 1) 0)
  let ia2 := (List.range' 2 (m - 1)).foldl (fun ia i =>
    ia.set i (ia.getD i 0 + ia.getD (i - 1) 0)) ia1
  entries.foldl (fun st e =>
    let j := e.2.1 + 1
    let k := st.1.getD j 0
    (st.1.set j (k + 1), st.2.1.set k e.1, st.2.2.set k e.2.2))
    (ia2, List.replicate nnz 0, List.replicate nnz (0 : ℚ))

/-- fasp_dcsr_trans (BlaSparseCSR.c): transpose of a dCSRmat. -/
def fasp_dcsr_trans (A : dCSRmat) : dCSRmat :=
  let st := transCore A.col A.nnz (A.JA.take A.nnz) (csrEntries A)
  { row := A.col, col := A.row, nnz := A.nnz,
    IA := st.1, JA := st.2.1, val := st.2.2 }

/-- Row-major (row, column) pairs of an iCSRmat, for the transpose. -/
def icsrEntries (S : iCSRmat) : List (ℕ × ℕ × ℚ) :=
  (List.range S.row).flatMap (fun i =>
    (rowPos S.IA i).map (fun p => (i, S.JA.getD p 0, (0 : ℚ))))

/-- fasp_icsr_trans (BlaSparseCSR.c): transpose of an iCSRmat (val = NULL, so
only the structure is transposed; same two passes as fasp_dcsr_trans). -/
def fasp_icsr_trans (S : iCSRmat) : iCSRmat :=
  let st := transCore S.col S.nnz (S.JA.take S.nnz) (icsrEntries S)
  { row := S.col, col := S.row, nnz := S.nnz, IA := st.1, JA := st.2.1 }

/-- Kernel-computable binary bitwise fold on naturals (structural recursion on
an explicit fuel bound), used to model C's two's-complement integer bitwise
or, which Lean's Nat.bitwise-based operations do not reduce under the kernel. -/
def bitFold (f : Bool → Bool → Bool) : ℕ → ℕ → ℕ → ℕ
  | 0, _, _ => 0
  | fuel + 1, m, n =>
    if m = 0 ∧ n = 0 then 0
    else 2 * bitFold f fuel (m / 2) (n / 2) +
      (if f (decide (m % 2 = 1)) (decide (n % 2 = 1)) then 1 else 0)

/-- Bitwise or on naturals via bitFold. -/
def natOr (m n : ℕ) : ℕ := bitFold or (m + n + 1) m n

/-- Bitwise and on naturals via bitFold. -/
def natAnd (m n : ℕ) : ℕ := bitFold and (m + n + 1) m n

/-- Bitwise difference (a AND NOT b) on naturals via bitFold. -/
def natDiff (m n : ℕ) : ℕ := bitFold (fun a b => a && !b) (m + n + 1) m n

/-- Two's-complement bitwise or on integers, the semantics of C's | operator
as used by the ci_tilde_mark |= i expression in form_coarse_level. -/
def intOr : ℤ → ℤ → ℤ
  | Int.ofNat m, Int.ofNat n => Int.ofNat (natOr m n)
  | Int.ofNat m, Int.negSucc n => Int.negSucc (natDiff n m)
  | Int.negSucc m, Int.ofNat n => Int.negSucc (natDiff m n)
  | Int.negSucc m, Int.negSucc n => Int.negSucc (natAnd m n)

/-- Modelled from the spec: the bucket priority queue of linklist.inl is not in
this snapshot of the repository.  Per spec sections 4.2 and 9 it supports
insert and remove keyed by the lambda measure and extract-max whose ties go to
the lowest vertex index (first-in-bucket-wins).  The queue is modelled as the
list of queued vertices; enter_list inserts a vertex (at most once). -/
def enter_list (q : List ℕ) (node : ℕ) : List ℕ :=
  if node ∈ q then q else node :: q

/-- Modelled from the spec (missing linklist.inl): remove a vertex. -/
def remove_node (q : List ℕ) (node : ℕ) : List ℕ := q.erase node

/-- Modelled from the spec (missing linklist.inl): the queued vertex with the
maximal lambda measure, ties broken toward the lowest index. -/
def extract_max (lam : List ℤ) (q : List ℕ) : Option ℕ :=
  q.foldl (fun best n =>
    match best with
    | none => some n
    | some b =>
      if lam.getD n 0 > lam.getD b 0 ∨ (lam.getD n 0 = lam.getD b 0 ∧ n < b)
      then some n else some b) none

/-- State threaded through phase one of form_coarse_level (coarsening_rs.c):
the vertex labels, the lambda measures, the priority queue, the number of
undecided vertices and the coarse-point counter col. -/
structure P1State where
  vec : List ℤ
  lam : List ℤ
  q : List ℕ
  num_left : ℕ
  col : ℤ
deriving Repr, DecidableEq

/-- Shared helper of form_coarse_level: turn an undecided vertex j into a fine
point and bump the lambda of each of its still-undecided strong neighbors,
re-bucketing them (the inner l/k loops of steps 3 and 4). -/
def bumpNeighbors (S : iCSRmat) (st : P1State) (j : ℕ) : P1State :=
  (iRowJA S j).foldl (fun st k =>
    if st.vec.getD k 0 = UNPT then
      let q1 := remove_node st.q k
      let newm := st.lam.getD k 0 + 1
      { st with lam := st.lam.set k newm, q := enter_list q1 k }
    else st) st

/-- Step 3 of form_coarse_level: process vertex i, either queueing it (positive
measure) or fixing it as a fine point and rewarding its strong neighbors; the
j < i distinction of the source decides whether the neighbor must first be
removed from the queue before being re-entered with its bumped measure. -/
def p1step3 (S : iCSRmat) (st : P1State) (i : ℕ) : P1State :=
  let measure := st.lam.getD i 0
  if st.vec.getD i 0 = ISPT then st
  else if measure > 0 then { st with q := enter_list st.q i }
  else
    let st1 := { st with vec := st.vec.set i FGPT }
    let st2 := (iRowJA S i).foldl (fun st j =>
      if st.vec.getD j 0 ≠ ISPT then
        if j < i then
          let q1 := if st.lam.getD j 0 > 0 then remove_node st.q j else st.q
          let newm := st.lam.getD j 0 + 1
          { st with lam := st.lam.set j newm, q := enter_list q1 j }
        else
          { st with lam := st.lam.set j (st.lam.getD j 0 + 1) }
      else st) st1
    { st2 with num_left := st2.num_left - 1 }

/-- One iteration of the main loop (step 4) of form_coarse_level: extract the
queued vertex with maximal lambda, label it coarse, turn its undecided
transpose-strong neighbors into fine points (bumping their neighbors), then
decrement the measures of its undecided strong neighbors, fixing as fine the
ones whose measure drops to zero. -/
def p1mainBody (S ST : iCSRmat) (st : P1State) (maxnode : ℕ) : P1State :=
  let st0 := { st with
    vec := st.vec.set maxnode CGPT,
    lam := st.lam.set maxnode 0,
    num_left := st.num_left - 1,
    q := remove_node st.q maxnode,
    col := st.col + 1 }
  let st1 := (iRowJA ST maxnode).foldl (fun st j =>
    if st.vec.getD j 0 = UNPT then
      let st := { st with
        vec := st.vec.set j FGPT,
        q := remove_node st.q j,
        num_left := st.num_left - 1 }
      bumpNeighbors S st j
    else st) st0
  (iRowJA S maxnode).foldl (fun st j =>
    if st.vec.getD j 0 = UNPT then
      let q1 := remove_node st.q j
      let measure := st.lam.getD j 0 - 1
      let st := { st with lam := st.lam.set j measure, q := q1 }
      if measure > 0 then { st with q := enter_list st.q j }
      else
        let st := { st with
          vec := st.vec.set j FGPT,
          num_left := st.num_left - 1 }
        bumpNeighbors S st j
    else st) st1

/-- The main loop (step 4) of form_coarse_level, with an explicit fuel bound;
the loop runs while undecided vertices remain, and each iteration decides at
least the extracted vertex, so any fuel at least the initial number of
undecided vertices reaches the fixed point. -/
def p1main (S ST : iCSRmat) : ℕ → P1State → P1State
  | 0, st => st
  | fuel + 1, st =>
    if st.num_left = 0 then st
    else
      match extract_max st.lam st.q with
      | none => st
      | some maxnode => p1main S ST fuel (p1mainBody S ST st maxnode)

/-- State threaded through phase two of form_coarse_level: vertex labels, the
graph_array markers, ci_tilde, ci_tilde_mark, C_i_nonempty and col. -/
structure P2State where
  vec : List ℤ
  ga : List ℤ
  ci_tilde : ℤ
  mark : ℤ
  ci : ℤ
  col : ℤ
deriving Repr, DecidableEq

/-- The set_empty test of phase two: true when no strong neighbor of j is
marked with i in graph_array (no common strong coarse interpolation point). -/
def setEmpty (S : iCSRmat) (ga : List ℤ) (i j : ℕ) : Bool :=
  (iRowJA S j).all (fun jj => !(ga.getD jj 0 == (i : ℤ)))

/-- Phase two of form_coarse_level (coarsening phase TWO, run only when the
interpolation type is not standard): scan the vertices in ascending order; the
source's `if (ci_tilde_mark |= i) ci_tilde = -1;` is the two's-complement
bitwise-or assignment used as a condition, reproduced by intOr.  For a fine
vertex i, mark its strong coarse neighbors in graph_array, then look for the
first strong fine neighbor with no common marked neighbor: the first such
neighbor is promoted to coarse and i is re-examined; a second one promotes i
itself and demotes the previously promoted neighbor when ci_tilde survived.
Terminates because every step either advances i or switches C_i_nonempty on. -/
def phase2 (S : iCSRmat) (row : ℕ) : ℕ → ℕ → P2State → P2State
  | 0, _, st => st
  | fuel + 1, i, st =>
    if row ≤ i then st
    else
      let mark2 := intOr st.mark (i : ℤ)
      let ct1 : ℤ := if mark2 ≠ 0 then -1 else st.ci_tilde
      if st.vec.getD i 0 = FGPT then
        let ga2 := (iRowJA S i).foldl (fun g j =>
          if st.vec.getD j 0 = CGPT then g.set j (i : ℤ) else g) st.ga
        match (iRowJA S i).find? (fun j =>
          st.vec.getD j 0 == FGPT && setEmpty S ga2 i j) with
        | none =>
          phase2 S row fuel (i + 1) { st with ga := ga2, ci_tilde := ct1, mark := mark2 }
        | some j =>
          if st.ci ≠ 0 then
            let vec2 := (st.vec.set i CGPT)
            let vec3 := if ct1 > -1 then vec2.set ct1.toNat FGPT else vec2
            let ct2 : ℤ := if ct1 > -1 then -1 else ct1
            let col3 := if ct1 > -1 then st.col else st.col + 1
            phase2 S row fuel (i + 1) { st with
              vec := vec3, ga := ga2,
              ci_tilde := ct2, mark := mark2, ci := 0, col := col3 }
          else
            phase2 S row fuel i { st with
              vec := st.vec.set j CGPT, ga := ga2,
              ci_tilde := (j : ℤ), mark := (i : ℤ), ci := 1, col := st.col + 1 }
      else
        phase2 S row fuel (i + 1) { st with ci_tilde := ct1, mark := mark2 }

/-- form_coarse_level (coarsening_rs.c): the classical Ruge-Stuben C/F
splitting.  Returns the final vertex labels and the coarse-point count col.
Phase one: lambda = transpose in-degrees, isolated rows (at most one nonzero)
become ISPT, zero-measure vertices become fine immediately, then the greedy
maximal-lambda elimination; phase two (non-standard interpolation only)
repairs fine-fine couplings without a common coarse neighbor. -/
def form_coarse_level (A : dCSRmat) (S : iCSRmat) (row : ℕ) (interp_type : ℤ) :
    List ℤ × ℤ :=
  let ST := fasp_icsr_trans S
  let lam0 := (List.range row).map (fun i =>
    (ST.IA.getD (i + 1) 0 : ℤ) - (ST.IA.getD i 0 : ℤ))
  let vec0 := (List.range row).map (fun i =>
    if A.IA.getD (i + 1) 0 - A.IA.getD i 0 ≤ 1 then ISPT else UNPT)
  let lam1 := (List.range row).map (fun i =>
    if A.IA.getD (i + 1) 0 - A.IA.getD i 0 ≤ 1 then 0 else lam0.getD i 0)
  let nleft := (vec0.filter (fun v => v == UNPT)).length
  let st0 : P1State :=
    { vec := vec0, lam := lam1, q := [], num_left := nleft, col := 0 }
  let st3 := (List.range row).foldl (p1step3 S) st0
  let st4 := p1main S ST st3.num_left st3
  if interp_type ≠ INTERP_STD then
    let st5 := phase2 S row (2 * row + 2) 0
      { vec := st4.vec, ga := List.replicate row (-1), ci_tilde := -1,
        mark := -1, ci := 0, col := st4.col }
    (st5.vec, st5.col)
  else
    (st4.vec, st4.col)

/-- The phase-one portion of form_coarse_level: the state reached after
steps 1-4 (the st4 of the definition above), named so the invariant
development can speak about it. -/
def phase1Final (A : dCSRmat) (S : iCSRmat) (row : ℕ) : P1State :=
  let ST := fasp_icsr_trans S
  let lam0 := (List.range row).map (fun i =>
    (ST.IA.getD (i + 1) 0 : ℤ) - (ST.IA.getD i 0 : ℤ))
  let vec0 := (List.range row).map (fun i =>
    if A.IA.getD (i + 1) 0 - A.IA.getD i 0 ≤ 1 then ISPT else UNPT)
  let lam1 := (List.range row).map (fun i =>
    if A.IA.getD (i + 1) 0 - A.IA.getD i 0 ≤ 1 then 0 else lam0.getD i 0)
  let nleft := (vec0.filter (fun v => v == UNPT)).length
  let st0 : P1State :=
    { vec := vec0, lam := lam1, q := [], num_left := nleft, col := 0 }
  let st3 := (List.range row).foldl (p1step3 S) st0
  p1main S ST st3.num_left st3

/-- generate_sparsity_P (coarsening_rs.c): sparsity pattern of the
interpolation for direct or energy-minimization interpolation.  A fine row
keeps its strong coarse neighbors, an isolated row is empty, a coarse row
holds the vertex itself; values are allocated as zeros. -/
def generate_sparsity_P (S : iCSRmat) (vec : List ℤ) (row col : ℕ) : dCSRmat :=
  let rows := (List.range row).map (fun i =>
    if vec.getD i 0 = FGPT then (iRowJA S i).filter (fun k => vec.getD k 0 == CGPT)
    else if vec.getD i 0 = ISPT then []
    else [i])
  let counts := rows.map List.length
  let total := counts.foldl (fun s c => s + c) 0
  let starts := (List.range (row + 1)).map (fun i =>
    ((counts.take i).foldl (fun s c => s + c) 0))
  { row := row, col := col, nnz := total, IA := starts, JA := rows.flatten,
    val := List.replicate total 0 }

/-- The sums and extremes of one row entering the truncation pass of the
interpolation routines (interpolation.c): the sum mSum and minimum mMin of the
negative entries and the sum pSum and maximum pMax of the positive entries,
with the extremes initialized to zero as in the source. -/
def truncRowStats (vals : List ℚ) : ℚ × ℚ × ℚ × ℚ :=
  vals.foldl (fun st v =>
    let st1 := if v < 0 then
      (if v < st.1 then v else st.1, st.2.1 + v, st.2.2.1, st.2.2.2) else st
    if v > 0 then
      (st1.1, st1.2.1, if v > st1.2.2.1 then v else st1.2.2.1, st1.2.2.2 + v)
    else st1)
    (0, 0, 0, 0)

/-- The truncation pass of the interpolation routines (interpolation.c,
identical in interp_RS and interp_STD) on one row of (column, value) pairs: a
negative entry survives unless it exceeds mMin * epsilon_tr, a positive entry
survives unless it is below pMax * epsilon_tr, zero entries are dropped; each
survivor is rescaled by originalSignSum / survivingSignSum. -/
def truncRow (epsilon_tr : ℚ) (entries : List (ℕ × ℚ)) : List (ℕ × ℚ) :=
  let st := truncRowStats (entries.map Prod.snd)
  let mMin := st.1
  let mSum := st.2.1
  let pMax := st.2.2.1
  let pSum := st.2.2.2
  let kept := entries.filter (fun e =>
    (e.2 < 0 ∧ ¬(e.2 > mMin * epsilon_tr)) ∨ (e.2 > 0 ∧ ¬(e.2 < pMax * epsilon_tr)))
  let mTruncedSum := ((kept.map Prod.snd).filter (fun v => v < 0)).foldl (fun s v => s + v) 0
  let pTruncedSum := ((kept.map Prod.snd).filter (fun v => v > 0)).foldl (fun s v => s + v) 0
  kept.map (fun e =>
    if e.2 < 0 then (e.1, e.2 / mTruncedSum * mSum) else (e.1, e.2 / pTruncedSum * pSum))

/-- The (column, value) pairs of row i of a dCSRmat. -/
def dRowPairs (P : dCSRmat) (i : ℕ) : List (ℕ × ℚ) :=
  (rowPos P.IA i).map (fun p => (P.JA.getD p 0, P.val.getD p 0))

/-- Reassemble a dCSRmat from per-row (column, value) pair lists. -/
def csrOfRows (row col : ℕ) (rows : List (List (ℕ × ℚ))) : dCSRmat :=
  let counts := rows.map List.length
  let total := counts.foldl (fun s c => s + c) 0
  let starts := (List.range (row + 1)).map (fun i =>
    ((counts.take i).foldl (fun s c => s + c) 0))
  { row := row, col := col, nnz := total, IA := starts,
    JA := (rows.flatten).map Prod.fst, val := (rows.flatten).map Prod.snd }

/-- The concluding truncation pass of the interpolation builders applied to a
whole operator: each row is truncated and rescaled by truncRow and the matrix
is recompacted (interpolation.c, the num_lost bookkeeping). -/
def truncationP (epsilon_tr : ℚ) (P : dCSRmat) : dCSRmat :=
  csrOfRows P.row P.col ((List.range P.row).map (fun i => truncRow epsilon_tr (dRowPairs P i)))

/-- The per-row weight computation of interp_RS (interpolation.c, direct
interpolation): for a fine row, split the off-diagonal entries into
negative/positive sums over the whole row (amN, apN) and over the entries
present in the interpolation pattern (amP, apP, countPplus); alpha = amN/amP;
if no positive entry is in the pattern, beta = 0 and the discarded positive
sum apN is absorbed into the diagonal; each pattern entry k gets
-scale * a_ik / aii.  The diagonal aii is the first entry with column i; if a
row has no diagonal the source keeps the previous row's aii, so the value is
threaded through the fold.  Returns (aii carried to the next row, row values
in pattern order). -/
def interpRSrow (A : dCSRmat) (vec : List ℤ) (Ptr : dCSRmat) (i : ℕ)
    (carried : ℚ) : ℚ × List ℚ :=
  let diagPos := (rowPos A.IA i).find? (fun p => A.JA.getD p 0 == i)
  let aii0 := match diagPos with
    | some p => A.val.getD p 0
    | none => carried
  if vec.getD i 0 = FGPT then
    let offd := (rowPos A.IA i).filter (fun p => ¬(diagPos = some p))
    let inP := fun p => (A.JA.getD p 0) ∈ (dRowJA Ptr i)
    let amN := ((offd.filter (fun p => ¬(A.val.getD p 0 > 0))).map
      (fun p => A.val.getD p 0)).foldl (fun s v => s + v) 0
    let amP := ((offd.filter (fun p => ¬(A.val.getD p 0 > 0) ∧ inP p)).map
      (fun p => A.val.getD p 0)).foldl (fun s v => s + v) 0
    let apN := ((offd.filter (fun p => A.val.getD p 0 > 0)).map
      (fun p => A.val.getD p 0)).foldl (fun s v => s + v) 0
    let apP := ((offd.filter (fun p => A.val.getD p 0 > 0 ∧ inP p)).map
      (fun p => A.val.getD p 0)).foldl (fun s v => s + v) 0
    let countPplus := (offd.filter (fun p => A.val.getD p 0 > 0 ∧ inP p)).length
    let alpha := amN / amP
    let beta := if countPplus > 0 then apN / apP else 0
    let aii := if countPplus > 0 then aii0 else aii0 + apN
    let vals := (dRowJA Ptr i).map (fun k =>
      let l := (rowPos A.IA i).find? (fun l => A.JA.getD l 0 == k)
      let av := match l with
        | some l => A.val.getD l 0
        | none => 0
      if av > 0 then -beta * av / aii else -alpha * av / aii)
    (aii, vals)
  else if vec.getD i 0 = ISPT then (aii0, [])
  else (aii0, [1])

/-- The CoarseIndex renumbering shared by the interpolation builders
(interpolation.c): coarse vertices are numbered consecutively and every column
index of P is replaced by the coarse number of its vertex (non-coarse columns
read the calloc'ed zero). -/
def coarseIndexMap (vec : List ℤ) (j : ℕ) : ℕ :=
  ((vec.take j).filter (fun v => v == CGPT)).length

/-- interp_RS (interpolation.c): direct interpolation.  Fills the values of
the sparsity pattern Ptr row by row (threading the aii carry-over), renumbers
the columns to coarse indices, and ends with the truncation pass. -/
def interp_RS (A : dCSRmat) (vec : List ℤ) (Ptr : dCSRmat)
    (epsilon_tr : ℚ) : dCSRmat :=
  let rows := (List.range A.row).foldl (fun st i =>
    let r := interpRSrow A vec Ptr i st.1
    (r.1, st.2 ++ [r.2])) ((0 : ℚ), [])
  let filled := (List.range A.row).map (fun i =>
    List.zipWith (fun k v => (coarseIndexMap vec k, v)) (dRowJA Ptr i) (rows.2.getD i []))
  truncationP epsilon_tr (csrOfRows Ptr.row Ptr.col filled)

/-- The status computation of fasp_amg_coarsening_rs (coarsening_rs.c): an
unrecognized coarsening type is rejected with ERROR_AMG_COARSE_TYPE before any
work; for a recognized type, a strength matrix with no edges makes the routine
return RUN_FAIL; otherwise the routine returns SUCCESS (the C/F splitting and
sparsity steps do not change the status). -/
def fasp_amg_coarsening_rs_status (A : dCSRmat) (coarsening_type : ℤ)
    (max_row_sum strong_threshold : ℚ) : ℤ :=
  if coarsening_type = COARSE_RS ∨ coarsening_type = COARSE_AC ∨
     coarsening_type = COARSE_CR then
    if (generate_S A max_row_sum strong_threshold).nnz = 0 then RUN_FAIL
    else SUCCESS
  else ERROR_AMG_COARSE_TYPE

/-- fasp_amg_coarsening_rs (coarsening_rs.c) instantiated with the modified
Ruge-Stuben coarsening type and a non-standard interpolation type (the
configuration of the classical setup path): generate S, fail when it has no
edges, otherwise run form_coarse_level and build the sparsity pattern of P.
Returns (status, vertices, P, S). -/
def fasp_amg_coarsening_rs_classic (A : dCSRmat) (interp_type : ℤ)
    (max_row_sum strong_threshold : ℚ) : ℤ × List ℤ × dCSRmat × iCSRmat :=
  let S := generate_S A max_row_sum strong_threshold
  if S.nnz = 0 then (RUN_FAIL, [], { row := 0, col := 0, nnz := 0, IA := [], JA := [], val := [] }, S)
  else
    let fc := form_coarse_level A S A.row interp_type
    (SUCCESS, fc.1, generate_sparsity_P S fc.1 A.row fc.2.toNat, S)

/-- The dispatch of fasp_amg_interp (interpolation.c): aggressive coarsening
(type code 4) forces standard interpolation; the switch runs the selected
builder, but the INTERP_STD case has no break statement and falls through to
the default, which raises the fatal unrecognized-interpolation-type error via
fasp_chkerr.  The function returns true exactly when the fatal error fires. -/
def fasp_amg_interp_fatal (coarsening_type interp_type : ℤ) : Bool :=
  let it := if coarsening_type = 4 then INTERP_STD else interp_type
  !(it == INTERP_REG || it == INTERP_ENG_MIN)

/-- The adaptive strength-threshold update of amg_setup_unsmoothP_unsmoothR
(PreAMGSetupUA.c, VMB aggregation case): after forming num_aggs aggregates on
a level with rowN rows, halve strong_coupled when num_aggs*4 > rowN, else
double it when num_aggs*1.25 < rowN, else leave it unchanged. -/
def adaptStrongCoupled (num_aggs rowN : ℤ) (strong_coupled : ℚ) : ℚ :=
  if num_aggs * 4 > rowN then strong_coupled / 2
  else if (num_aggs : ℚ) * (125 / 100) < (rowN : ℚ) then strong_coupled * 2
  else strong_coupled

/-- Modelled from the spec: the sparse matrix-vector product y = M x of
BlaSpmvCSR.c (fasp_blas_dcsr_mxv), which is not part of this snapshot; section
4.6 of the spec uses it as b = R r and the residual and prolongation updates. -/
def matvec (M : dCSRmat) (x : List ℚ) : List ℚ :=
  (List.range M.row).map (fun i =>
    ((rowPos M.IA i).map (fun p => M.val.getD p 0 * x.getD (M.JA.getD p 0) 0)).foldl
      (fun s v => s + v) 0)

/-- Modelled from the spec: entry (i,j) of a CSR matrix as a function (the sum
of the stored values at that position, zero when absent), the semantics used
to state the Galerkin product contract of spec section 4.5. -/
def csrEntry (M : dCSRmat) (i j : ℕ) : ℚ :=
  (((rowPos M.IA i).filter (fun p => M.JA.getD p 0 == j)).map
    (fun p => M.val.getD p 0)).foldl (fun s v => s + v) 0

/-- Modelled from the spec: the Galerkin product A2 = R * A * P of section 4.5
(fasp_blas_dcsr_rap of BlaSpmvCSR.c is not in this snapshot).  The coarse
operator has R.row rows and P.col columns and the entries of the triple
product, assembled densely row by row. -/
def rapGalerkin (R A P : dCSRmat) : dCSRmat :=
  let ent := fun i j =>
    ((List.range A.row).map (fun k =>
      csrEntry R i k *
        ((List.range A.col).map (fun l => csrEntry A k l * csrEntry P l j)).foldl
          (fun s v => s + v) 0)).foldl (fun s v => s + v) 0
  csrOfRows R.row P.col ((List.range R.row).map (fun i =>
    (List.range P.col).map (fun j => (j, ent i j))))

/-- One level of the multigrid hierarchy as the cycle engine reads it: the
level operator, restriction and prolongation (mgrecur.c reads them from
AMG_data). -/
structure AMGLevel where
  A : dCSRmat
  R : dCSRmat
  P : dCSRmat
deriving Repr, DecidableEq, Inhabited

/-- Elementwise difference b - y truncated to the m leading entries, the
fasp_array_cp / fasp_blas_dcsr_aAxpy(-1.0) residual of mgrecur.c. -/
def residual (m : ℕ) (b y : List ℚ) : List ℚ :=
  (List.range m).map (fun i => b.getD i 0 - y.getD i 0)

/-- Elementwise sum x + y truncated to the m leading entries, the
fasp_blas_dcsr_aAxpy(1.0) prolongation update of mgrecur.c. -/
def addvec (m : ℕ) (x y : List ℚ) : List ℚ :=
  (List.range m).map (fun i => x.getD i 0 + y.getD i 0)

/-- fasp_solver_mgrecur (mgrecur.c): the recursive multigrid cycle on the
state (bs, xs) of per-level right-hand sides and iterates.  The smoothers and
the coarsest-level solver are the external collaborators of spec section 6 and
are passed as functions (A, b, x) -> x.  On a non-terminal level: pre-smooth,
form the residual, restrict it into the next level's right-hand side, zero the
next level's iterate, recurse cycle_type times, prolongate, post-smooth.  On
the terminal level: only the coarsest solve.  The fuel is structural; any fuel
at least num_levels - level reproduces the source's recursion exactly. -/
def fasp_solver_mgrecur (pre post csolve : dCSRmat → List ℚ → List ℚ → List ℚ)
    (levels : List AMGLevel) (num_levels : ℕ) (cycle_type : ℤ) :
    ℕ → ℕ → List (List ℚ) × List (List ℚ) → List (List ℚ) × List (List ℚ)
  | 0, _, st => st
  | fuel + 1, level, st =>
    let lvl := levels.getD level { A := default, R := default, P := default }
    let m0 := lvl.A.row
    let b0 := st.1.getD level []
    if level < num_levels - 1 then
      let m1 := (levels.getD (level + 1)
        { A := default, R := default, P := default }).A.row
      let x0 := pre lvl.A b0 (st.2.getD level [])
      let r := residual m0 b0 (matvec lvl.A x0)
      let b1 := matvec lvl.R r
      let bs1 := st.1.set (level + 1) b1
      let xs1 := (st.2.set level x0).set (level + 1) (List.replicate m1 0)
      let strec := (List.range cycle_type.toNat).foldl
        (fun st _ => fasp_solver_mgrecur pre post csolve levels num_levels
          cycle_type fuel (level + 1) st) (bs1, xs1)
      let x0b := addvec m0 (strec.2.getD level [])
        (matvec lvl.P (strec.2.getD (level + 1) []))
      let x0c := post lvl.A (strec.1.getD level []) x0b
      (strec.1, strec.2.set level x0c)
    else
      (st.1, st.2.set level (csolve lvl.A b0 (st.2.getD level [])))

/-- The raw result of the embedded classical AMG setup: the level matrices,
prolongations, restrictions, C/F markers, the final status of the loop, and
the number of levels recorded after the loop. -/
structure SetupResult where
  As : List dCSRmat
  Ps : List dCSRmat
  Rs : List dCSRmat
  cfmarks : List (List ℤ)
  num_levels : ℕ
  status : ℤ
  bs : List (List ℚ)
  xs : List (List ℚ)
deriving Repr, DecidableEq

/-- The post-loop bookkeeping of fasp_amg_setup_rs (amg_setup_rs.c): record
num_levels = level+1 on the finest level and allocate the right-hand side and
iterate work vectors for the coarser levels (the reached code after the loop
breaks, as opposed to the goto FINISHED error path). -/
def setupFinish (As : List dCSRmat) (Ps Rs : List dCSRmat)
    (cfs : List (List ℤ)) (level : ℕ) (status : ℤ) : SetupResult :=
  { As := As, Ps := Ps, Rs := Rs, cfmarks := cfs,
    num_levels := level + 1, status := status,
    bs := (List.range (level + 1)).map (fun l =>
      if l = 0 then [] else List.replicate (As.getD l default).row 0),
    xs := (List.range (level + 1)).map (fun l =>
      if l = 0 then [] else List.replicate (As.getD l default).row 0) }

/-- The main setup loop of fasp_amg_setup_rs (amg_setup_rs.c) for the
classical configuration (modified Ruge-Stuben coarsening, no ILU or Schwarz
levels): while the current operator is larger than max(coarse_dof, 50) and
levels remain, run the coarsening (a negative status breaks out of the loop
keeping the levels built so far), store the C/F marker, stop when the coarse
dimension is at most 50, run the interpolation builder (passed as a function,
the dispatched variant of fasp_amg_interp), form R as the transpose of P and
the next operator by the Galerkin product. -/
def setupLoop (interp : dCSRmat → List ℤ → dCSRmat → iCSRmat → dCSRmat)
    (interp_type : ℤ) (max_row_sum strong_threshold : ℚ)
    (coarse_dof : ℕ) (max_levels : ℕ) :
    ℕ → List dCSRmat → List dCSRmat → List dCSRmat → List (List ℤ) → ℕ →
    SetupResult
  | 0, As, Ps, Rs, cfs, level => setupFinish As Ps Rs cfs level SUCCESS
  | fuel + 1, As, Ps, Rs, cfs, level =>
    let A := As.getD level default
    if A.row > max coarse_dof 50 ∧ level < max_levels - 1 then
      let co := fasp_amg_coarsening_rs_classic A interp_type max_row_sum
        strong_threshold
      if co.1 < 0 then setupFinish As Ps Rs cfs level co.1
      else
        let cfs1 := cfs ++ [co.2.1]
        let P0 := co.2.2.1
        if P0.col ≤ 50 then setupFinish As Ps Rs cfs1 level SUCCESS
        else
          let P1 := interp A co.2.1 P0 co.2.2.2
          let R1 := fasp_dcsr_trans P1
          let A1 := rapGalerkin R1 A P1
          setupLoop interp interp_type max_row_sum strong_threshold coarse_dof
            max_levels fuel (As ++ [A1]) (Ps ++ [P1]) (Rs ++ [R1]) cfs1
            (level + 1)
    else setupFinish As Ps Rs cfs level SUCCESS

/-- fasp_amg_setup_rs (amg_setup_rs.c) in the classical configuration, started
on the fine operator A0 with the direct-interpolation builder dispatched by
fasp_amg_interp for INTERP_REG (interp_RS with the configured truncation
threshold). -/
def fasp_amg_setup_rs_classic (A0 : dCSRmat) (max_row_sum strong_threshold
    truncation_threshold : ℚ) (coarse_dof max_levels : ℕ) : SetupResult :=
  setupLoop (fun A vec P0 _ => interp_RS A vec P0 truncation_threshold)
    INTERP_REG max_row_sum strong_threshold coarse_dof max_levels
    max_levels [A0] [] [] [] 0

/-- Spec-side reading of claim C1: the minimum over row i of A, capped above
by 0 (the spec's min_k a_ik with the cap). -/
def specRowMin (A : dCSRmat) (i : ℕ) : ℚ :=
  (dRowVal A i).foldl min 0

/-- Spec-side reading of claim C1: the diagonal value a_ii of row i (the first
stored entry with column index i, zero when absent). -/
def specAii (A : dCSRmat) (i : ℕ) : ℚ :=
  match (rowPos A.IA i).find? (fun p => A.JA.getD p 0 == i) with
  | some p => A.val.getD p 0
  | none => 0

/-- Spec-side reading of claim C1: the stored value at the off-diagonal
position (i,j) (the first entry of row i with column j, zero when absent). -/
def specAij (A : dCSRmat) (i j : ℕ) : ℚ :=
  match (rowPos A.IA i).find? (fun p => A.JA.getD p 0 == j) with
  | some p => A.val.getD p 0
  | none => 0

/-- Spec-side reading of claim C1: row i is discarded by the row-sum cap when
|sum_j a_ij| / |a_ii| > cap and cap < 1. -/
def specRowCapped (A : dCSRmat) (cap : ℚ) (i : ℕ) : Prop :=
  |(dRowVal A i).sum| / |specAii A i| > cap ∧ cap < 1

/-- Decidability of the row-sum cap test. -/
instance (A : dCSRmat) (cap : ℚ) (i : ℕ) : Decidable (specRowCapped A cap i) :=
  inferInstanceAs (Decidable (_ ∧ _))

/-- Spec-side reading of claim C1 as amended: position (i,j) of A is kept as a
strong edge iff it is a stored off-diagonal position of an uncapped row whose
value is strictly below th * min (the claim's non-strict inequality is the
amendment forced by the counterexample). -/
def specStrongEdge (A : dCSRmat) (th cap : ℚ) (i j : ℕ) : Prop :=
  j ∈ dRowJA A i ∧ j ≠ i ∧ ¬ specRowCapped A cap i ∧
    specAij A i j < th * specRowMin A i

/-- Decidability of the strong-edge predicate. -/
instance (A : dCSRmat) (th cap : ℚ) (i j : ℕ) :
    Decidable (specStrongEdge A th cap i j) :=
  inferInstanceAs (Decidable (_ ∧ _))

/-- Spec-side reading of claim C1: the strong columns of row i in row order. -/
def specStrongRow (A : dCSRmat) (th cap : ℚ) (i : ℕ) : List ℕ :=
  (dRowJA A i).filter (fun j => decide (specStrongEdge A th cap i j))

/-- Spec-side reading of claim C4 (spec section 4.6): the cycle pipeline
written as the spec states it: PreSmooth, residual, Restrict, zero the coarse
iterate and Recurse cycle_type times, Prolong, PostSmooth; the terminal level
only invokes CoarseSolve.  The recursive invocations call the code's own
cycle, making this the one-level pipeline the claim describes. -/
def specCyclePipeline (pre post csolve : dCSRmat → List ℚ → List ℚ → List ℚ)
    (levels : List AMGLevel) (num_levels : ℕ) (cycle_type : ℤ) (fuel level : ℕ)
    (st : List (List ℚ) × List (List ℚ)) : List (List ℚ) × List (List ℚ) :=
  let lvl := levels.getD level default
  if level < num_levels - 1 then
    let stPre := (st.1, st.2.set level (pre lvl.A (st.1.getD level []) (st.2.getD level [])))
    let r := residual lvl.A.row (stPre.1.getD level [])
      (matvec lvl.A (stPre.2.getD level []))
    let stRes := (stPre.1.set (level + 1) (matvec lvl.R r), stPre.2)
    let m1 := (levels.getD (level + 1) default).A.row
    let stZero := (stRes.1, stRes.2.set (level + 1) (List.replicate m1 0))
    let stRec := (List.range cycle_type.toNat).foldl
      (fun s _ => fasp_solver_mgrecur pre post csolve levels num_levels
        cycle_type fuel (level + 1) s) stZero
    let stPro := (stRec.1, stRec.2.set level
      (addvec lvl.A.row (stRec.2.getD level [])
        (matvec lvl.P (stRec.2.getD (level + 1) []))))
    (stPro.1, stPro.2.set level
      (post lvl.A (stPro.1.getD level []) (stPro.2.getD level [])))
  else
    (st.1, st.2.set level (csolve lvl.A (st.1.getD level []) (st.2.getD level [])))

/-- Concrete matrix refuting claim C1 as stated: row 0 holds the diagonal 2
and off-diagonal entries -1 and -2; with threshold 1/2 the entry (0,1) sits
exactly at the threshold -1 = (1/2) * (-2). -/
def Ac1 : dCSRmat :=
  { row := 3, col := 3, nnz := 7,
    IA := [0, 3, 5, 7],
    JA := [0, 1, 2, 0, 1, 1, 2],
    val := [2, -1, -2, -1, 1, -1, 1] }

/-- Concrete matrix refuting claim C2 as stated: row 0 depends strongly on
vertex 1, rows 1 and 2 have two nonzeros each but only weak (positive)
off-diagonal couplings, so vertex 2 ends fine with an empty strength row. -/
def Ac2 : dCSRmat :=
  { row := 3, col := 3, nnz := 6,
    IA := [0, 2, 4, 6],
    JA := [0, 1, 0, 1, 1, 2],
    val := [2, -1, 1, 1, 1, 1] }

/-- Concrete 2-by-2 matrix with a strong coupling in each row, used by the
witnesses: both rows hold their diagonal and one negative off-diagonal. -/
def Aw : dCSRmat :=
  { row := 2, col := 2, nnz := 4,
    IA := [0, 2, 4],
    JA := [0, 1, 0, 1],
    val := [2, -1, -1, 2] }

/-- A 51-row matrix with no stored entries: its strength graph has no edges
while its size passes the coarsening guard of the setup loop. -/
def Az : dCSRmat :=
  { row := 51, col := 51, nnz := 0,
    IA := List.replicate 52 0, JA := [], val := [] }

/-- Claim C1 as literally stated (with the non-strict threshold comparison
a_ij <= th * min): used by the counterexample below. -/
def specStrongEdgeClaimed (A : dCSRmat) (th cap : ℚ) (i j : ℕ) : Prop :=
  j ∈ dRowJA A i ∧ j ≠ i ∧ ¬ specRowCapped A cap i ∧
    specAij A i j ≤ th * specRowMin A i

/-- Decidability of the literal claim predicate. -/
instance (A : dCSRmat) (th cap : ℚ) (i j : ℕ) :
    Decidable (specStrongEdgeClaimed A th cap i j) :=
  inferInstanceAs (Decidable (_ ∧ _))

/-- Structural validity of a dCSRmat, the hypotheses of claim C10: row offsets
start at 0, are non-decreasing and end at nnz; the index and value arrays have
nnz entries; column indices lie in [0, col). -/
def csrValid (A : dCSRmat) : Prop :=
  A.IA.getD 0 0 = 0 ∧ A.IA.getD A.row 0 = A.nnz ∧
  (∀ k, k < A.row → A.IA.getD k 0 ≤ A.IA.getD (k + 1) 0) ∧
  A.JA.length = A.nnz ∧ A.val.length = A.nnz ∧
  (∀ p, p < A.nnz → A.JA.getD p 0 < A.col)

instance (A : dCSRmat) : Decidable (csrValid A) :=
  inferInstanceAs (Decidable (_ ∧ _))

/-- Structural validity of an iCSRmat (same as csrValid without values). -/
def icsrValid (S : iCSRmat) : Prop :=
  S.IA.getD 0 0 = 0 ∧ S.IA.getD S.row 0 = S.nnz ∧
  (∀ k, k < S.row → S.IA.getD k 0 ≤ S.IA.getD (k + 1) 0) ∧
  S.JA.length = S.nnz ∧
  (∀ p, p < S.nnz → S.JA.getD p 0 < S.col)

instance (S : iCSRmat) : Decidable (icsrValid S) :=
  inferInstanceAs (Decidable (_ ∧ _))

/-- Claim C2's coverage property of one vertex: it has a coarse strong
neighbor, or every strong neighbor is isolated (an empty strength row makes
the second disjunct hold vacuously). -/
def covered (S : iCSRmat) (vec : List ℤ) (v : ℕ) : Prop :=
  (∃ c ∈ iRowJA S v, vec.getD c 0 = CGPT) ∨
  (∀ j ∈ iRowJA S v, vec.getD j 0 = ISPT)

instance (S : iCSRmat) (vec : List ℤ) (v : ℕ) : Decidable (covered S vec v) :=
  inferInstanceAs (Decidable (_ ∨ _))

/-- The invariant of the outer loop of phase two of form_coarse_level, at the
point where vertex i is about to be examined: array lengths, the three-valued
labels left by phase one, coverage of the already examined fine vertices, the
accuracy of the graph_array markers (a marker holding the current i points at
a coarse strong neighbor of i; all other markers are older), col counting the
coarse vertices, the meaning of a live ci_tilde (a coarse vertex, and a strong
neighbor of vertex 0 while the mark is still zero), and the existence of a
fine or isolated vertex unless no vertex is coarse. -/
def p2Inv (S : iCSRmat) (row i : ℕ) (st : P2State) : Prop :=
  st.vec.length = row ∧
  st.ga.length = row ∧
  (∀ v, st.vec.getD v 0 = ISPT ∨ st.vec.getD v 0 = FGPT ∨
    st.vec.getD v 0 = CGPT) ∧
  (∀ v, v < i → st.vec.getD v 0 = FGPT → covered S st.vec v) ∧
  (∀ p, p < row → st.ga.getD p 0 < (i : ℤ) ∨
    (st.ga.getD p 0 = (i : ℤ) ∧ p ∈ iRowJA S i ∧ st.vec.getD p 0 = CGPT)) ∧
  st.col = (st.vec.count CGPT : ℤ) ∧
  (st.ci_tilde > -1 → st.vec.getD st.ci_tilde.toNat 0 = CGPT ∧
    (st.mark = 0 → st.ci_tilde.toNat ∈ iRowJA S 0)) ∧
  ((∃ v, v < row ∧ (st.vec.getD v 0 = FGPT ∨ st.vec.getD v 0 = ISPT)) ∨
    (∀ v, st.vec.getD v 0 ≠ CGPT))

/-- What claims C2 and C5 need of the state phase two leaves behind: the
length of the label array, coverage of every fine vertex, col counting the
coarse vertices, and a non-coarse vertex unless no vertex is coarse at all. -/
def p2Post (S : iCSRmat) (row : ℕ) (st : P2State) : Prop :=
  st.vec.length = row ∧
  (∀ v, v < row → st.vec.getD v 0 = FGPT → covered S st.vec v) ∧
  st.col = (st.vec.count CGPT : ℤ) ∧
  ((∃ v, v < row ∧ (st.vec.getD v 0 = FGPT ∨ st.vec.getD v 0 = ISPT)) ∨
    (∀ v, st.vec.getD v 0 ≠ CGPT))

/-- The invariant of the main loop (step 4) of form_coarse_level's phase one:
the labels array has row entries, the queue holds exactly the undecided
vertices, num_left counts them, col counts the coarse vertices, every queued
vertex has a nonempty transpose strength row, and either a fine or isolated
vertex already exists or no vertex is coarse yet. -/
def p1MCore (ST : iCSRmat) (row : ℕ) (st : P1State) : Prop :=
  st.vec.length = row ∧
  (∀ v ∈ st.q, st.vec.getD v 0 = UNPT) ∧
  (∀ v, st.vec.getD v 0 = UNPT → v ∈ st.q) ∧
  st.num_left = st.vec.count UNPT ∧
  st.col = (st.vec.count CGPT : ℤ) ∧
  (∀ v ∈ st.q, iRowJA ST v ≠ []) ∧
  st.q.Nodup ∧
  (∀ v, st.vec.getD v 0 = UNPT ∨ st.vec.getD v 0 = ISPT ∨
    st.vec.getD v 0 = FGPT ∨ st.vec.getD v 0 = CGPT)

def p1MInv (ST : iCSRmat) (row : ℕ) (st : P1State) : Prop :=
  p1MCore ST row st ∧
  ((∃ v, v < row ∧ (st.vec.getD v 0 = FGPT ∨ st.vec.getD v 0 = ISPT)) ∨
    (∀ v, st.vec.getD v 0 ≠ CGPT))

/-- The invariant of step 3 of form_coarse_level's phase one after the first
i vertices have been processed (vec0 and lam1 are the arrays prepared by
steps 1 and 2). -/
def p1SInv (ST : iCSRmat) (row : ℕ) (vec0 lam1 : List ℤ) (i : ℕ)
    (st : P1State) : Prop :=
  st.vec.length = row ∧
  (∀ v ∈ st.q, st.vec.getD v 0 = UNPT) ∧
  (∀ v, v < i → st.vec.getD v 0 = UNPT → v ∈ st.q) ∧
  st.num_left = st.vec.count UNPT ∧
  (∀ v, i ≤ v → st.vec.getD v 0 = vec0.getD v 0) ∧
  (∀ v, st.vec.getD v 0 = FGPT → lam1.getD v 0 ≤ 0) ∧
  (∀ v, lam1.getD v 0 ≤ st.lam.getD v 0) ∧
  (∀ v ∈ st.q, v < i) ∧
  (∀ v, st.vec.getD v 0 = UNPT ∨ st.vec.getD v 0 = ISPT ∨
    st.vec.getD v 0 = FGPT) ∧
  (∀ v, v < row → st.vec.getD v 0 = FGPT → vec0.getD v 0 = UNPT) ∧
  st.col = 0 ∧
  (∀ v ∈ st.q, iRowJA ST v ≠ []) ∧
  (∀ v, lam1.getD v 0 < st.lam.getD v 0 → iRowJA ST v ≠ []) ∧
  st.q.Nodup

/-! ## Generic list lemmas -/

theorem getD_map_range {α : Type} (f : ℕ → α) (n i : ℕ) (d : α) (h : i < n) :
    ((List.range n).map f).getD i d = f i := by
  rw [List.getD_eq_getElem?_getD]
  simp [List.getElem?_range, h]

theorem getD_append_left {α : Type} (l l2 : List α) (i : ℕ) (d : α)
    (h : i < l.length) : ((l ++ l2).getD i d) = l.getD i d :=
  List.getD_append l l2 d i h

theorem getD_append_last {α : Type} (l : List α) (a d : α) :
    ((l ++ [a]).getD l.length d) = a := by
  rw [List.getD_eq_getElem?_getD, List.getElem?_append_right (le_refl _)]
  simp

theorem filterMap_guard_eq {α β : Type} (q : α → Bool) (f : α → β) (l : List α) :
    l.filterMap (fun a => if q a then some (f a) else none) = (l.filter q).map f := by
  induction l with
  | nil => rfl
  | cons a l ih =>
    by_cases h : q a
    · simp [List.filterMap_cons, List.filter_cons, h, ih]
    · simp [List.filterMap_cons, List.filter_cons, h, ih]

theorem getD_append_offset {α : Type} (pre suf : List α) (p : ℕ) (d : α) :
    (pre ++ suf).getD (pre.length + p) d = suf.getD p d := by
  rw [List.getD_eq_getElem?_getD, List.getD_eq_getElem?_getD,
    List.getElem?_append_right (Nat.le_add_right _ _)]
  have hpp : pre.length + p - pre.length = p := by omega
  rw [hpp]

theorem getD_append_at {α : Type} (l : List α) (a d : α) (i : ℕ)
    (h : i = l.length) : ((l ++ [a]).getD i d) = a := by
  subst h
  exact getD_append_last l a d

theorem map_getD_range' {α : Type} (d : α) (L : List α) (pre suf : List α) :
    (List.range' pre.length L.length).map (fun p => (pre ++ (L ++ suf)).getD p d)
      = L := by
  induction L generalizing pre with
  | nil => simp
  | cons a L ih =>
    rw [List.length_cons, List.range'_succ, List.map_cons]
    have hhead : (pre ++ (a :: L ++ suf)).getD pre.length d = a := by
      rw [List.getD_eq_getElem?_getD, List.getElem?_append_right (le_refl _)]
      simp
    have htail := ih (pre ++ [a])
    have e1 : (pre ++ [a]) ++ (L ++ suf) = pre ++ (a :: L ++ suf) := by simp
    rw [e1] at htail
    rw [List.length_append, List.length_singleton] at htail
    rw [hhead, htail]

theorem flatten_segment {α : Type} (d : α) (K : List (List α)) (i : ℕ)
    (h : i < K.length) :
    (List.range' (((K.map List.length).take i).sum) (K.getD i []).length).map
      (fun p => K.flatten.getD p d) = K.getD i [] := by
  induction K generalizing i with
  | nil => simp at h
  | cons L K ih =>
    cases i with
    | zero =>
      have := map_getD_range' d L [] K.flatten
      simpa using this
    | succ i =>
      have hi : i < K.length := by simpa using h
      have hget : (L :: K).getD (i + 1) [] = K.getD i [] := by
        simp [List.getD_cons_succ]
      have hsum : (((L :: K).map List.length).take (i + 1)).sum
          = L.length + ((K.map List.length).take i).sum := by
        simp
      rw [hget, hsum]
      have hr : List.range' (L.length + ((K.map List.length).take i).sum)
            (K.getD i []).length
          = (List.range' (((K.map List.length).take i).sum)
              (K.getD i []).length).map (fun p => L.length + p) := by
        rw [List.range'_eq_map_range, List.range'_eq_map_range, List.map_map]
        apply List.map_congr_left
        intro x _
        simp
        omega
      rw [hr, List.map_map]
      have hcong : List.map ((fun p => (L :: K).flatten.getD p d) ∘ fun p => L.length + p)
          (List.range' (((K.map List.length).take i).sum) (K.getD i []).length)
          = List.map (fun p => K.flatten.getD p d)
            (List.range' (((K.map List.length).take i).sum) (K.getD i []).length) := by
        apply List.map_congr_left
        intro p hp
        simp only [Function.comp_apply, List.flatten_cons]
        exact getD_append_offset L K.flatten p d
      rw [hcong, ih i hi]

theorem sum_foldl_eq {M : Type} [AddMonoid M] {l : List M} :
    l.foldl (fun s v => s + v) 0 = l.sum := by
  rw [List.sum_eq_foldl]

/-! ## Characterization of generate_S (claim C1) -/

/-- In a row with pairwise distinct column indices, the first position holding
column j is the only one: the find? of the marking pass returns the position
itself. -/
theorem find?_pos_unique (A : dCSRmat) (i : ℕ) (p : ℕ)
    (hnodup : (dRowJA A i).Nodup) (hp : p ∈ rowPos A.IA i) :
    (rowPos A.IA i).find? (fun q => A.JA.getD q 0 == A.JA.getD p 0) = some p := by
  have hsome : ((rowPos A.IA i).find?
      (fun q => A.JA.getD q 0 == A.JA.getD p 0)).isSome = true := by
    rw [List.find?_isSome]
    exact ⟨p, hp, by simp⟩
  rcases Option.isSome_iff_exists.mp hsome with ⟨p0, hp0⟩
  have hmem : p0 ∈ rowPos A.IA i := List.mem_of_find?_eq_some hp0
  have hpred : A.JA.getD p0 0 = A.JA.getD p 0 := by
    have := List.find?_some hp0
    simpa using this
  have : p0 = p :=
    List.inj_on_of_nodup_map hnodup hmem hp hpred
  rw [hp0, this]

/-- The value read by specAij at a stored column equals the stored value when
the row has pairwise distinct columns. -/
theorem specAij_at_pos (A : dCSRmat) (i p : ℕ)
    (hnodup : (dRowJA A i).Nodup) (hp : p ∈ rowPos A.IA i) :
    specAij A i (A.JA.getD p 0) = A.val.getD p 0 := by
  unfold specAij
  rw [find?_pos_unique A i p hnodup hp]

/-- The diagonal search of the marking pass finds position p exactly when p
holds the diagonal column (rows with pairwise distinct columns). -/
theorem diagFirst_iff (A : dCSRmat) (i p : ℕ)
    (hnodup : (dRowJA A i).Nodup) (hp : p ∈ rowPos A.IA i) :
    (rowPos A.IA i).find? (fun q => A.JA.getD q 0 == i) = some p ↔
      A.JA.getD p 0 = i := by
  constructor
  · intro h
    have := List.find?_some h
    simpa using this
  · intro h
    have := find?_pos_unique A i p hnodup hp
    rw [h] at this
    exact this

/-- The getdiag value of row i equals the spec-side a_ii when the matrix has
at least as many columns as rows. -/
theorem getdiag_eq_specAii (A : dCSRmat) (i : ℕ) (hi : i < A.row)
    (hsq : A.row ≤ A.col) :
    (fasp_dcsr_getdiag A).getD i 0 = specAii A i := by
  unfold fasp_dcsr_getdiag specAii
  rw [getD_map_range]
  omega

/-- The cap test computed by generate_S agrees with the spec-side cap test
when the diagonal is at least SMALLREAL in magnitude. -/
theorem capped_code_iff (A : dCSRmat) (cap : ℚ) (i : ℕ) (hi : i < A.row)
    (hsq : A.row ≤ A.col) (hsmall : SMALLREAL ≤ |specAii A i|) :
    ((|(dRowVal A i).foldl (fun s v => s + v) 0| /
        max SMALLREAL |(fasp_dcsr_getdiag A).getD i 0| > cap) ∧ cap < 1)
      ↔ specRowCapped A cap i := by
  rw [getdiag_eq_specAii A i hi hsq, max_eq_right hsmall, sum_foldl_eq]
  exact Iff.rfl

/-- The kept row of the generate_S marking/compaction equals the spec-side
strong row under the amended (strict) threshold rule. -/
theorem genSkeptRow_eq_spec (A : dCSRmat) (th cap : ℚ) (i : ℕ)
    (hi : i < A.row) (hsq : A.row ≤ A.col)
    (hnodup : (dRowJA A i).Nodup)
    (hsmall : SMALLREAL ≤ |specAii A i|) :
    genSkeptRow A cap th (fasp_dcsr_getdiag A) i = specStrongRow A th cap i := by
  unfold genSkeptRow genSmarkRow specStrongRow
  rw [List.filterMap_map]
  unfold dRowJA
  rw [List.filter_map]
  rw [← filterMap_guard_eq ((fun j => decide (specStrongEdge A th cap i j)) ∘
    (fun p => A.JA.getD p 0)) (fun p => A.JA.getD p 0) (rowPos A.IA i)]
  apply List.filterMap_congr
  intro p hp
  simp only [Function.comp_apply, decide_eq_true_eq]
  have hmemJA : A.JA.getD p 0 ∈ dRowJA A i := by
    exact List.mem_map_of_mem _ hp
  by_cases hcap : (|(dRowVal A i).foldl (fun s v => s + v) 0| /
      max SMALLREAL |(fasp_dcsr_getdiag A).getD i 0| > cap) ∧ cap < 1
  · rw [if_pos hcap]
    have hspec : specRowCapped A cap i := (capped_code_iff A cap i hi hsq hsmall).mp hcap
    have hnse : ¬ specStrongEdge A th cap i (A.JA.getD p 0) := by
      intro hse
      exact hse.2.2.1 hspec
    rw [if_neg hnse]
    simp
  · rw [if_neg hcap]
    have hnspec : ¬ specRowCapped A cap i := fun h =>
      hcap ((capped_code_iff A cap i hi hsq hsmall).mpr h)
    by_cases hdiag : (rowPos A.IA i).find? (fun q => A.JA.getD q 0 == i) = some p
    · rw [if_pos hdiag]
      have hji : A.JA.getD p 0 = i := (diagFirst_iff A i p hnodup hp).mp hdiag
      have hnse : ¬ specStrongEdge A th cap i (A.JA.getD p 0) := by
        intro hse
        exact hse.2.1 hji
      rw [if_neg hnse]
      simp
    · rw [if_neg hdiag]
      have hji : A.JA.getD p 0 ≠ i := by
        intro h
        exact hdiag ((diagFirst_iff A i p hnodup hp).mpr h)
      have haij : specAij A i (A.JA.getD p 0) = A.val.getD p 0 :=
        specAij_at_pos A i p hnodup hp
      by_cases hth : th * ((dRowVal A i).foldl min 0) ≤ A.val.getD p 0
      · rw [if_pos hth]
        have hnse : ¬ specStrongEdge A th cap i (A.JA.getD p 0) := by
          intro hse
          have hlt := hse.2.2.2
          rw [haij] at hlt
          unfold specRowMin at hlt
          exact absurd hth (not_le.mpr hlt)
        rw [if_neg hnse]
        simp
      · rw [if_neg hth]
        have hlt : specAij A i (A.JA.getD p 0) < th * specRowMin A i := by
          rw [haij]
          unfold specRowMin
          exact lt_of_not_le hth
        have hyes : specStrongEdge A th cap i (A.JA.getD p 0) :=
          ⟨hmemJA, hji, hnspec, hlt⟩
        rw [if_pos hyes]
        rw [if_pos (by omega : ((A.JA.getD p 0 : ℤ)) > -1)]
        simp


/-- The row count of the strength matrix. -/
theorem generate_S_row (A : dCSRmat) (cap th : ℚ) :
    (generate_S A cap th).row = A.row := by
  simp only [generate_S]
  split <;> rfl

/-- The column array of generate_S is the concatenation of the kept rows (in
the no-survivor branch both sides are empty). -/
theorem generate_S_JA_eq (A : dCSRmat) (cap th : ℚ) :
    (generate_S A cap th).JA =
      ((List.range A.row).map (genSkeptRow A cap th (fasp_dcsr_getdiag A))).flatten := by
  simp only [generate_S]
  split
  · rfl
  · rename_i h
    have htot : (((List.range A.row).map
        (genSkeptRow A cap th (fasp_dcsr_getdiag A))).map List.length).foldl
        (fun s c => s + c) 0 = 0 := by omega
    rw [sum_foldl_eq] at htot
    have : (((List.range A.row).map
        (genSkeptRow A cap th (fasp_dcsr_getdiag A))).flatten).length = 0 := by
      rw [List.length_flatten]
      exact htot
    exact (List.eq_nil_of_length_eq_zero this).symm

/-- The nonzero count of generate_S is the total number of kept entries. -/
theorem generate_S_nnz_eq (A : dCSRmat) (cap th : ℚ) :
    (generate_S A cap th).nnz =
      ((List.range A.row).map (genSkeptRow A cap th (fasp_dcsr_getdiag A))).flatten.length := by
  have hJ := generate_S_JA_eq A cap th
  simp only [generate_S]
  simp only [generate_S] at hJ
  split
  · rename_i h
    simp only []
    rw [List.length_flatten, ← sum_foldl_eq]
  · rename_i h
    simp only []
    split at hJ
    · omega
    · rw [← hJ]
      rfl

/-- The offset array of generate_S below the last slot holds the partial sums
of the kept row lengths. -/
theorem generate_S_IA_getD (A : dCSRmat) (cap th : ℚ) (i : ℕ) (hi : i < A.row) :
    (generate_S A cap th).IA.getD i 0 =
      ((((List.range A.row).map (genSkeptRow A cap th (fasp_dcsr_getdiag A))).map
        List.length).take i).sum := by
  have hlen : ((List.range A.row).map (fun i =>
      (((((List.range A.row).map (genSkeptRow A cap th (fasp_dcsr_getdiag A))).map
        List.length)).take i).foldl (fun s c => s + c) 0)).length = A.row := by
    simp
  simp only [generate_S]
  split <;>
  · rw [getD_append_left _ _ i 0 (by rw [hlen] ; exact hi)]
    rw [getD_map_range _ _ _ _ hi]
    rw [sum_foldl_eq]

/-- When some entry survives, the last offset slot holds the total count. -/
theorem generate_S_IA_last (A : dCSRmat) (cap th : ℚ)
    (h : (generate_S A cap th).nnz ≠ 0) :
    (generate_S A cap th).IA.getD A.row 0 =
      ((((List.range A.row).map (genSkeptRow A cap th (fasp_dcsr_getdiag A))).map
        List.length)).sum := by
  have hnnz := generate_S_nnz_eq A cap th
  simp only [generate_S]
  simp only [generate_S] at hnnz h
  split
  · rename_i hpos
    simp only []
    rw [getD_append_at _ _ _ _ (by simp)]
    rw [sum_foldl_eq]
  · rename_i hneg
    split at h
    · omega
    · simp at h

/-- Row i of the strength matrix is exactly the kept row of the marking pass,
whenever some entry survived anywhere. -/
theorem generate_S_iRowJA (A : dCSRmat) (cap th : ℚ)
    (hnnz : (generate_S A cap th).nnz ≠ 0) (i : ℕ) (hi : i < A.row) :
    iRowJA (generate_S A cap th) i =
      genSkeptRow A cap th (fasp_dcsr_getdiag A) i := by
  have hK : ((List.range A.row).map
      (genSkeptRow A cap th (fasp_dcsr_getdiag A))).length = A.row := by simp
  have hKi : ((List.range A.row).map
      (genSkeptRow A cap th (fasp_dcsr_getdiag A))).getD i []
      = genSkeptRow A cap th (fasp_dcsr_getdiag A) i :=
    getD_map_range _ _ _ _ hi
  unfold iRowJA rowPos
  rw [generate_S_JA_eq A cap th]
  have hIAi := generate_S_IA_getD A cap th i hi
  have hIAsucc : (generate_S A cap th).IA.getD (i + 1) 0 =
      ((((List.range A.row).map (genSkeptRow A cap th (fasp_dcsr_getdiag A))).map
        List.length).take (i + 1)).sum := by
    rcases Nat.lt_or_ge (i + 1) A.row with hlt | hge
    · exact generate_S_IA_getD A cap th (i + 1) hlt
    · have : i + 1 = A.row := by omega
      rw [this, generate_S_IA_last A cap th hnnz]
      rw [List.take_of_length_le (by simp)]
  rw [hIAi, hIAsucc]
  have hsucc : ((((List.range A.row).map
      (genSkeptRow A cap th (fasp_dcsr_getdiag A))).map List.length).take (i + 1)).sum
      = ((((List.range A.row).map
        (genSkeptRow A cap th (fasp_dcsr_getdiag A))).map List.length).take i).sum
        + (genSkeptRow A cap th (fasp_dcsr_getdiag A) i).length := by
    rw [List.sum_take_succ _ _ (by simp ; exact hi)]
    congr 1
    rw [List.getElem_map, List.getElem_map, List.getElem_range]
  rw [hsucc]
  have hdiff : (sum1 : ℕ) → sum1 + (genSkeptRow A cap th (fasp_dcsr_getdiag A) i).length - sum1
      = (genSkeptRow A cap th (fasp_dcsr_getdiag A) i).length := by omega
  rw [hdiff]
  have := flatten_segment 0 ((List.range A.row).map
    (genSkeptRow A cap th (fasp_dcsr_getdiag A))) i (by rw [hK] ; exact hi)
  rw [hKi] at this
  exact this

/-- Claim C1 (amended): for a CSR matrix whose rows contain their diagonal
with pairwise-distinct column indices and diagonals of magnitude at least
SMALLREAL, and a threshold th in (0,1), generate_S keeps an off-diagonal
position (i,j) as a strong edge iff a_ij < th * min_k a_ik (minimum capped
above by zero; the claim's non-strict comparison is amended to strict, which
is what the counterexample forces), except that a row with
|sum_j a_ij| / |a_ii| > max_row_sum (when max_row_sum < 1) keeps no edges;
diagonal positions are never kept, and the output is compacted: S's column
array is exactly the concatenation of the per-row strong-edge lists. -/
theorem generate_S_strong_edges (A : dCSRmat) (th cap : ℚ)
    (hth0 : 0 < th) (hth1 : th < 1)
    (hsq : A.row ≤ A.col)
    (hdiag : ∀ i < A.row, i ∈ dRowJA A i)
    (hnodup : ∀ i < A.row, (dRowJA A i).Nodup)
    (hsmall : ∀ i < A.row, SMALLREAL ≤ |specAii A i|) :
    ((generate_S A cap th).JA =
      ((List.range A.row).map (fun i => specStrongRow A th cap i)).flatten)
    ∧ ((generate_S A cap th).nnz =
      (((List.range A.row).map (fun i => specStrongRow A th cap i)).flatten).length)
    ∧ ((generate_S A cap th).nnz ≠ 0 → ∀ i < A.row, ∀ j : ℕ,
        (j ∈ iRowJA (generate_S A cap th) i ↔ specStrongEdge A th cap i j)) := by
  have hrows : ∀ i ∈ List.range A.row,
      genSkeptRow A cap th (fasp_dcsr_getdiag A) i = specStrongRow A th cap i := by
    intro i hi
    exact genSkeptRow_eq_spec A th cap i (List.mem_range.mp hi) hsq
      (hnodup i (List.mem_range.mp hi)) (hsmall i (List.mem_range.mp hi))
  have hmapeq : (List.range A.row).map (genSkeptRow A cap th (fasp_dcsr_getdiag A))
      = (List.range A.row).map (fun i => specStrongRow A th cap i) :=
    List.map_congr_left hrows
  refine ⟨?_, ?_, ?_⟩
  · rw [generate_S_JA_eq, hmapeq]
  · rw [generate_S_nnz_eq, hmapeq]
  · intro hnnz i hi j
    rw [generate_S_iRowJA A cap th hnnz i hi, hrows i (List.mem_range.mpr hi)]
    unfold specStrongRow
    rw [List.mem_filter]
    simp only [decide_eq_true_eq]
    constructor
    · rintro ⟨_, h⟩
      exact h
    · intro h
      exact ⟨h.1, h⟩

/-! ## Concrete evaluations of generate_S (kernel reduction cannot normalize
rational arithmetic, so the rational side is discharged by norm_num and the
discrete remainder by decide) -/

theorem ac1_find0 : (rowPos Ac1.IA 0).find? (fun p => Ac1.JA.getD p 0 == 0) = some 0 := by
  decide

theorem ac1_find1 : (rowPos Ac1.IA 1).find? (fun p => Ac1.JA.getD p 0 == 1) = some 4 := by
  decide

theorem ac1_find2 : (rowPos Ac1.IA 2).find? (fun p => Ac1.JA.getD p 0 == 2) = some 6 := by
  decide

theorem ac1_getdiag : fasp_dcsr_getdiag Ac1 = [2, 1, 1] := by
  unfold fasp_dcsr_getdiag
  rw [show min Ac1.row Ac1.col = 3 from rfl, show List.range 3 = [0, 1, 2] from by decide]
  simp only [List.map_cons, List.map_nil, ac1_find0, ac1_find1, ac1_find2]
  rfl

theorem ac1_mark0 : genSmarkRow Ac1 2 (1/2) [2, 1, 1] 0 = [-1, -1, 2] := by
  norm_num [genSmarkRow, show rowPos Ac1.IA 0 = [0, 1, 2] from by decide, ac1_find0,
    dRowVal, show Ac1.val = [2, -1, -2, -1, 1, -1, 1] from rfl,
    show Ac1.JA = [0, 1, 2, 0, 1, 1, 2] from rfl, min_def, SMALLREAL]

theorem ac1_mark1 : genSmarkRow Ac1 2 (1/2) [2, 1, 1] 1 = [0, -1] := by
  norm_num [genSmarkRow, show rowPos Ac1.IA 1 = [3, 4] from by decide, ac1_find1,
    dRowVal, show Ac1.val = [2, -1, -2, -1, 1, -1, 1] from rfl,
    show Ac1.JA = [0, 1, 2, 0, 1, 1, 2] from rfl, min_def, SMALLREAL]

theorem ac1_mark2 : genSmarkRow Ac1 2 (1/2) [2, 1, 1] 2 = [1, -1] := by
  norm_num [genSmarkRow, show rowPos Ac1.IA 2 = [5, 6] from by decide, ac1_find2,
    dRowVal, show Ac1.val = [2, -1, -2, -1, 1, -1, 1] from rfl,
    show Ac1.JA = [0, 1, 2, 0, 1, 1, 2] from rfl, min_def, SMALLREAL]

theorem genS_Ac1 : generate_S Ac1 2 (1/2) =
    { row := 3, col := 3, nnz := 3, IA := [0, 1, 2, 3], JA := [2, 0, 1] } := by
  have hk0 : genSkeptRow Ac1 2 (1/2) [2, 1, 1] 0 = [2] := by
    unfold genSkeptRow
    rw [ac1_mark0]
    decide
  have hk1 : genSkeptRow Ac1 2 (1/2) [2, 1, 1] 1 = [0] := by
    unfold genSkeptRow
    rw [ac1_mark1]
    decide
  have hk2 : genSkeptRow Ac1 2 (1/2) [2, 1, 1] 2 = [1] := by
    unfold genSkeptRow
    rw [ac1_mark2]
    decide
  simp only [generate_S, ac1_getdiag]
  rw [show (List.range Ac1.row) = [0, 1, 2] from by decide]
  simp only [List.map_cons, List.map_nil, hk0, hk1, hk2]
  decide

theorem ac2_find0 : (rowPos Ac2.IA 0).find? (fun p => Ac2.JA.getD p 0 == 0) = some 0 := by
  decide

theorem ac2_find1 : (rowPos Ac2.IA 1).find? (fun p => Ac2.JA.getD p 0 == 1) = some 3 := by
  decide

theorem ac2_find2 : (rowPos Ac2.IA 2).find? (fun p => Ac2.JA.getD p 0 == 2) = some 5 := by
  decide

theorem ac2_getdiag : fasp_dcsr_getdiag Ac2 = [2, 1, 1] := by
  unfold fasp_dcsr_getdiag
  rw [show min Ac2.row Ac2.col = 3 from rfl, show List.range 3 = [0, 1, 2] from by decide]
  simp only [List.map_cons, List.map_nil, ac2_find0, ac2_find1, ac2_find2]
  rfl

theorem ac2_mark0 : genSmarkRow Ac2 2 (1/2) [2, 1, 1] 0 = [-1, 1] := by
  norm_num [genSmarkRow, show rowPos Ac2.IA 0 = [0, 1] from by decide, ac2_find0,
    dRowVal, show Ac2.val = [2, -1, 1, 1, 1, 1] from rfl,
    show Ac2.JA = [0, 1, 0, 1, 1, 2] from rfl, min_def, SMALLREAL]

theorem ac2_mark1 : genSmarkRow Ac2 2 (1/2) [2, 1, 1] 1 = [-1, -1] := by
  norm_num [genSmarkRow, show rowPos Ac2.IA 1 = [2, 3] from by decide, ac2_find1,
    dRowVal, show Ac2.val = [2, -1, 1, 1, 1, 1] from rfl,
    show Ac2.JA = [0, 1, 0, 1, 1, 2] from rfl, min_def, SMALLREAL]

theorem ac2_mark2 : genSmarkRow Ac2 2 (1/2) [2, 1, 1] 2 = [-1, -1] := by
  norm_num [genSmarkRow, show rowPos Ac2.IA 2 = [4, 5] from by decide, ac2_find2,
    dRowVal, show Ac2.val = [2, -1, 1, 1, 1, 1] from rfl,
    show Ac2.JA = [0, 1, 0, 1, 1, 2] from rfl, min_def, SMALLREAL]

theorem genS_Ac2 : generate_S Ac2 2 (1/2) =
    { row := 3, col := 3, nnz := 1, IA := [0, 1, 1, 1], JA := [1] } := by
  have hk0 : genSkeptRow Ac2 2 (1/2) [2, 1, 1] 0 = [1] := by
    unfold genSkeptRow
    rw [ac2_mark0]
    decide
  have hk1 : genSkeptRow Ac2 2 (1/2) [2, 1, 1] 1 = [] := by
    unfold genSkeptRow
    rw [ac2_mark1]
    decide
  have hk2 : genSkeptRow Ac2 2 (1/2) [2, 1, 1] 2 = [] := by
    unfold genSkeptRow
    rw [ac2_mark2]
    decide
  simp only [generate_S, ac2_getdiag]
  rw [show (List.range Ac2.row) = [0, 1, 2] from by decide]
  simp only [List.map_cons, List.map_nil, hk0, hk1, hk2]
  decide

theorem aw_find0 : (rowPos Aw.IA 0).find? (fun p => Aw.JA.getD p 0 == 0) = some 0 := by
  decide

theorem aw_find1 : (rowPos Aw.IA 1).find? (fun p => Aw.JA.getD p 0 == 1) = some 3 := by
  decide

theorem aw_getdiag : fasp_dcsr_getdiag Aw = [2, 2] := by
  unfold fasp_dcsr_getdiag
  rw [show min Aw.row Aw.col = 2 from rfl, show List.range 2 = [0, 1] from by decide]
  simp only [List.map_cons, List.map_nil, aw_find0, aw_find1]
  rfl

theorem aw_specAii : ∀ i < Aw.row, SMALLREAL ≤ |specAii Aw i| := by
  intro i hi
  have h2 : Aw.row = 2 := rfl
  rw [h2] at hi
  interval_cases i
  · unfold specAii
    rw [aw_find0]
    norm_num [show Aw.val = [2, -1, -1, 2] from rfl, SMALLREAL]
  · unfold specAii
    rw [aw_find1]
    norm_num [show Aw.val = [2, -1, -1, 2] from rfl, SMALLREAL]

/-- Witness for the amended claim C1 theorem at the concrete matrix Aw with
threshold 1/2 and cap 2. -/
theorem generate_S_strong_edges_witness :
    (generate_S Aw 2 (1/2)).JA =
      ((List.range Aw.row).map (fun i => specStrongRow Aw (1/2) 2 i)).flatten :=
  (generate_S_strong_edges Aw (1/2) 2 (by norm_num) (by norm_num) (by decide)
    (by decide) (by decide) aw_specAii).1

/-- Counterexample to claim C1 as stated: in Ac1 with threshold 1/2 and cap 2
the off-diagonal entry (0,1) satisfies the claim's non-strict test
a_01 <= th * min (it ties the threshold exactly, -1 = (1/2)*(-2), in an
uncapped row), yet the strength matrix built by generate_S does not keep the
edge (0,1): the source keeps only strictly sub-threshold entries. -/
theorem generate_S_threshold_tie_dropped :
    specStrongEdgeClaimed Ac1 (1/2) 2 0 1 ∧
      (1 : ℕ) ∉ iRowJA (generate_S Ac1 2 (1/2)) 0 := by
  constructor
  · refine ⟨by decide, by decide, ?_, ?_⟩
    · unfold specRowCapped
      norm_num
    · unfold specAij specRowMin
      rw [show (rowPos Ac1.IA 0).find? (fun p => Ac1.JA.getD p 0 == 1) = some 1 from by decide]
      norm_num [dRowVal, show rowPos Ac1.IA 0 = [0, 1, 2] from by decide,
        show Ac1.val = [2, -1, -2, -1, 1, -1, 1] from rfl, min_def]
  · rw [genS_Ac1]
    decide

/-- Counterexample to claim C2 as stated: on Ac2 with threshold 1/2 and cap 2
(a strength matrix with one edge), the classical splitting with non-standard
interpolation leaves vertex 2 labeled fine although no coarse vertex is
reachable from it within two strength-graph hops (its strength row is empty). -/
theorem form_coarse_level_uncovered_fine :
    (form_coarse_level Ac2 (generate_S Ac2 2 (1/2)) Ac2.row INTERP_REG).1.getD 2 0 = FGPT
    ∧ ¬ ∃ c < Ac2.row,
        ((form_coarse_level Ac2 (generate_S Ac2 2 (1/2)) Ac2.row INTERP_REG).1.getD c 0 = CGPT
          ∧ (c ∈ iRowJA (generate_S Ac2 2 (1/2)) 2
            ∨ ∃ w ∈ iRowJA (generate_S Ac2 2 (1/2)) 2,
                (form_coarse_level Ac2 (generate_S Ac2 2 (1/2)) Ac2.row INTERP_REG).1.getD w 0 = FGPT
                  ∧ c ∈ iRowJA (generate_S Ac2 2 (1/2)) w)) := by
  rw [genS_Ac2]
  decide

/-! ## Further generic list lemmas (for the transpose and splitting proofs) -/

theorem getD_set_self {α : Type} (l : List α) (i : ℕ) (x d : α)
    (h : i < l.length) : (l.set i x).getD i d = x := by
  rw [List.getD_eq_getElem?_getD, List.getElem?_set_self (by simpa using h)]
  rfl

theorem getD_set_ne {α : Type} (l : List α) (i j : ℕ) (x d : α) (h : j ≠ i) :
    (l.set i x).getD j d = l.getD j d := by
  rw [List.getD_eq_getElem?_getD, List.getD_eq_getElem?_getD,
    List.getElem?_set_ne (by omega)]

theorem getD_default {α : Type} (l : List α) (i : ℕ) (d : α)
    (h : l.length ≤ i) : l.getD i d = d := by
  rw [List.getD_eq_getElem?_getD, List.getElem?_eq_none (by simpa using h)]
  rfl

theorem getD_mem {α : Type} (l : List α) (i : ℕ) (d : α) (h : i < l.length) :
    l.getD i d ∈ l := by
  rw [List.getD_eq_getElem?_getD, List.getElem?_eq_getElem h]
  exact List.getElem_mem h

theorem foldl_inv {α σ : Type} (f : σ → α → σ) (P : σ → Prop) (l : List α) :
    ∀ s : σ, (∀ s' a, a ∈ l → P s' → P (f s' a)) → P s → P (l.foldl f s) := by
  induction l with
  | nil => exact fun s _ hs => hs
  | cons a t ih =>
    intro s hstep hs
    exact ih (f s a) (fun s' b hb hP => hstep s' b (List.mem_cons_of_mem a hb) hP)
      (hstep s a (List.mem_cons_self a t) hs)

theorem foldl_prefix_inv {α σ : Type} (f : σ → α → σ) (L : List α)
    (Q : List α → σ → Prop)
    (hstep : ∀ E a r s, E ++ a :: r = L → Q E s → Q (E ++ [a]) (f s a)) :
    ∀ (rest E : List α) (s : σ), E ++ rest = L → Q E s → Q L (rest.foldl f s) := by
  intro rest
  induction rest with
  | nil =>
    intro E s hE hQ
    rw [List.foldl_nil]
    rw [List.append_nil] at hE
    exact hE ▸ hQ
  | cons a r ih =>
    intro E s hE hQ
    have h2 : (E ++ [a]) ++ r = L := by
      rw [← hE]
      simp
    exact ih (E ++ [a]) (f s a) h2 (hstep E a r s hE hQ)

theorem countP_lt_succ (L : List ℕ) (c : ℕ) :
    L.countP (fun x => x < c + 1) = L.countP (fun x => x < c) + L.count c := by
  induction L with
  | nil => rfl
  | cons a t ih =>
    simp only [List.countP_cons, List.count_cons, ih]
    rcases Nat.lt_trichotomy a c with h | h | h
    · have h1 : a < c + 1 := by omega
      have h2 : ¬ (a == c) := by simp; omega
      simp [h, h1, h2]
      omega
    · subst h
      simp
      omega
    · have h1 : ¬ (a < c + 1) := by omega
      have h2 : ¬ (a < c) := by omega
      have h3 : ¬ (a == c) := by simp; omega
      simp [h1, h2, h3]

theorem countP_lt_mono (L : List ℕ) {a b : ℕ} (h : a ≤ b) :
    L.countP (fun x => x < a) ≤ L.countP (fun x => x < b) := by
  induction b with
  | zero =>
    have : a = 0 := by omega
    subst this
    exact le_refl _
  | succ b ih =>
    rcases Nat.lt_or_ge a (b + 1) with h' | h'
    · calc L.countP (fun x => x < a) ≤ L.countP (fun x => x < b) := ih (by omega)
        _ ≤ _ := by rw [countP_lt_succ]; omega
    · have : a = b + 1 := by omega
      subst this
      exact le_refl _

theorem countP_lt_all (L : List ℕ) (m : ℕ) (h : ∀ x ∈ L, x < m) :
    L.countP (fun x => x < m) = L.length := by
  rw [List.countP_eq_length]
  intro a ha
  simpa using h a ha

theorem count_eq_filter_len {α : Type} (key : α → ℕ) (E : List α) (c : ℕ) :
    (E.map key).count c = (E.filter (fun e => key e == c)).length := by
  rw [List.count, List.countP_map, List.countP_eq_length_filter]
  rfl

theorem range'_append_consec (s m n : ℕ) :
    List.range' s m ++ List.range' (s + m) n = List.range' s (m + n) := by
  rw [Nat.add_comm m n]
  simp [List.range'_append]

theorem map_getD_self {α : Type} (d : α) (l : List α) :
    (List.range l.length).map (fun p => l.getD p d) = l := by
  induction l with
  | nil => rfl
  | cons a t ih =>
    rw [List.length_cons, List.range_succ_eq_map, List.map_cons, List.map_map]
    have h1 : (a :: t).getD 0 d = a := rfl
    have h2 : ((fun p => (a :: t).getD p d) ∘ (· + 1)) = fun p => t.getD p d := by
      funext p
      simp [List.getD_cons_succ]
    rw [h1, h2, ih]

theorem flatMap_range'_consec (off : ℕ → ℕ) :
    ∀ n, (∀ k, k < n → off k ≤ off (k + 1)) →
    (List.range n).flatMap (fun i => List.range' (off i) (off (i + 1) - off i)) =
      List.range' (off 0) (off n - off 0) := by
  intro n
  induction n with
  | zero => simp
  | succ n ih =>
    intro hmono
    rw [List.range_succ, List.flatMap_append, ih (fun k hk => hmono k (by omega))]
    simp only [List.flatMap_cons, List.flatMap_nil, List.append_nil]
    have h1 : off n = off 0 + (off n - off 0) := by
      have : off 0 ≤ off n := by
        clear ih
        induction n with
        | zero => exact le_refl _
        | succ k ihk =>
          exact le_trans (ihk (fun j hj => hmono j (by omega))) (hmono k (by omega))
      omega
    have h3 := range'_append_consec (off 0) (off n - off 0) (off (n + 1) - off n)
    rw [← h1] at h3
    rw [h3]
    have h2 : off n - off 0 + (off (n + 1) - off n) = off (n + 1) - off 0 := by
      have ha : off 0 ≤ off n := by omega
      have hb : off n ≤ off (n + 1) := hmono n (by omega)
      omega
    rw [h2]

/-- The counting pass of the transpose routines (BlaSparseCSR.c): after
folding the column list, slot c+2 holds the number of occurrences of column c
(columns at least m-1 are not counted; their slot would be out of range). -/
theorem pass1_char (m : ℕ) (CL : List ℕ) :
    (CL.foldl (fun ia c =>
        if c < m - 1 then ia.set (c + 2) (ia.getD (c + 2) 0 + 1) else ia)
      (List.replicate (m + 1) 0)).length = m + 1 ∧
    (CL.foldl (fun ia c =>
        if c < m - 1 then ia.set (c + 2) (ia.getD (c + 2) 0 + 1) else ia)
      (List.replicate (m + 1) 0)).getD 0 0 = 0 ∧
    (CL.foldl (fun ia c =>
        if c < m - 1 then ia.set (c + 2) (ia.getD (c + 2) 0 + 1) else ia)
      (List.replicate (m + 1) 0)).getD 1 0 = 0 ∧
    (∀ c, c < m - 1 →
      (CL.foldl (fun ia c =>
          if c < m - 1 then ia.set (c + 2) (ia.getD (c + 2) 0 + 1) else ia)
        (List.replicate (m + 1) 0)).getD (c + 2) 0 = CL.count c) := by
  refine foldl_prefix_inv _ CL
    (fun E ia => ia.length = m + 1 ∧ ia.getD 0 0 = 0 ∧ ia.getD 1 0 = 0 ∧
      ∀ c, c < m - 1 → ia.getD (c + 2) 0 = E.count c)
    ?_ CL [] (List.replicate (m + 1) 0) rfl ?_
  · intro E a r ia _ hQ
    obtain ⟨hlen, h0, h1, hc⟩ := hQ
    by_cases hcm : a < m - 1
    · rw [if_pos hcm]
      refine ⟨by rw [List.length_set, hlen], ?_, ?_, ?_⟩
      · rw [getD_set_ne _ _ _ _ _ (by omega), h0]
      · rw [getD_set_ne _ _ _ _ _ (by omega), h1]
      · intro c hcb
        by_cases hca : c = a
        · subst hca
          rw [getD_set_self _ _ _ _ (by rw [hlen]; omega), hc c hcb]
          rw [List.count_append]
          simp
        · rw [getD_set_ne _ _ _ _ _ (by omega), hc c hcb, List.count_append]
          have : List.count c [a] = 0 := by
            simp [List.count_cons]
            omega
          rw [this]
          omega
    · rw [if_neg hcm]
      refine ⟨hlen, h0, h1, ?_⟩
      intro c hcb
      rw [hc c hcb, List.count_append]
      have : List.count c [a] = 0 := by
        simp [List.count_cons]
        omega
      rw [this]
      omega
  · refine ⟨List.length_replicate _ _, by simp, by simp, ?_⟩
    intro c hcb
    simp

/-- The prefix-sum pass of the transpose routines: starting from the counting
pass, running the in-place accumulation over indices s..m turns every slot k
in [1, m] into the number of columns below k-1. -/
theorem prefix_fold_char (m : ℕ) (CL : List ℕ) :
    ∀ (n s : ℕ) (ia : List ℕ), 2 ≤ s → s + n = m + 1 →
    ia.length = m + 1 →
    ia.getD 0 0 = 0 → ia.getD 1 0 = 0 →
    (∀ k, 1 ≤ k → k < s → ia.getD k 0 = CL.countP (fun x => x < k - 1)) →
    (∀ k, s ≤ k → k ≤ m → ia.getD k 0 = CL.count (k - 2)) →
    ((List.range' s n).foldl
        (fun ia i => ia.set i (ia.getD i 0 + ia.getD (i - 1) 0)) ia).length = m + 1 ∧
    ((List.range' s n).foldl
        (fun ia i => ia.set i (ia.getD i 0 + ia.getD (i - 1) 0)) ia).getD 0 0 = 0 ∧
    (∀ k, 1 ≤ k → k ≤ m →
      ((List.range' s n).foldl
          (fun ia i => ia.set i (ia.getD i 0 + ia.getD (i - 1) 0)) ia).getD k 0 =
        CL.countP (fun x => x < k - 1)) := by
  intro n
  induction n with
  | zero =>
    intro s ia hs hsum hlen h0 h1 hlow hhigh
    refine ⟨hlen, h0, ?_⟩
    intro k hk1 hkm
    exact hlow k hk1 (by omega)
  | succ n ih =>
    intro s ia hs hsum hlen h0 h1 hlow hhigh
    rw [List.range'_succ, List.foldl_cons]
    have hsm : s ≤ m := by omega
    have hvs : ia.getD s 0 = CL.count (s - 2) := hhigh s (le_refl s) hsm
    have hvp : ia.getD (s - 1) 0 = CL.countP (fun x => x < s - 2) := by
      have := hlow (s - 1) (by omega) (by omega)
      have e1 : s - 1 - 1 = s - 2 := by omega
      rw [e1] at this
      exact this
    have hsumval : ia.getD s 0 + ia.getD (s - 1) 0 = CL.countP (fun x => x < s - 1) := by
      rw [hvs, hvp]
      have e2 : s - 1 = (s - 2) + 1 := by omega
      rw [e2, countP_lt_succ]
      omega
    refine ih (s + 1) (ia.set s (ia.getD s 0 + ia.getD (s - 1) 0)) (by omega)
      (by omega) (by rw [List.length_set, hlen]) ?_ ?_ ?_ ?_
    · rw [getD_set_ne _ _ _ _ _ (by omega), h0]
    · rw [getD_set_ne _ _ _ _ _ (by omega), h1]
    · intro k hk1 hks
      by_cases hkeq : k = s
      · subst hkeq
        rw [getD_set_self _ _ _ _ (by rw [hlen]; omega), hsumval]
      · rw [getD_set_ne _ _ _ _ _ hkeq]
        exact hlow k hk1 (by omega)
    · intro k hk1 hkm
      rw [getD_set_ne _ _ _ _ _ (by omega)]
      exact hhigh k (by omega) hkm

/-- Full characterization of transCore (the two passes shared by
fasp_dcsr_trans and fasp_icsr_trans): the returned offset slot k counts the
entries with column below k, and for every column c the output positions
starting at that offset hold, in input order, the rows and values of the
entries with column c. -/
theorem transCore_char (m nnz : ℕ) (JAfirst : List ℕ)
    (entries : List (ℕ × ℕ × ℚ))
    (hm : ∀ c ∈ JAfirst, c < m)
    (hEC : entries.map (fun e => e.2.1) = JAfirst)
    (hlen : JAfirst.length = nnz) :
    (transCore m nnz JAfirst entries).1.length = m + 1 ∧
    (transCore m nnz JAfirst entries).2.1.length = nnz ∧
    (transCore m nnz JAfirst entries).2.2.length = nnz ∧
    (∀ k, k ≤ m → (transCore m nnz JAfirst entries).1.getD k 0 =
      JAfirst.countP (fun x => x < k)) ∧
    (∀ c, c < m → ∀ t, t < (entries.filter (fun e => e.2.1 == c)).length →
      (transCore m nnz JAfirst entries).2.1.getD
          (JAfirst.countP (fun x => x < c) + t) 0 =
        ((entries.filter (fun e => e.2.1 == c)).map (fun e => e.1)).getD t 0 ∧
      (transCore m nnz JAfirst entries).2.2.getD
          (JAfirst.countP (fun x => x < c) + t) 0 =
        ((entries.filter (fun e => e.2.1 == c)).map (fun e => e.2.2)).getD t 0) := by
  have hcnt_ents : ∀ c, (entries.filter (fun e => e.2.1 == c)).length =
      JAfirst.count c := by
    intro c
    rw [← hEC, count_eq_filter_len]
  rcases Nat.eq_zero_or_pos m with hm0 | hmpos
  · subst hm0
    have hJ : JAfirst = [] := by
      cases JAfirst with
      | nil => rfl
      | cons a t => exact absurd (hm a (by simp)) (by omega)
    have hE : entries = [] := by
      cases entries with
      | nil => rfl
      | cons e t =>
        rw [hJ] at hEC
        simp at hEC
    have hnnz : nnz = 0 := by
      rw [hJ] at hlen
      simpa using hlen.symm
    subst hnnz
    rw [hJ, hE]
    decide
  -- name the three passes
  have htc : transCore m nnz JAfirst entries =
      entries.foldl (fun st e =>
        (st.1.set (e.2.1 + 1) (st.1.getD (e.2.1 + 1) 0 + 1),
         st.2.1.set (st.1.getD (e.2.1 + 1) 0) e.1,
         st.2.2.set (st.1.getD (e.2.1 + 1) 0) e.2.2))
        ((List.range' 2 (m - 1)).foldl
          (fun ia i => ia.set i (ia.getD i 0 + ia.getD (i - 1) 0))
          (JAfirst.foldl (fun ia c =>
              if c < m - 1 then ia.set (c + 2) (ia.getD (c + 2) 0 + 1) else ia)
            (List.replicate (m + 1) 0)),
         List.replicate nnz 0, List.replicate nnz (0 : ℚ)) := rfl
  have hp1 := pass1_char m JAfirst
  have hlow : ∀ k, 1 ≤ k → k < 2 →
      (JAfirst.foldl (fun ia c =>
          if c < m - 1 then ia.set (c + 2) (ia.getD (c + 2) 0 + 1) else ia)
        (List.replicate (m + 1) 0)).getD k 0 =
      JAfirst.countP (fun x => x < k - 1) := by
    intro k hk1 hk2
    have hk : k = 1 := by omega
    subst hk
    rw [hp1.2.2.1]
    symm
    exact List.countP_eq_zero.mpr (fun a ha => by simp)
  have hhigh : ∀ k, 2 ≤ k → k ≤ m →
      (JAfirst.foldl (fun ia c =>
          if c < m - 1 then ia.set (c + 2) (ia.getD (c + 2) 0 + 1) else ia)
        (List.replicate (m + 1) 0)).getD k 0 = JAfirst.count (k - 2) := by
    intro k hk1 hk2
    have h := hp1.2.2.2 (k - 2) (by omega)
    have ek : k - 2 + 2 = k := by omega
    rw [ek] at h
    exact h
  have hp2 := prefix_fold_char m JAfirst (m - 1) 2 _ (le_refl 2) (by omega)
    hp1.1 hp1.2.1 hp1.2.2.1 hlow hhigh
  -- the scattering pass
  have hmain := foldl_prefix_inv
    (fun (st : List ℕ × List ℕ × List ℚ) (e : ℕ × ℕ × ℚ) =>
      (st.1.set (e.2.1 + 1) (st.1.getD (e.2.1 + 1) 0 + 1),
       st.2.1.set (st.1.getD (e.2.1 + 1) 0) e.1,
       st.2.2.set (st.1.getD (e.2.1 + 1) 0) e.2.2))
    entries
    (fun E st =>
      st.1.length = m + 1 ∧ st.2.1.length = nnz ∧ st.2.2.length = nnz ∧
      st.1.getD 0 0 = 0 ∧
      (∀ c, c < m → st.1.getD (c + 1) 0 =
        JAfirst.countP (fun x => x < c) +
          (E.filter (fun e => e.2.1 == c)).length) ∧
      (∀ c, c < m → ∀ t, t < (E.filter (fun e => e.2.1 == c)).length →
        st.2.1.getD (JAfirst.countP (fun x => x < c) + t) 0 =
          ((E.filter (fun e => e.2.1 == c)).map (fun e => e.1)).getD t 0 ∧
        st.2.2.getD (JAfirst.countP (fun x => x < c) + t) 0 =
          ((E.filter (fun e => e.2.1 == c)).map (fun e => e.2.2)).getD t 0))
    ?step entries []
    ((List.range' 2 (m - 1)).foldl
      (fun ia i => ia.set i (ia.getD i 0 + ia.getD (i - 1) 0))
      (JAfirst.foldl (fun ia c =>
          if c < m - 1 then ia.set (c + 2) (ia.getD (c + 2) 0 + 1) else ia)
        (List.replicate (m + 1) 0)),
     List.replicate nnz 0, List.replicate nnz (0 : ℚ))
    rfl ?base
  case base =>
    refine ⟨hp2.1, List.length_replicate _ _, List.length_replicate _ _,
      hp2.2.1, ?_, ?_⟩
    · intro c hc
      have h := hp2.2.2 (c + 1) (by omega) (by omega)
      have ec : c + 1 - 1 = c := by omega
      rw [ec] at h
      simpa using h
    · intro c hc t ht
      simp at ht
  case step =>
    intro E a r s hEr hQ
    obtain ⟨hL1, hL2, hL3, h0, h5, h6⟩ := hQ
    have hac : a.2.1 < m := by
      have hmem : a.2.1 ∈ JAfirst := by
        rw [← hEC]
        refine List.mem_map_of_mem _ ?_
        rw [← hEr]
        exact List.mem_append_right _ (List.mem_cons_self _ _)
      exact hm _ hmem
    have hEfilter : ∀ c, (entries.filter (fun e => e.2.1 == c)).length =
        (E.filter (fun e => e.2.1 == c)).length +
          ((a :: r).filter (fun e => e.2.1 == c)).length := by
      intro c
      rw [← hEr, List.filter_append, List.length_append]
    have hlt_cnt : (E.filter (fun e => e.2.1 == a.2.1)).length <
        (entries.filter (fun e => e.2.1 == a.2.1)).length := by
      rw [hEfilter]
      rw [List.filter_cons]
      simp
    have hle_cnt : ∀ c, (E.filter (fun e => e.2.1 == c)).length ≤
        (entries.filter (fun e => e.2.1 == c)).length := by
      intro c
      rw [hEfilter]
      omega
    have hreg : ∀ c, JAfirst.countP (fun x => x < c) +
        (entries.filter (fun e => e.2.1 == c)).length =
        JAfirst.countP (fun x => x < c + 1) := by
      intro c
      rw [hcnt_ents c, countP_lt_succ]
    have hub : ∀ c, JAfirst.countP (fun x => x < c) +
        (entries.filter (fun e => e.2.1 == c)).length ≤ nnz := by
      intro c
      rw [hreg c, ← hlen]
      exact List.countP_le_length _
    have hk := h5 a.2.1 hac
    have hklt : s.1.getD (a.2.1 + 1) 0 < nnz := by
      have h1 := hub a.2.1
      omega
    have hfeqa : (E ++ [a]).filter (fun e => e.2.1 == a.2.1) =
        E.filter (fun e => e.2.1 == a.2.1) ++ [a] := by
      rw [List.filter_append, List.filter_cons]
      simp
    have hfne : ∀ c, c ≠ a.2.1 → (E ++ [a]).filter (fun e => e.2.1 == c) =
        E.filter (fun e => e.2.1 == c) := by
      intro c hca
      rw [List.filter_append, List.filter_cons]
      have hne : (a.2.1 == c) = false := by
        simp
        omega
      rw [hne]
      simp
    refine ⟨by simpa using hL1, by simpa using hL2, by simpa using hL3, ?_, ?_, ?_⟩
    · rw [getD_set_ne _ _ _ _ _ (by omega), h0]
    · intro c hc
      by_cases hca : c = a.2.1
      · subst hca
        rw [getD_set_self _ _ _ _ (by rw [hL1]; omega), hk, hfeqa,
          List.length_append]
        simp
        omega
      · rw [getD_set_ne _ _ _ _ _ (by omega), h5 c hc, hfne c hca]
    · intro c hc t ht
      by_cases hca : c = a.2.1
      · subst hca
        rw [hfeqa, List.length_append] at ht
        simp at ht
        rcases Nat.lt_or_ge t ((E.filter (fun e => e.2.1 == a.2.1)).length)
          with htl | htg
        · have hne : JAfirst.countP (fun x => x < a.2.1) + t ≠
              s.1.getD (a.2.1 + 1) 0 := by
            rw [hk]
            omega
          have h66 := h6 a.2.1 hac t htl
          constructor
          · rw [getD_set_ne _ _ _ _ _ hne, h66.1, hfeqa, List.map_append]
            rw [getD_append_left _ _ _ _ (by simpa using htl)]
          · rw [getD_set_ne _ _ _ _ _ hne, h66.2, hfeqa, List.map_append]
            rw [getD_append_left _ _ _ _ (by simpa using htl)]
        · have hte : t = (E.filter (fun e => e.2.1 == a.2.1)).length := by omega
          have hpos : JAfirst.countP (fun x => x < a.2.1) + t =
              s.1.getD (a.2.1 + 1) 0 := by
            rw [hk, hte]
          constructor
          · rw [hpos, getD_set_self _ _ _ _ (by rw [hL2]; exact hklt), hfeqa,
              List.map_append]
            symm
            exact getD_append_at _ _ _ _ (by simpa using hte)
          · rw [hpos, getD_set_self _ _ _ _ (by rw [hL3]; exact hklt), hfeqa,
              List.map_append]
            symm
            exact getD_append_at _ _ _ _ (by simpa using hte)
      · rw [hfne c hca] at ht
        have hne : JAfirst.countP (fun x => x < c) + t ≠
            s.1.getD (a.2.1 + 1) 0 := by
          rw [hk]
          rcases Nat.lt_or_ge c a.2.1 with hlt | hge
          · have h1 : JAfirst.countP (fun x => x < c) + t <
                JAfirst.countP (fun x => x < c + 1) := by
              have := hle_cnt c
              have := hreg c
              omega
            have h2 := countP_lt_mono JAfirst (show c + 1 ≤ a.2.1 by omega)
            omega
          · have hgt : a.2.1 + 1 ≤ c := by omega
            have h1 := countP_lt_mono JAfirst hgt
            have h2 := hreg a.2.1
            omega
        have h66 := h6 c hc t ht
        refine ⟨?_, ?_⟩
        · rw [getD_set_ne _ _ _ _ _ hne, h66.1, hfne c hca]
        · rw [getD_set_ne _ _ _ _ _ hne, h66.2, hfne c hca]
  -- assemble the conclusion
  rw [htc]
  obtain ⟨g1, g2, g3, g4, g5, g6⟩ := hmain
  refine ⟨g1, g2, g3, ?_, g6⟩
  intro k hk
  rcases Nat.eq_zero_or_pos k with hk0 | hkpos
  · subst hk0
    rw [g4]
    symm
    exact List.countP_eq_zero.mpr (fun a ha => by simp)
  · have hk1 : k = (k - 1) + 1 := by omega
    rw [hk1, g5 (k - 1) (by omega), hcnt_ents, countP_lt_succ]

theorem getD_map_lt {α β : Type} (f : α → β) (L : List α) (t : ℕ) (d : β)
    (h : t < L.length) : (L.map f).getD t d = f (L.get ⟨t, h⟩) := by
  rw [List.getD_eq_getElem?_getD, List.getElem?_map,
    List.getElem?_eq_getElem h]
  rfl

theorem forall_mem_of_forall_getD {α : Type} (l : List α) (d : α)
    (P : α → Prop) (h : ∀ p, p < l.length → P (l.getD p d)) :
    ∀ c ∈ l, P c := by
  intro c hc
  obtain ⟨i, hi, rfl⟩ := List.mem_iff_getElem.mp hc
  have := h i hi
  rw [List.getD_eq_getElem?_getD, List.getElem?_eq_getElem hi] at this
  exact this

theorem bucket_exists (CL : List ℕ) :
    ∀ (mm p : ℕ), p < CL.countP (fun x => x < mm) →
    ∃ c, c < mm ∧ CL.countP (fun x => x < c) ≤ p ∧
      p < CL.countP (fun x => x < c + 1) := by
  intro mm
  induction mm with
  | zero =>
    intro p hp
    have : CL.countP (fun x => x < 0) = 0 :=
      List.countP_eq_zero.mpr (fun a ha => by simp)
    omega
  | succ mm ih =>
    intro p hp
    rcases Nat.lt_or_ge p (CL.countP (fun x => x < mm)) with h | h
    · obtain ⟨c, hc, h1, h2⟩ := ih p h
      exact ⟨c, by omega, h1, h2⟩
    · exact ⟨mm, by omega, h, hp⟩

theorem getD_chain_mono (IA : List ℕ) (n : ℕ)
    (hmono : ∀ k, k < n → IA.getD k 0 ≤ IA.getD (k + 1) 0) :
    ∀ a b, a ≤ b → b ≤ n → IA.getD a 0 ≤ IA.getD b 0 := by
  intro a b
  induction b with
  | zero =>
    intro hab _
    have : a = 0 := by omega
    subst this
    exact le_refl _
  | succ b ihb =>
    intro hab hbn
    rcases Nat.lt_or_ge a (b + 1) with h | h
    · exact le_trans (ihb (by omega) (by omega)) (hmono b (by omega))
    · have : a = b + 1 := by omega
      subst this
      exact le_refl _

theorem map_range_pair {α β γ : Type} (L : List α) (f : α → β) (g : α → γ)
    (db : β) (dg : γ) :
    (List.range L.length).map
        (fun t => ((L.map f).getD t db, (L.map g).getD t dg)) =
      L.map (fun e => (f e, g e)) := by
  induction L with
  | nil => rfl
  | cons a t ih =>
    rw [List.length_cons, List.range_succ_eq_map, List.map_cons, List.map_map]
    have h1 : (((a :: t).map f).getD 0 db, ((a :: t).map g).getD 0 dg) =
        (f a, g a) := rfl
    have h2 : ((fun t' => (((a :: t).map f).getD t' db,
        ((a :: t).map g).getD t' dg)) ∘ (· + 1)) =
        fun t' => ((t.map f).getD t' db, (t.map g).getD t' dg) := by
      funext p
      simp [List.getD_cons_succ]
    rw [h1, h2, ih]
    rfl

/-- Under a valid structure, the column components of the row-major entry list
are exactly the first nnz column indices (the two transpose passes therefore
count the same multiset of columns). -/
theorem csrEntries_cols (A : dCSRmat) (h0 : A.IA.getD 0 0 = 0)
    (hlast : A.IA.getD A.row 0 = A.nnz)
    (hmono : ∀ k, k < A.row → A.IA.getD k 0 ≤ A.IA.getD (k + 1) 0)
    (hJAlen : A.JA.length = A.nnz) :
    (csrEntries A).map (fun e => e.2.1) = A.JA.take A.nnz := by
  unfold csrEntries
  rw [List.map_flatMap]
  have hinner : ∀ i ∈ List.range A.row,
      ((rowPos A.IA i).map
        (fun p => (i, A.JA.getD p 0, A.val.getD p 0))).map (fun e => e.2.1) =
      (rowPos A.IA i).map (fun p => A.JA.getD p 0) := by
    intro i _
    rw [List.map_map]
    rfl
  rw [List.flatMap_congr hinner]
  have hswap : (List.range A.row).flatMap
      (fun i => (rowPos A.IA i).map (fun p => A.JA.getD p 0)) =
      ((List.range A.row).flatMap (fun i => rowPos A.IA i)).map
        (fun p => A.JA.getD p 0) := by
    rw [List.map_flatMap]
  rw [hswap]
  have hflat := flatMap_range'_consec (fun i => A.IA.getD i 0) A.row hmono
  have hrp : (fun i => rowPos A.IA i) = (fun i =>
      List.range' (A.IA.getD i 0) (A.IA.getD (i + 1) 0 - A.IA.getD i 0)) := by
    funext i
    rfl
  rw [hrp, hflat]
  simp only []
  rw [h0, hlast, Nat.sub_zero, ← List.range_eq_range', ← hJAlen,
    List.take_length]
  exact map_getD_self 0 A.JA

/-- icsrEntries analogue of csrEntries_cols. -/
theorem icsrEntries_cols (S : iCSRmat) (h0 : S.IA.getD 0 0 = 0)
    (hlast : S.IA.getD S.row 0 = S.nnz)
    (hmono : ∀ k, k < S.row → S.IA.getD k 0 ≤ S.IA.getD (k + 1) 0)
    (hJAlen : S.JA.length = S.nnz) :
    (icsrEntries S).map (fun e => e.2.1) = S.JA.take S.nnz := by
  unfold icsrEntries
  rw [List.map_flatMap]
  have hinner : ∀ i ∈ List.range S.row,
      ((rowPos S.IA i).map
        (fun p => (i, S.JA.getD p 0, (0 : ℚ)))).map (fun e => e.2.1) =
      (rowPos S.IA i).map (fun p => S.JA.getD p 0) := by
    intro i _
    rw [List.map_map]
    rfl
  rw [List.flatMap_congr hinner]
  have hswap : (List.range S.row).flatMap
      (fun i => (rowPos S.IA i).map (fun p => S.JA.getD p 0)) =
      ((List.range S.row).flatMap (fun i => rowPos S.IA i)).map
        (fun p => S.JA.getD p 0) := by
    rw [List.map_flatMap]
  rw [hswap]
  have hflat := flatMap_range'_consec (fun i => S.IA.getD i 0) S.row hmono
  have hrp : (fun i => rowPos S.IA i) = (fun i =>
      List.range' (S.IA.getD i 0) (S.IA.getD (i + 1) 0 - S.IA.getD i 0)) := by
    funext i
    rfl
  rw [hrp, hflat]
  simp only []
  rw [h0, hlast, Nat.sub_zero, ← List.range_eq_range', ← hJAlen,
    List.take_length]
  exact map_getD_self 0 S.JA

/-- Membership in the row-major entry list of a dCSRmat. -/
theorem mem_csrEntries (A : dCSRmat) (e : ℕ × ℕ × ℚ) :
    e ∈ csrEntries A ↔ ∃ i, i < A.row ∧ ∃ p ∈ rowPos A.IA i,
      e = (i, A.JA.getD p 0, A.val.getD p 0) := by
  unfold csrEntries
  rw [List.mem_flatMap]
  constructor
  · rintro ⟨i, hi, hmem⟩
    obtain ⟨p, hp, rfl⟩ := List.mem_map.mp hmem
    exact ⟨i, List.mem_range.mp hi, p, hp, rfl⟩
  · rintro ⟨i, hi, p, hp, rfl⟩
    exact ⟨i, List.mem_range.mpr hi, List.mem_map_of_mem _ hp⟩

/-- Membership in the row-major entry list of an iCSRmat, phrased through the
row view iRowJA. -/
theorem mem_icsrEntries (S : iCSRmat) (i c : ℕ) :
    (i, c, (0 : ℚ)) ∈ icsrEntries S ↔ i < S.row ∧ c ∈ iRowJA S i := by
  unfold icsrEntries
  rw [List.mem_flatMap]
  constructor
  · rintro ⟨i', hi', hmem⟩
    obtain ⟨p, hp, heq⟩ := List.mem_map.mp hmem
    have hi2 : i' = i := congrArg Prod.fst heq
    subst hi2
    have hc : S.JA.getD p 0 = c := by
      have := congrArg (fun x => x.2.1) heq
      simpa using this
    refine ⟨List.mem_range.mp hi', ?_⟩
    unfold iRowJA
    rw [← hc]
    exact List.mem_map_of_mem _ hp
  · rintro ⟨hi, hc⟩
    obtain ⟨p, hp, hpc⟩ := List.mem_map.mp hc
    exact ⟨i, List.mem_range.mpr hi, List.mem_map.mpr ⟨p, hp, by rw [hpc]⟩⟩

theorem countP_pos_of_mem {α : Type} (l : List α) (p : α → Bool) (a : α)
    (ha : a ∈ l) (hp : p a) : 1 ≤ l.countP p := by
  induction l with
  | nil => cases ha
  | cons b t ih =>
    rw [List.countP_cons]
    rcases List.mem_cons.mp ha with h | h
    · subst h
      simp [hp]
    · have := ih h
      omega

theorem countP_lt_length_of_not {α : Type} (l : List α) (p : α → Bool) (a : α)
    (ha : a ∈ l) (hp : ¬ p a) : l.countP p < l.length := by
  induction l with
  | nil => cases ha
  | cons b t ih =>
    rw [List.countP_cons, List.length_cons]
    rcases List.mem_cons.mp ha with h | h
    · subst h
      simp only [hp]
      have := List.countP_le_length (l := t) (p := p)
      simp
      omega
    · have := ih h
      split <;> omega

theorem flatMap_single {β : Type} (n i : ℕ) (g : ℕ → List β) (hi : i < n)
    (hz : ∀ j, j < n → j ≠ i → g j = []) : (List.range n).flatMap g = g i := by
  induction n with
  | zero => omega
  | succ n ih =>
    rw [List.range_succ, List.flatMap_append]
    rcases Nat.lt_or_ge i n with h | h
    · rw [ih h (fun j hj => hz j (by omega))]
      simp [hz n (by omega) (by omega)]
    · have hin : i = n := by omega
      subst hin
      have hnil : (List.range i).flatMap g = [] := by
        rw [List.flatMap_eq_nil_iff]
        intro j hj
        exact hz j (by have := List.mem_range.mp hj; omega)
          (by have := List.mem_range.mp hj; omega)
      rw [hnil]
      simp

/-- Ordered bucket decomposition: concatenating, over ascending keys, the
sublists of R with that key reproduces R when R is sorted by key. -/
theorem sorted_buckets {α : Type} (key : α → ℕ) :
    ∀ (R : List α) (s n : ℕ),
    (∀ a ∈ R, s ≤ key a ∧ key a < s + n) →
    List.Pairwise (fun a b => key a ≤ key b) R →
    (List.range' s n).flatMap (fun j => R.filter (fun a => key a == j)) = R := by
  intro R
  induction R with
  | nil =>
    intro s n _ _
    rw [List.flatMap_eq_nil_iff]
    intro j _
    simp
  | cons a R' ih =>
    intro s n hbound hsort
    obtain ⟨hsa, han⟩ := hbound a (List.mem_cons_self a R')
    have hhead := (List.pairwise_cons.mp hsort).1
    have htail := (List.pairwise_cons.mp hsort).2
    have hsplit : List.range' s n =
        List.range' s (key a - s) ++ List.range' (key a) (n - (key a - s)) := by
      have h1 := range'_append_consec s (key a - s) (n - (key a - s))
      have h2 : s + (key a - s) = key a := by omega
      have h3 : key a - s + (n - (key a - s)) = n := by omega
      rw [h2, h3] at h1
      exact h1.symm
    rw [hsplit, List.flatMap_append]
    have hfirst : (List.range' s (key a - s)).flatMap
        (fun j => (a :: R').filter (fun b => key b == j)) = [] := by
      rw [List.flatMap_eq_nil_iff]
      intro j hj
      have hjlt : j < key a := by
        have := List.mem_range'_1.mp hj
        omega
      rw [List.filter_cons]
      have hne : (key a == j) = false := by
        simp
        omega
      rw [hne]
      simp only [Bool.false_eq_true, if_false]
      rw [List.filter_eq_nil_iff]
      intro b hb
      have := hhead b hb
      simp
      omega
    rw [hfirst, List.nil_append]
    have hn' : n - (key a - s) = (n - (key a - s) - 1) + 1 := by omega
    rw [hn', List.range'_succ, List.flatMap_cons]
    have hfa : (a :: R').filter (fun b => key b == key a) =
        a :: R'.filter (fun b => key b == key a) := by
      rw [List.filter_cons]
      simp
    rw [hfa]
    have hrest : (List.range' (key a + 1) (n - (key a - s) - 1)).flatMap
        (fun j => (a :: R').filter (fun b => key b == j)) =
        (List.range' (key a + 1) (n - (key a - s) - 1)).flatMap
        (fun j => R'.filter (fun b => key b == j)) := by
      apply List.flatMap_congr
      intro j hj
      have hjgt : key a < j := by
        have := List.mem_range'_1.mp hj
        omega
      rw [List.filter_cons]
      have hne : (key a == j) = false := by
        simp
        omega
      rw [hne]
      simp
    rw [hrest]
    have hIH := ih (key a) (n - (key a - s)) ?_ htail
    · rw [hn', List.range'_succ, List.flatMap_cons] at hIH
      rw [List.cons_append, hIH]
    · intro b hb
      refine ⟨hhead b hb, ?_⟩
      have := (hbound b (List.mem_cons_of_mem a hb)).2
      omega

/-! ## Characterization of the CSR transpose routines (claim C10) -/

theorem fasp_dcsr_trans_IA (A : dCSRmat) (h : csrValid A) :
    ∀ k, k ≤ A.col → (fasp_dcsr_trans A).IA.getD k 0 =
      (A.JA.take A.nnz).countP (fun x => x < k) := by
  obtain ⟨h0, hlast, hmono, hJAlen, hvlen, hcolb⟩ := h
  have htake : A.JA.take A.nnz = A.JA := by
    rw [← hJAlen, List.take_length]
  have hm : ∀ c ∈ A.JA.take A.nnz, c < A.col := by
    rw [htake]
    refine forall_mem_of_forall_getD A.JA 0 _ ?_
    intro p hp
    exact hcolb p (hJAlen ▸ hp)
  have hEC := csrEntries_cols A h0 hlast hmono hJAlen
  have hlenJF : (A.JA.take A.nnz).length = A.nnz := by
    rw [htake, hJAlen]
  have htcc := transCore_char A.col A.nnz (A.JA.take A.nnz) (csrEntries A)
    hm hEC hlenJF
  intro k hk
  exact htcc.2.2.2.1 k hk

theorem fasp_dcsr_trans_rows (A : dCSRmat) (h : csrValid A) :
    ∀ j, j < A.col → dRowPairs (fasp_dcsr_trans A) j =
      ((csrEntries A).filter (fun e => e.2.1 == j)).map
        (fun e => (e.1, e.2.2)) := by
  obtain ⟨h0, hlast, hmono, hJAlen, hvlen, hcolb⟩ := h
  have htake : A.JA.take A.nnz = A.JA := by
    rw [← hJAlen, List.take_length]
  have hm : ∀ c ∈ A.JA.take A.nnz, c < A.col := by
    rw [htake]
    refine forall_mem_of_forall_getD A.JA 0 _ ?_
    intro p hp
    exact hcolb p (hJAlen ▸ hp)
  have hEC := csrEntries_cols A h0 hlast hmono hJAlen
  have hlenJF : (A.JA.take A.nnz).length = A.nnz := by
    rw [htake, hJAlen]
  have htcc := transCore_char A.col A.nnz (A.JA.take A.nnz) (csrEntries A)
    hm hEC hlenJF
  intro j hj
  have hIA : (fasp_dcsr_trans A).IA =
      (transCore A.col A.nnz (A.JA.take A.nnz) (csrEntries A)).1 := rfl
  have hJA : (fasp_dcsr_trans A).JA =
      (transCore A.col A.nnz (A.JA.take A.nnz) (csrEntries A)).2.1 := rfl
  have hva : (fasp_dcsr_trans A).val =
      (transCore A.col A.nnz (A.JA.take A.nnz) (csrEntries A)).2.2 := rfl
  have hcnt : ((csrEntries A).filter (fun e => e.2.1 == j)).length =
      (A.JA.take A.nnz).count j := by
    rw [← hEC, count_eq_filter_len]
  unfold dRowPairs rowPos
  rw [hIA, hJA, hva, htcc.2.2.2.1 j (by omega), htcc.2.2.2.1 (j + 1) (by omega)]
  have hdiff : (A.JA.take A.nnz).countP (fun x => x < j + 1) -
      (A.JA.take A.nnz).countP (fun x => x < j) = (A.JA.take A.nnz).count j := by
    rw [countP_lt_succ]
    omega
  rw [hdiff, List.range'_eq_map_range, List.map_map]
  simp only [Function.comp_def]
  rw [← hcnt]
  have hpt : ∀ t ∈ List.range ((csrEntries A).filter
      (fun e => e.2.1 == j)).length,
      ((transCore A.col A.nnz (A.JA.take A.nnz) (csrEntries A)).2.1.getD
          ((A.JA.take A.nnz).countP (fun x => x < j) + t) 0,
        (transCore A.col A.nnz (A.JA.take A.nnz) (csrEntries A)).2.2.getD
          ((A.JA.take A.nnz).countP (fun x => x < j) + t) 0) =
      ((((csrEntries A).filter (fun e => e.2.1 == j)).map
          (fun e => e.1)).getD t 0,
        (((csrEntries A).filter (fun e => e.2.1 == j)).map
          (fun e => e.2.2)).getD t 0) := by
    intro t ht
    have h66 := htcc.2.2.2.2 j hj t (List.mem_range.mp ht)
    rw [h66.1, h66.2]
  rw [List.map_congr_left hpt]
  exact map_range_pair _ _ _ 0 0

theorem fasp_dcsr_trans_valid (A : dCSRmat) (h : csrValid A) :
    csrValid (fasp_dcsr_trans A) := by
  obtain ⟨h0, hlast, hmono, hJAlen, hvlen, hcolb⟩ := h
  have htake : A.JA.take A.nnz = A.JA := by
    rw [← hJAlen, List.take_length]
  have hm : ∀ c ∈ A.JA.take A.nnz, c < A.col := by
    rw [htake]
    refine forall_mem_of_forall_getD A.JA 0 _ ?_
    intro p hp
    exact hcolb p (hJAlen ▸ hp)
  have hEC := csrEntries_cols A h0 hlast hmono hJAlen
  have hlenJF : (A.JA.take A.nnz).length = A.nnz := by
    rw [htake, hJAlen]
  have htcc := transCore_char A.col A.nnz (A.JA.take A.nnz) (csrEntries A)
    hm hEC hlenJF
  have hcnt : ∀ c, ((csrEntries A).filter (fun e => e.2.1 == c)).length =
      (A.JA.take A.nnz).count c := by
    intro c
    rw [← hEC, count_eq_filter_len]
  have hrowT : (fasp_dcsr_trans A).row = A.col := rfl
  have hcolT : (fasp_dcsr_trans A).col = A.row := rfl
  have hnnzT : (fasp_dcsr_trans A).nnz = A.nnz := rfl
  have hIAe : (fasp_dcsr_trans A).IA =
      (transCore A.col A.nnz (A.JA.take A.nnz) (csrEntries A)).1 := rfl
  have hJAe : (fasp_dcsr_trans A).JA =
      (transCore A.col A.nnz (A.JA.take A.nnz) (csrEntries A)).2.1 := rfl
  have hvae : (fasp_dcsr_trans A).val =
      (transCore A.col A.nnz (A.JA.take A.nnz) (csrEntries A)).2.2 := rfl
  refine ⟨?_, ?_, ?_, ?_, ?_, ?_⟩
  · rw [hIAe, htcc.2.2.2.1 0 (by omega)]
    exact List.countP_eq_zero.mpr (fun a ha => by simp)
  · rw [hrowT, hnnzT, hIAe, htcc.2.2.2.1 A.col (le_refl _),
      countP_lt_all _ _ hm, hlenJF]
  · rw [hrowT]
    intro k hk
    rw [hIAe, htcc.2.2.2.1 k (by omega), htcc.2.2.2.1 (k + 1) (by omega)]
    exact countP_lt_mono _ (by omega)
  · rw [hnnzT, hJAe]
    exact htcc.2.1
  · rw [hnnzT, hvae]
    exact htcc.2.2.1
  · rw [hnnzT, hcolT]
    intro p hp
    have hpbucket : p < (A.JA.take A.nnz).countP (fun x => x < A.col) := by
      rw [countP_lt_all _ _ hm, hlenJF]
      exact hp
    obtain ⟨c, hc, hle, hlt⟩ := bucket_exists (A.JA.take A.nnz) A.col p hpbucket
    have hcs : (A.JA.take A.nnz).countP (fun x => x < c + 1) =
        (A.JA.take A.nnz).countP (fun x => x < c) + (A.JA.take A.nnz).count c :=
      countP_lt_succ _ _
    have ht : p = (A.JA.take A.nnz).countP (fun x => x < c) +
        (p - (A.JA.take A.nnz).countP (fun x => x < c)) := by omega
    have htb : p - (A.JA.take A.nnz).countP (fun x => x < c) <
        ((csrEntries A).filter (fun e => e.2.1 == c)).length := by
      rw [hcnt c]
      omega
    have h66 := (htcc.2.2.2.2 c hc _ htb).1
    rw [hJAe, ht, h66, getD_map_lt _ _ _ _ htb]
    have hmem : ((csrEntries A).filter (fun e => e.2.1 == c)).get
        ⟨p - (A.JA.take A.nnz).countP (fun x => x < c), htb⟩ ∈ csrEntries A :=
      List.mem_of_mem_filter (List.get_mem _ _ htb)
    obtain ⟨i, hi, pp, hpp, heq⟩ := (mem_csrEntries A _).mp hmem
    rw [heq]
    exact hi

theorem fasp_icsr_trans_IA (S : iCSRmat) (h : icsrValid S) :
    ∀ k, k ≤ S.col → (fasp_icsr_trans S).IA.getD k 0 =
      (S.JA.take S.nnz).countP (fun x => x < k) := by
  obtain ⟨h0, hlast, hmono, hJAlen, hcolb⟩ := h
  have htake : S.JA.take S.nnz = S.JA := by
    rw [← hJAlen, List.take_length]
  have hm : ∀ c ∈ S.JA.take S.nnz, c < S.col := by
    rw [htake]
    refine forall_mem_of_forall_getD S.JA 0 _ ?_
    intro p hp
    exact hcolb p (hJAlen ▸ hp)
  have hEC := icsrEntries_cols S h0 hlast hmono hJAlen
  have hlenJF : (S.JA.take S.nnz).length = S.nnz := by
    rw [htake, hJAlen]
  have htcc := transCore_char S.col S.nnz (S.JA.take S.nnz) (icsrEntries S)
    hm hEC hlenJF
  intro k hk
  exact htcc.2.2.2.1 k hk

theorem fasp_icsr_trans_rows (S : iCSRmat) (h : icsrValid S) :
    ∀ v, v < S.col → iRowJA (fasp_icsr_trans S) v =
      ((icsrEntries S).filter (fun e => e.2.1 == v)).map (fun e => e.1) := by
  obtain ⟨h0, hlast, hmono, hJAlen, hcolb⟩ := h
  have htake : S.JA.take S.nnz = S.JA := by
    rw [← hJAlen, List.take_length]
  have hm : ∀ c ∈ S.JA.take S.nnz, c < S.col := by
    rw [htake]
    refine forall_mem_of_forall_getD S.JA 0 _ ?_
    intro p hp
    exact hcolb p (hJAlen ▸ hp)
  have hEC := icsrEntries_cols S h0 hlast hmono hJAlen
  have hlenJF : (S.JA.take S.nnz).length = S.nnz := by
    rw [htake, hJAlen]
  have htcc := transCore_char S.col S.nnz (S.JA.take S.nnz) (icsrEntries S)
    hm hEC hlenJF
  intro v hv
  have hIA : (fasp_icsr_trans S).IA =
      (transCore S.col S.nnz (S.JA.take S.nnz) (icsrEntries S)).1 := rfl
  have hJA : (fasp_icsr_trans S).JA =
      (transCore S.col S.nnz (S.JA.take S.nnz) (icsrEntries S)).2.1 := rfl
  have hcnt : ((icsrEntries S).filter (fun e => e.2.1 == v)).length =
      (S.JA.take S.nnz).count v := by
    rw [← hEC, count_eq_filter_len]
  unfold iRowJA rowPos
  rw [hIA, hJA, htcc.2.2.2.1 v (by omega), htcc.2.2.2.1 (v + 1) (by omega)]
  have hdiff : (S.JA.take S.nnz).countP (fun x => x < v + 1) -
      (S.JA.take S.nnz).countP (fun x => x < v) = (S.JA.take S.nnz).count v := by
    rw [countP_lt_succ]
    omega
  rw [hdiff, List.range'_eq_map_range, List.map_map]
  simp only [Function.comp_def]
  rw [← hcnt]
  have hpt : ∀ t ∈ List.range ((icsrEntries S).filter
      (fun e => e.2.1 == v)).length,
      (transCore S.col S.nnz (S.JA.take S.nnz) (icsrEntries S)).2.1.getD
          ((S.JA.take S.nnz).countP (fun x => x < v) + t) 0 =
      (((icsrEntries S).filter (fun e => e.2.1 == v)).map
          (fun e => e.1)).getD t 0 := by
    intro t ht
    exact (htcc.2.2.2.2 v hv t (List.mem_range.mp ht)).1
  rw [List.map_congr_left hpt]
  have hlm : ((icsrEntries S).filter (fun e => e.2.1 == v)).length =
      (((icsrEntries S).filter (fun e => e.2.1 == v)).map
        (fun e => e.1)).length := by
    rw [List.length_map]
  rw [hlm]
  exact map_getD_self 0 _

theorem mem_icsrEntries_elim (S : iCSRmat) (e : ℕ × ℕ × ℚ)
    (he : e ∈ icsrEntries S) : e.1 < S.row ∧ e.2.1 ∈ iRowJA S e.1 := by
  unfold icsrEntries at he
  obtain ⟨i, hi, hmem⟩ := List.mem_flatMap.mp he
  obtain ⟨p, hp, rfl⟩ := List.mem_map.mp hmem
  refine ⟨List.mem_range.mp hi, ?_⟩
  unfold iRowJA
  exact List.mem_map_of_mem _ hp

/-- Membership in the transposed strength matrix: row v of the transpose
lists exactly the vertices whose strength row contains v. -/
theorem fasp_icsr_trans_mem (S : iCSRmat) (h : icsrValid S) (v j : ℕ)
    (hv : v < S.col) :
    j ∈ iRowJA (fasp_icsr_trans S) v ↔ (j < S.row ∧ v ∈ iRowJA S j) := by
  rw [fasp_icsr_trans_rows S h v hv]
  constructor
  · intro hm
    obtain ⟨e, he, rfl⟩ := List.mem_map.mp hm
    have hef := List.mem_filter.mp he
    have hcol : e.2.1 = v := by simpa using hef.2
    have := mem_icsrEntries_elim S e hef.1
    rw [hcol] at this
    exact this
  · rintro ⟨hj, hvj⟩
    have hmem : (j, v, (0 : ℚ)) ∈ icsrEntries S :=
      (mem_icsrEntries S j v).mpr ⟨hj, hvj⟩
    have hf : (j, v, (0 : ℚ)) ∈ (icsrEntries S).filter
        (fun e => e.2.1 == v) :=
      List.mem_filter.mpr ⟨hmem, by simp⟩
    exact List.mem_map_of_mem _ hf

theorem csrEntries_eq_rowPairs (M : dCSRmat) :
    csrEntries M = (List.range M.row).flatMap
      (fun i => (dRowPairs M i).map (fun pr => (i, pr.1, pr.2))) := by
  unfold csrEntries dRowPairs
  apply List.flatMap_congr
  intro i _
  rw [List.map_map]
  rfl

theorem dRowPairs_key_lt (A : dCSRmat) (h : csrValid A) (i : ℕ)
    (hi : i < A.row) : ∀ pr ∈ dRowPairs A i, pr.1 < A.col := by
  obtain ⟨h0, hlast, hmono, hJAlen, hvlen, hcolb⟩ := h
  intro pr hpr
  unfold dRowPairs rowPos at hpr
  obtain ⟨p, hp, rfl⟩ := List.mem_map.mp hpr
  have hmem := List.mem_range'_1.mp hp
  have hstep := hmono i hi
  have hchain := getD_chain_mono A.IA A.row hmono (i + 1) A.row (by omega)
    (le_refl _)
  have hpn : p < A.nnz := by omega
  exact hcolb p hpn

theorem fasp_dcsr_trans_double (A : dCSRmat) (h : csrValid A)
    (hsorted : ∀ i, i < A.row →
      List.Pairwise (fun p q => p.1 ≤ q.1) (dRowPairs A i)) :
    ∀ i, i < A.row →
      dRowPairs (fasp_dcsr_trans (fasp_dcsr_trans A)) i = dRowPairs A i := by
  intro i hi
  have hTv := fasp_dcsr_trans_valid A h
  have hrows2 := fasp_dcsr_trans_rows (fasp_dcsr_trans A) hTv i hi
  rw [hrows2, csrEntries_eq_rowPairs (fasp_dcsr_trans A), List.filter_flatMap,
    List.map_flatMap]
  have hz : ∀ j', j' < A.row → j' ≠ i →
      ((dRowPairs A j').map (fun pr => (j', pr.1, pr.2))).filter
        (fun e => e.1 == i) = [] := by
    intro j' hj' hne
    rw [List.filter_map]
    have hpred : ((fun (e : ℕ × ℕ × ℚ) => e.1 == i) ∘
        (fun pr : ℕ × ℚ => (j', pr.1, pr.2))) = fun _ => false := by
      funext pr
      simp
      omega
    rw [hpred, List.filter_false, List.map_nil]
  have hblock : (csrEntries A).filter (fun e => e.1 == i) =
      (dRowPairs A i).map (fun pr => (i, pr.1, pr.2)) := by
    rw [csrEntries_eq_rowPairs A, List.filter_flatMap,
      flatMap_single A.row i _ hi hz]
    rw [List.filter_map]
    have hpred : ((fun (e : ℕ × ℕ × ℚ) => e.1 == i) ∘
        (fun pr : ℕ × ℚ => (i, pr.1, pr.2))) = fun _ => true := by
      funext pr
      simp
    rw [hpred, List.filter_true]
  have hbucket : ∀ j ∈ List.range (fasp_dcsr_trans A).row,
      (((dRowPairs (fasp_dcsr_trans A) j).map
          (fun pr => (j, pr.1, pr.2))).filter (fun e => e.2.1 == i)).map
        (fun e => (e.1, e.2.2)) =
      (dRowPairs A i).filter (fun pr => pr.1 == j) := by
    intro j hjr
    have hj : j < A.col := List.mem_range.mp hjr
    rw [fasp_dcsr_trans_rows A h j hj]
    simp only [List.map_map, List.filter_map, Function.comp_def]
    rw [List.filter_comm, hblock]
    simp only [List.filter_map, List.map_map, Function.comp_def]
    have hfix : ∀ pr ∈ (dRowPairs A i).filter (fun pr => pr.1 == j),
        ((j : ℕ), pr.2) = pr := by
      intro pr hpr
      have hj2 : pr.1 = j := by simpa using (List.mem_filter.mp hpr).2
      rw [← hj2]
    rw [List.map_congr_left hfix, List.map_id']
  rw [List.flatMap_congr hbucket]
  have hrow : (fasp_dcsr_trans A).row = A.col := rfl
  rw [hrow, List.range_eq_range']
  exact sorted_buckets Prod.fst (dRowPairs A i) 0 A.col
    (fun pr hpr => ⟨Nat.zero_le _,
      by have := dRowPairs_key_lt A h i hi pr hpr; omega⟩)
    (hsorted i hi)

/-- Claim C10: for every structurally valid CSR matrix, fasp_dcsr_trans
produces the exact transpose: the result has row = A.col, col = A.row, the
same nnz, row j of the result lists the pair (i, v) exactly when A stores the
entry (i, j, v), and (when A's rows are ordered by column index, the order in
which the routine also emits the transposed rows) transposing twice returns a
matrix whose every row equals the corresponding row of A. -/
theorem fasp_dcsr_trans_exact (A : dCSRmat) (h : csrValid A)
    (hsorted : ∀ i, i < A.row →
      List.Pairwise (fun p q => p.1 ≤ q.1) (dRowPairs A i)) :
    (fasp_dcsr_trans A).row = A.col ∧
    (fasp_dcsr_trans A).col = A.row ∧
    (fasp_dcsr_trans A).nnz = A.nnz ∧
    (∀ j i : ℕ, ∀ v : ℚ, j < A.col →
      ((i, v) ∈ dRowPairs (fasp_dcsr_trans A) j ↔ (i, j, v) ∈ csrEntries A)) ∧
    ∀ i, i < A.row →
      dRowPairs (fasp_dcsr_trans (fasp_dcsr_trans A)) i = dRowPairs A i := by
  refine ⟨rfl, rfl, rfl, ?_, fasp_dcsr_trans_double A h hsorted⟩
  intro j i v hj
  rw [fasp_dcsr_trans_rows A h j hj]
  constructor
  · intro hm
    obtain ⟨e, he, heq⟩ := List.mem_map.mp hm
    obtain ⟨e1, e2, e3⟩ := e
    have hef := List.mem_filter.mp he
    have hcol : e2 = j := by simpa using hef.2
    simp only [Prod.mk.injEq] at heq
    obtain ⟨h1, h2⟩ := heq
    subst h1
    subst h2
    subst hcol
    exact hef.1
  · intro hm
    have hf : (i, j, v) ∈ (csrEntries A).filter (fun e => e.2.1 == j) :=
      List.mem_filter.mpr ⟨hm, by simp⟩
    have := List.mem_map_of_mem (fun e => (e.1, e.2.2)) hf
    simpa using this

/-- Witness for claim C10 at the concrete matrix Aw. -/
theorem fasp_dcsr_trans_exact_witness :
    dRowPairs (fasp_dcsr_trans (fasp_dcsr_trans Aw)) 0 = dRowPairs Aw 0 :=
  (fasp_dcsr_trans_exact Aw (by decide) (by decide)).2.2.2.2 0 (by decide)

/-! ## Queue and counting lemmas for the C/F splitting (claims C2, C5) -/

theorem getD_lt_length (l : List ℤ) (v : ℕ) (x : ℤ) (hx : x ≠ 0)
    (h : l.getD v 0 = x) : v < l.length := by
  by_contra hc
  rw [getD_default _ _ _ (by omega)] at h
  exact hx h.symm

theorem count_set_lt (y : ℤ) (l : List ℤ) : ∀ (v : ℕ) (x : ℤ), v < l.length →
    (l.set v x).count y + (if l.getD v 0 = y then 1 else 0) =
    l.count y + (if x = y then 1 else 0) := by
  induction l with
  | nil =>
    intro v x hv
    simp at hv
  | cons a t ih =>
    intro v x hv
    cases v with
    | zero =>
      simp only [List.set_cons_zero, List.count_cons, List.getD_cons_zero]
      by_cases h1 : x = y <;> by_cases h2 : a = y <;> simp [h1, h2]
    | succ v =>
      simp only [List.set_cons_succ, List.count_cons, List.getD_cons_succ]
      have h3 := ih v x (by simpa using hv)
      omega

theorem count_eq_zero_of_forall_ne (l : List ℤ) (x : ℤ)
    (h : ∀ v, l.getD v 0 ≠ x) : l.count x = 0 := by
  rw [List.count_eq_zero]
  intro hm
  obtain ⟨i, hi, heq⟩ := List.mem_iff_getElem.mp hm
  refine h i ?_
  rw [List.getD_eq_getElem?_getD, List.getElem?_eq_getElem hi, heq]
  rfl

theorem forall_ne_of_count_eq_zero (l : List ℤ) (x : ℤ) (hx : x ≠ 0)
    (h : l.count x = 0) : ∀ v, l.getD v 0 ≠ x := by
  intro v hv
  have hvl := getD_lt_length l v x hx hv
  have hmem : x ∈ l := by
    rw [← hv]
    exact getD_mem l v 0 hvl
  rw [List.count_eq_zero] at h
  exact h hmem

theorem mem_enter_list_self (q : List ℕ) (node : ℕ) :
    node ∈ enter_list q node := by
  unfold enter_list
  split
  · assumption
  · exact List.mem_cons_self _ _

theorem mem_enter_list_iff (q : List ℕ) (node v : ℕ) :
    v ∈ enter_list q node ↔ v ∈ q ∨ v = node := by
  unfold enter_list
  split
  · constructor
    · exact Or.inl
    · rintro (h | rfl)
      · exact h
      · assumption
  · rw [List.mem_cons]
    tauto

theorem mem_remove_node (q : List ℕ) (node v : ℕ) (h : v ≠ node) :
    v ∈ remove_node q node ↔ v ∈ q := by
  unfold remove_node
  exact List.mem_erase_of_ne h

theorem mem_of_mem_remove (q : List ℕ) (node v : ℕ) :
    v ∈ remove_node q node → v ∈ q :=
  List.mem_of_mem_erase

theorem extract_max_aux_mem (lam : List ℤ) :
    ∀ (q : List ℕ) (acc : Option ℕ) (m : ℕ),
    q.foldl (fun best n =>
      match best with
      | none => some n
      | some b =>
        if lam.getD n 0 > lam.getD b 0 ∨
            (lam.getD n 0 = lam.getD b 0 ∧ n < b)
        then some n else some b) acc = some m →
    acc = some m ∨ m ∈ q := by
  intro q
  induction q with
  | nil =>
    intro acc m h
    exact Or.inl h
  | cons n t ih =>
    intro acc m h
    rw [List.foldl_cons] at h
    rcases ih _ m h with h2 | h2
    · cases acc with
      | none =>
        simp at h2
        exact Or.inr (by rw [← h2]; exact List.mem_cons_self _ _)
      | some b =>
        simp only [] at h2
        split at h2
        · have : n = m := by simpa using h2
          exact Or.inr (this ▸ List.mem_cons_self _ _)
        · exact Or.inl h2
    · exact Or.inr (List.mem_cons_of_mem _ h2)

theorem extract_max_mem (lam : List ℤ) (q : List ℕ) (m : ℕ)
    (h : extract_max lam q = some m) : m ∈ q := by
  unfold extract_max at h
  rcases extract_max_aux_mem lam q none m h with h2 | h2
  · cases h2
  · exact h2

theorem extract_max_aux_some (lam : List ℤ) :
    ∀ (q : List ℕ) (b : ℕ),
    ∃ m, q.foldl (fun best n =>
      match best with
      | none => some n
      | some b =>
        if lam.getD n 0 > lam.getD b 0 ∨
            (lam.getD n 0 = lam.getD b 0 ∧ n < b)
        then some n else some b) (some b) = some m := by
  intro q
  induction q with
  | nil =>
    intro b
    exact ⟨b, rfl⟩
  | cons n t ih =>
    intro b
    rw [List.foldl_cons]
    simp only []
    split
    · exact ih n
    · exact ih b

theorem extract_max_some (lam : List ℤ) (q : List ℕ) (h : q ≠ []) :
    ∃ m, extract_max lam q = some m := by
  unfold extract_max
  cases q with
  | nil => exact absurd rfl h
  | cons n t =>
    rw [List.foldl_cons]
    exact extract_max_aux_some lam t n

theorem getD_set_self_or {α : Type} (l : List α) (i : ℕ) (x d : α) :
    (l.set i x).getD i d = x ∨ (l.set i x).getD i d = l.getD i d := by
  by_cases h : i < l.length
  · exact Or.inl (getD_set_self l i x d h)
  · right
    rw [List.set_eq_of_length_le (by omega)]

theorem nodup_enter_list (q : List ℕ) (node : ℕ) (h : q.Nodup) :
    (enter_list q node).Nodup := by
  unfold enter_list
  split
  · exact h
  · exact List.nodup_cons.mpr ⟨by assumption, h⟩

theorem nodup_remove_node (q : List ℕ) (node : ℕ) (h : q.Nodup) :
    (remove_node q node).Nodup :=
  List.Nodup.erase node h

/-- Step 3 of form_coarse_level preserves the step-3 invariant, advancing the
processed prefix by one. -/
theorem p1step3_inv (S ST : iCSRmat) (row : ℕ) (vec0 lam1 : List ℤ)
    (hv0 : ∀ v, v < row → vec0.getD v 0 = UNPT ∨ vec0.getD v 0 = ISPT)
    (hstrong : ∀ i j, i < row → j ∈ iRowJA S i → vec0.getD j 0 ≠ ISPT →
      1 ≤ lam1.getD j 0)
    (hSTS : ∀ x, x < row → ∀ w ∈ iRowJA S x, iRowJA ST w ≠ [])
    (hindeg : ∀ v, 1 ≤ lam1.getD v 0 → iRowJA ST v ≠ [])
    (i : ℕ) (hi : i < row) (st : P1State)
    (h : p1SInv ST row vec0 lam1 i st) :
    p1SInv ST row vec0 lam1 (i + 1) (p1step3 S st i) := by
  obtain ⟨hL, hQ, hC, hN, hE, hF, hG, hH, hV, hFU, hcol, hD, hD2, hND⟩ := h
  unfold p1step3
  by_cases h1 : st.vec.getD i 0 = ISPT
  · rw [if_pos h1]
    refine ⟨hL, hQ, ?_, hN, fun v hv => hE v (by omega), hF, hG,
      fun v hv => by have := hH v hv; omega, hV, hFU, hcol, hD, hD2, hND⟩
    intro v hv hu
    rcases Nat.lt_or_ge v i with h' | h'
    · exact hC v h' hu
    · have hvi : v = i := by omega
      subst hvi
      rw [hu] at h1
      exact absurd h1 (by decide)
  · rw [if_neg h1]
    have hvi : st.vec.getD i 0 = vec0.getD i 0 := hE i (le_refl i)
    have hui : st.vec.getD i 0 = UNPT := by
      rcases hv0 i hi with h' | h'
      · rw [hvi, h']
      · rw [hvi] at h1
        exact absurd h' h1
    by_cases h2 : st.lam.getD i 0 > 0
    · rw [if_pos h2]
      refine ⟨hL, ?_, ?_, hN, fun v hv => hE v (by omega), hF, hG, ?_, hV,
        hFU, hcol, ?_, hD2, nodup_enter_list _ _ hND⟩
      · intro v hv
        rcases (mem_enter_list_iff st.q i v).mp hv with h' | rfl
        · exact hQ v h'
        · exact hui
      · intro v hv hu
        rcases Nat.lt_or_ge v i with h' | h'
        · exact (mem_enter_list_iff _ _ _).mpr (Or.inl (hC v h' hu))
        · have hvi2 : v = i := by omega
          subst hvi2
          exact mem_enter_list_self _ _
      · intro v hv
        rcases (mem_enter_list_iff st.q i v).mp hv with h' | rfl
        · have := hH v h'
          omega
        · omega
      · intro v hv
        rcases (mem_enter_list_iff st.q i v).mp hv with h' | rfl
        · exact hD v h'
        · rcases lt_or_ge (lam1.getD v 0) (st.lam.getD v 0) with hlt | hge
          · exact hD2 v hlt
          · refine hindeg v ?_
            have := hG v
            omega
    · rw [if_neg h2]
      have hilen : i < st.vec.length := by
        rw [hL]
        exact hi
      have hfold := foldl_inv
        (fun st j =>
          if st.vec.getD j 0 ≠ ISPT then
            if j < i then
              let q1 := if st.lam.getD j 0 > 0 then remove_node st.q j else st.q
              let newm := st.lam.getD j 0 + 1
              { st with lam := st.lam.set j newm, q := enter_list q1 j }
            else
              { st with lam := st.lam.set j (st.lam.getD j 0 + 1) }
          else st)
        (fun st' => st'.vec = st.vec.set i FGPT ∧
          st'.num_left = st.num_left ∧ st'.col = 0 ∧
          (∀ v ∈ st'.q, st.vec.getD v 0 = UNPT ∧ v ≠ i) ∧
          (∀ v, v < i → st.vec.getD v 0 = UNPT → v ∈ st'.q) ∧
          (∀ v ∈ st'.q, v < i) ∧
          (∀ v, lam1.getD v 0 ≤ st'.lam.getD v 0) ∧
          (∀ v ∈ st'.q, iRowJA ST v ≠ []) ∧
          (∀ v, lam1.getD v 0 < st'.lam.getD v 0 → iRowJA ST v ≠ []) ∧
          st'.q.Nodup)
        (iRowJA S i) { st with vec := st.vec.set i FGPT } ?_ ?_
      · obtain ⟨fvec, fnum, fcol, fq, fcover, fbound, flam, fD, fD2, fND⟩ := hfold
        unfold p1SInv
        dsimp only
        refine ⟨?_, ?_, ?_, ?_, ?_, ?_, flam, ?_, ?_, ?_, fcol, fD, fD2, fND⟩
        · rw [fvec, List.length_set, hL]
        · intro v hv
          rw [fvec, getD_set_ne _ _ _ _ _ (fq v hv).2]
          exact (fq v hv).1
        · intro v hv hu
          rcases Nat.lt_or_ge v i with h' | h'
          · refine fcover v h' ?_
            rw [fvec, getD_set_ne _ _ _ _ _ (by omega)] at hu
            exact hu
          · have hvi2 : v = i := by omega
            subst hvi2
            rw [fvec, getD_set_self _ _ _ _ hilen] at hu
            exact absurd hu (by decide)
        · have hcnt := count_set_lt UNPT st.vec i FGPT hilen
          rw [hui, if_pos rfl, if_neg (by decide)] at hcnt
          rw [fnum, fvec, hN]
          omega
        · intro v hv
          rw [fvec, getD_set_ne _ _ _ _ _ (by omega)]
          exact hE v (by omega)
        · intro v hv
          rw [fvec] at hv
          by_cases hvi2 : v = i
          · subst hvi2
            have := hG v
            omega
          · rw [getD_set_ne _ _ _ _ _ hvi2] at hv
            exact hF v hv
        · intro v hv
          have := fbound v hv
          omega
        · intro v
          rw [fvec]
          by_cases hvi2 : v = i
          · subst hvi2
            rw [getD_set_self _ _ _ _ hilen]
            right
            right
            rfl
          · rw [getD_set_ne _ _ _ _ _ hvi2]
            exact hV v
        · intro v hvr hv
          rw [fvec] at hv
          by_cases hvi2 : v = i
          · subst hvi2
            rw [hvi] at hui
            exact hui
          · rw [getD_set_ne _ _ _ _ _ hvi2] at hv
            exact hFU v hvr hv
      · intro s' j hj hP
        obtain ⟨fvec, fnum, fcol, fq, fcover, fbound, flam, fD, fD2, fND⟩ := hP
        dsimp only
        by_cases hji : s'.vec.getD j 0 ≠ ISPT
        · rw [if_pos hji]
          by_cases hjlt : j < i
          · rw [if_pos hjlt]
            have hjvec : st.vec.getD j 0 = UNPT := by
              rw [fvec, getD_set_ne _ _ _ _ _ (by omega)] at hji
              rcases hV j with h' | h' | h'
              · exact h'
              · exact absurd h' hji
              · exfalso
                have hl1 := hF j h'
                have hl2 := hstrong i j hi hj (by
                  rw [hFU j (by omega) h']
                  decide)
                omega
            refine ⟨fvec, fnum, fcol, ?_, ?_, ?_, ?_, ?_, ?_, ?_⟩
            · intro v hv
              rcases (mem_enter_list_iff _ _ _).mp hv with h' | rfl
              · refine fq v ?_
                by_cases hvj : v = j
                · subst hvj
                  split at h'
                  · exact mem_of_mem_remove _ _ _ h'
                  · exact h'
                · split at h'
                  · exact (mem_remove_node _ _ _ hvj).mp h'
                  · exact h'
              · exact ⟨hjvec, by omega⟩
            · intro v hv hu
              by_cases hvj : v = j
              · subst hvj
                exact mem_enter_list_self _ _
              · refine (mem_enter_list_iff _ _ _).mpr (Or.inl ?_)
                have hv2 := fcover v hv hu
                split
                · exact (mem_remove_node _ _ _ hvj).mpr hv2
                · exact hv2
            · intro v hv
              rcases (mem_enter_list_iff _ _ _).mp hv with h' | rfl
              · refine fbound v ?_
                split at h'
                · exact mem_of_mem_remove _ _ _ h'
                · exact h'
              · exact hjlt
            · intro v
              by_cases hvj : v = j
              · subst hvj
                rcases getD_set_self_or s'.lam v (s'.lam.getD v 0 + 1) 0
                  with h' | h'
                · rw [h']
                  have := flam v
                  omega
                · rw [h']
                  exact flam v
              · rw [getD_set_ne _ _ _ _ _ hvj]
                exact flam v
            · intro v hv
              rcases (mem_enter_list_iff _ _ _).mp hv with h' | rfl
              · refine fD v ?_
                split at h'
                · exact mem_of_mem_remove _ _ _ h'
                · exact h'
              · exact hSTS i hi v hj
            · intro v hv
              by_cases hvj : v = j
              · subst hvj
                exact hSTS i hi v hj
              · rw [getD_set_ne _ _ _ _ _ hvj] at hv
                exact fD2 v hv
            · refine nodup_enter_list _ _ ?_
              split
              · exact nodup_remove_node _ _ fND
              · exact fND
          · rw [if_neg hjlt]
            refine ⟨fvec, fnum, fcol, fq, fcover, fbound, ?_, fD, ?_, fND⟩
            · intro v
              by_cases hvj : v = j
              · subst hvj
                rcases getD_set_self_or s'.lam v (s'.lam.getD v 0 + 1) 0
                  with h' | h'
                · rw [h']
                  have := flam v
                  omega
                · rw [h']
                  exact flam v
              · rw [getD_set_ne _ _ _ _ _ hvj]
                exact flam v
            · intro v hv
              by_cases hvj : v = j
              · subst hvj
                exact hSTS i hi v hj
              · rw [getD_set_ne _ _ _ _ _ hvj] at hv
                exact fD2 v hv
        · rw [if_neg hji]
          exact ⟨fvec, fnum, fcol, fq, fcover, fbound, flam, fD, fD2, fND⟩
      · refine ⟨rfl, rfl, hcol, ?_, ?_, ?_, hG, hD, hD2, hND⟩
        · intro v hv
          refine ⟨hQ v hv, ?_⟩
          have := hH v hv
          omega
        · intro v hv hu
          exact hC v hv hu
        · exact hH

/-- bumpNeighbors changes only the lambda array and the queue: the labels,
counters and the queue invariants are preserved. -/
theorem bumpNeighbors_core (S ST : iCSRmat) (row : ℕ)
    (hSTS : ∀ x, x < row → ∀ w ∈ iRowJA S x, iRowJA ST w ≠ [])
    (j : ℕ) (hj : j < row) (st : P1State)
    (hQ : ∀ v ∈ st.q, st.vec.getD v 0 = UNPT)
    (hCov : ∀ v, st.vec.getD v 0 = UNPT → v ∈ st.q)
    (hD : ∀ v ∈ st.q, iRowJA ST v ≠ [])
    (hND : st.q.Nodup) :
    (bumpNeighbors S st j).vec = st.vec ∧
    (bumpNeighbors S st j).num_left = st.num_left ∧
    (bumpNeighbors S st j).col = st.col ∧
    (∀ v ∈ (bumpNeighbors S st j).q, st.vec.getD v 0 = UNPT) ∧
    (∀ v, st.vec.getD v 0 = UNPT → v ∈ (bumpNeighbors S st j).q) ∧
    (∀ v ∈ (bumpNeighbors S st j).q, iRowJA ST v ≠ []) ∧
    (bumpNeighbors S st j).q.Nodup := by
  unfold bumpNeighbors
  refine foldl_inv _ (fun st' => st'.vec = st.vec ∧ st'.num_left = st.num_left ∧
    st'.col = st.col ∧ (∀ v ∈ st'.q, st.vec.getD v 0 = UNPT) ∧
    (∀ v, st.vec.getD v 0 = UNPT → v ∈ st'.q) ∧
    (∀ v ∈ st'.q, iRowJA ST v ≠ []) ∧ st'.q.Nodup)
    (iRowJA S j) st ?_ ⟨rfl, rfl, rfl, hQ, hCov, hD, hND⟩
  intro s' k hk hP
  obtain ⟨fvec, fnum, fcol, fq, fcov, fD, fND⟩ := hP
  dsimp only
  by_cases hku : s'.vec.getD k 0 = UNPT
  · rw [if_pos hku]
    refine ⟨fvec, fnum, fcol, ?_, ?_, ?_, ?_⟩
    · intro v hv
      rcases (mem_enter_list_iff _ _ _).mp hv with h' | rfl
      · exact fq v (mem_of_mem_remove _ _ _ h')
      · rw [← fvec]
        exact hku
    · intro v hv
      by_cases hvk : v = k
      · subst hvk
        exact mem_enter_list_self _ _
      · exact (mem_enter_list_iff _ _ _).mpr
          (Or.inl ((mem_remove_node _ _ _ hvk).mpr (fcov v hv)))
    · intro v hv
      rcases (mem_enter_list_iff _ _ _).mp hv with h' | rfl
      · exact fD v (mem_of_mem_remove _ _ _ h')
      · exact hSTS j hj v hk
    · exact nodup_enter_list _ _ (nodup_remove_node _ _ fND)
  · rw [if_neg hku]
    exact ⟨fvec, fnum, fcol, fq, fcov, fD, fND⟩

/-- The whole step-3 scan establishes the invariant for the complete index
range. -/
theorem p1step3_fold (S ST : iCSRmat) (row : ℕ) (vec0 lam1 : List ℤ)
    (hv0 : ∀ v, v < row → vec0.getD v 0 = UNPT ∨ vec0.getD v 0 = ISPT)
    (hstrong : ∀ i j, i < row → j ∈ iRowJA S i → vec0.getD j 0 ≠ ISPT →
      1 ≤ lam1.getD j 0)
    (hSTS : ∀ x, x < row → ∀ w ∈ iRowJA S x, iRowJA ST w ≠ [])
    (hindeg : ∀ v, 1 ≤ lam1.getD v 0 → iRowJA ST v ≠ [])
    (st0 : P1State) (h0 : p1SInv ST row vec0 lam1 0 st0) :
    p1SInv ST row vec0 lam1 row ((List.range row).foldl (p1step3 S) st0) := by
  have hmain := foldl_prefix_inv (p1step3 S) (List.range row)
    (fun E st => p1SInv ST row vec0 lam1 E.length st) ?_ (List.range row)
    [] st0 rfl ?_
  · simpa using hmain
  · intro E a r s hEr hQ
    have hlen : E.length + 1 + r.length = row := by
      have := congrArg List.length hEr
      simp at this
      omega
    have ha : a = E.length := by
      have h1 : (E ++ a :: r)[E.length]? = some a := by
        rw [List.getElem?_append_right (le_refl _)]
        simp
      rw [hEr, List.getElem?_range (by omega)] at h1
      exact (Option.some_inj.mp h1).symm
    subst ha
    have hgoal := p1step3_inv S ST row vec0 lam1 hv0 hstrong hSTS hindeg
      E.length (by omega) s hQ
    simpa using hgoal
  · exact h0

/-- The second inner loop of the main loop (decrementing the measures of the
undecided strong neighbors of the new coarse point) preserves the core
invariant, does not increase num_left, and changes labels only from undecided
to fine. -/
theorem p1loop2_inv (S ST : iCSRmat) (row : ℕ)
    (hrowJA : ∀ x, x < row → ∀ w ∈ iRowJA S x, w < row)
    (hSTS : ∀ x, x < row → ∀ w ∈ iRowJA S x, iRowJA ST w ≠ [])
    (maxnode : ℕ) (hmrow : maxnode < row)
    (base : P1State) (hbase : p1MCore ST row base) :
    p1MCore ST row ((iRowJA S maxnode).foldl (fun st j =>
      if st.vec.getD j 0 = UNPT then
        if st.lam.getD j 0 - 1 > 0 then
          { st with
              lam := st.lam.set j (st.lam.getD j 0 - 1),
              q := enter_list (remove_node st.q j) j }
        else
          bumpNeighbors S
            { st with
                vec := st.vec.set j FGPT,
                lam := st.lam.set j (st.lam.getD j 0 - 1),
                q := remove_node st.q j,
                num_left := st.num_left - 1 } j
      else st) base) ∧
    ((iRowJA S maxnode).foldl (fun st j =>
      if st.vec.getD j 0 = UNPT then
        if st.lam.getD j 0 - 1 > 0 then
          { st with
              lam := st.lam.set j (st.lam.getD j 0 - 1),
              q := enter_list (remove_node st.q j) j }
        else
          bumpNeighbors S
            { st with
                vec := st.vec.set j FGPT,
                lam := st.lam.set j (st.lam.getD j 0 - 1),
                q := remove_node st.q j,
                num_left := st.num_left - 1 } j
      else st) base).num_left ≤ base.num_left ∧
    (∀ v, ((iRowJA S maxnode).foldl (fun st j =>
      if st.vec.getD j 0 = UNPT then
        if st.lam.getD j 0 - 1 > 0 then
          { st with
              lam := st.lam.set j (st.lam.getD j 0 - 1),
              q := enter_list (remove_node st.q j) j }
        else
          bumpNeighbors S
            { st with
                vec := st.vec.set j FGPT,
                lam := st.lam.set j (st.lam.getD j 0 - 1),
                q := remove_node st.q j,
                num_left := st.num_left - 1 } j
      else st) base).vec.getD v 0 = base.vec.getD v 0 ∨
      (base.vec.getD v 0 = UNPT ∧
        ((iRowJA S maxnode).foldl (fun st j =>
      if st.vec.getD j 0 = UNPT then
        if st.lam.getD j 0 - 1 > 0 then
          { st with
              lam := st.lam.set j (st.lam.getD j 0 - 1),
              q := enter_list (remove_node st.q j) j }
        else
          bumpNeighbors S
            { st with
                vec := st.vec.set j FGPT,
                lam := st.lam.set j (st.lam.getD j 0 - 1),
                q := remove_node st.q j,
                num_left := st.num_left - 1 } j
      else st) base).vec.getD v 0 = FGPT)) := by
  refine foldl_inv _ (fun st' => p1MCore ST row st' ∧
    st'.num_left ≤ base.num_left ∧
    (∀ v, st'.vec.getD v 0 = base.vec.getD v 0 ∨
      (base.vec.getD v 0 = UNPT ∧ st'.vec.getD v 0 = FGPT)))
    (iRowJA S maxnode) base ?_ ⟨hbase, le_refl _, fun v => Or.inl rfl⟩
  intro s' a ha hP
  obtain ⟨⟨gL, gQ, gCov, gN, gC, gD, gND, gV4⟩, gnum, gpres⟩ := hP
  have harow : a < row := hrowJA maxnode hmrow a ha
  by_cases hau : s'.vec.getD a 0 = UNPT
  · rw [if_pos hau]
    have halen : a < s'.vec.length := getD_lt_length _ _ _ (by decide) hau
    by_cases hmeas : s'.lam.getD a 0 - 1 > 0
    · rw [if_pos hmeas]
      refine ⟨⟨gL, ?_, ?_, gN, gC, ?_, ?_, gV4⟩, gnum, gpres⟩
      · intro v hv
        rcases (mem_enter_list_iff _ _ _).mp hv with h' | rfl
        · exact gQ v (mem_of_mem_remove _ _ _ h')
        · exact hau
      · intro v hv
        by_cases hva : v = a
        · subst hva
          exact mem_enter_list_self _ _
        · exact (mem_enter_list_iff _ _ _).mpr
            (Or.inl ((mem_remove_node _ _ _ hva).mpr (gCov v hv)))
      · intro v hv
        rcases (mem_enter_list_iff _ _ _).mp hv with h' | rfl
        · exact gD v (mem_of_mem_remove _ _ _ h')
        · exact hSTS maxnode hmrow v ha
      · exact nodup_enter_list _ _ (nodup_remove_node _ _ gND)
    · rw [if_neg hmeas]
      have hXQ : ∀ v ∈ remove_node s'.q a,
          (s'.vec.set a FGPT).getD v 0 = UNPT := by
        intro v hv
        have hv' : v ∈ s'.q.erase a := hv
        obtain ⟨hvne, hvq⟩ := (List.Nodup.mem_erase_iff gND).mp hv'
        rw [getD_set_ne _ _ _ _ _ hvne]
        exact gQ v hvq
      have hXCov : ∀ v, (s'.vec.set a FGPT).getD v 0 = UNPT →
          v ∈ remove_node s'.q a := by
        intro v hv
        by_cases hva : v = a
        · subst hva
          rw [getD_set_self _ _ _ _ halen] at hv
          exact absurd hv (by decide)
        · rw [getD_set_ne _ _ _ _ _ hva] at hv
          exact List.mem_erase_of_ne hva |>.mpr (gCov v hv)
      have hXD : ∀ v ∈ remove_node s'.q a, iRowJA ST v ≠ [] := by
        intro v hv
        exact gD v (mem_of_mem_remove _ _ _ hv)
      have hb := bumpNeighbors_core S ST row hSTS a harow
        { s' with
            vec := s'.vec.set a FGPT,
            lam := s'.lam.set a (s'.lam.getD a 0 - 1),
            q := remove_node s'.q a,
            num_left := s'.num_left - 1 }
        hXQ hXCov hXD (nodup_remove_node _ _ gND)
      obtain ⟨bvec, bnum, bcol, bq, bcov, bD, bND⟩ := hb
      have hacnt := count_set_lt UNPT s'.vec a FGPT halen
      rw [hau, if_pos rfl, if_neg (by decide)] at hacnt
      have hacntC := count_set_lt CGPT s'.vec a FGPT halen
      rw [hau, if_neg (by decide), if_neg (by decide)] at hacntC
      refine ⟨⟨?_, ?_, ?_, ?_, ?_, bD, bND, ?_⟩, ?_, ?_⟩
      · rw [bvec]
        dsimp only
        rw [List.length_set]
        exact gL
      · intro v hv
        rw [bvec]
        exact bq v hv
      · intro v hv
        rw [bvec] at hv
        exact bcov v hv
      · rw [bnum, bvec]
        dsimp only
        rw [gN]
        omega
      · rw [bcol, bvec]
        dsimp only
        rw [gC]
        omega
      · intro v
        rw [bvec]
        dsimp only
        by_cases hva : v = a
        · subst hva
          rw [getD_set_self _ _ _ _ halen]
          right; right; left; rfl
        · rw [getD_set_ne _ _ _ _ _ hva]
          exact gV4 v
      · rw [bnum]
        dsimp only
        omega
      · intro v
        rw [bvec]
        dsimp only
        by_cases hva : v = a
        · subst hva
          rw [getD_set_self _ _ _ _ halen]
          rcases gpres v with h' | h'
          · rw [hau] at h'
            exact Or.inr ⟨h'.symm, rfl⟩
          · exact absurd h'.2 (by rw [hau]; decide)
        · rw [getD_set_ne _ _ _ _ _ hva]
          exact gpres v
  · rw [if_neg hau]
    exact ⟨⟨gL, gQ, gCov, gN, gC, gD, gND, gV4⟩, gnum, gpres⟩

/-- One iteration of the main loop of form_coarse_level's phase one preserves
the main-loop invariant and strictly decreases num_left. -/
theorem p1mainBody_inv (S ST : iCSRmat) (row : ℕ)
    (hrowJA : ∀ x, x < row → ∀ w ∈ iRowJA S x, w < row)
    (hSTS : ∀ x, x < row → ∀ w ∈ iRowJA S x, iRowJA ST w ≠ [])
    (hSTmem : ∀ v, v < row → ∀ j, j ∈ iRowJA ST v → v ∈ iRowJA S j ∧ j < row)
    (hloop : ∀ v, v ∉ iRowJA S v)
    (st : P1State) (maxnode : ℕ) (hmq : maxnode ∈ st.q)
    (h : p1MInv ST row st) :
    p1MInv ST row (p1mainBody S ST st maxnode) ∧
    (p1mainBody S ST st maxnode).num_left < st.num_left := by
  obtain ⟨⟨hL, hQ, hCov, hN, hC, hD, hND, hV4⟩, hE⟩ := h
  have hmU : st.vec.getD maxnode 0 = UNPT := hQ maxnode hmq
  have hmlen : maxnode < st.vec.length := getD_lt_length _ _ _ (by decide) hmU
  have hmrow : maxnode < row := by
    rw [hL] at hmlen
    exact hmlen
  have hcntU := count_set_lt UNPT st.vec maxnode CGPT hmlen
  rw [hmU, if_pos rfl, if_neg (by decide)] at hcntU
  have hcntC := count_set_lt CGPT st.vec maxnode CGPT hmlen
  rw [hmU, if_neg (by decide), if_pos rfl] at hcntC
  unfold p1mainBody
  have hMC0 : p1MCore ST row
      { st with
          vec := st.vec.set maxnode CGPT,
          lam := st.lam.set maxnode 0,
          num_left := st.num_left - 1,
          q := remove_node st.q maxnode,
          col := st.col + 1 } := by
    refine ⟨by simpa using hL, ?_, ?_, ?_, ?_, ?_, ?_, ?_⟩
    · intro v hv
      have hv' : v ∈ st.q.erase maxnode := hv
      obtain ⟨hvne, hvq⟩ := (List.Nodup.mem_erase_iff hND).mp hv'
      dsimp only
      rw [getD_set_ne _ _ _ _ _ hvne]
      exact hQ v hvq
    · intro v hv
      dsimp only at hv
      by_cases hvm : v = maxnode
      · subst hvm
        rw [getD_set_self _ _ _ _ hmlen] at hv
        exact absurd hv (by decide)
      · rw [getD_set_ne _ _ _ _ _ hvm] at hv
        exact List.mem_erase_of_ne hvm |>.mpr (hCov v hv)
    · dsimp only
      omega
    · dsimp only
      rw [hC]
      push_cast
      omega
    · intro v hv
      exact hD v (mem_of_mem_remove _ _ _ hv)
    · exact nodup_remove_node _ _ hND
    · intro v
      dsimp only
      by_cases hvm : v = maxnode
      · subst hvm
        rw [getD_set_self _ _ _ _ hmlen]
        right; right; right; rfl
      · rw [getD_set_ne _ _ _ _ _ hvm]
        exact hV4 v
  have hfold1 := foldl_prefix_inv
    (fun st j =>
      if st.vec.getD j 0 = UNPT then
        let st := { st with
          vec := st.vec.set j FGPT,
          q := remove_node st.q j,
          num_left := st.num_left - 1 }
        bumpNeighbors S st j
      else st)
    (iRowJA ST maxnode)
    (fun E st' => p1MCore ST row st' ∧ st'.num_left ≤ st.num_left - 1 ∧
      (∀ v, st'.vec.getD v 0 = (st.vec.set maxnode CGPT).getD v 0 ∨
        ((st.vec.set maxnode CGPT).getD v 0 = UNPT ∧
          st'.vec.getD v 0 = FGPT)) ∧
      (∀ x ∈ E, st'.vec.getD x 0 ≠ UNPT))
    ?_ (iRowJA ST maxnode) []
    { st with
        vec := st.vec.set maxnode CGPT,
        lam := st.lam.set maxnode 0,
        num_left := st.num_left - 1,
        q := remove_node st.q maxnode,
        col := st.col + 1 }
    rfl ⟨hMC0, le_refl _, fun v => Or.inl rfl, by simp⟩
  on_goal 2 =>
    intro E a r s' hEr hQ1
    obtain ⟨⟨gL, gQ, gCov, gN, gC, gD, gND, gV4⟩, gnum, gpres, gdec⟩ := hQ1
    have ha : a ∈ iRowJA ST maxnode := by
      rw [← hEr]
      exact List.mem_append_right _ (List.mem_cons_self _ _)
    obtain ⟨hmS, harow⟩ := hSTmem maxnode hmrow a ha
    dsimp only
    by_cases hau : s'.vec.getD a 0 = UNPT
    · rw [if_pos hau]
      have halen : a < s'.vec.length := getD_lt_length _ _ _ (by decide) hau
      have hXQ : ∀ v ∈ (remove_node s'.q a),
          (s'.vec.set a FGPT).getD v 0 = UNPT := by
        intro v hv
        have hv' : v ∈ s'.q.erase a := hv
        obtain ⟨hvne, hvq⟩ := (List.Nodup.mem_erase_iff gND).mp hv'
        rw [getD_set_ne _ _ _ _ _ hvne]
        exact gQ v hvq
      have hXCov : ∀ v, (s'.vec.set a FGPT).getD v 0 = UNPT →
          v ∈ remove_node s'.q a := by
        intro v hv
        by_cases hva : v = a
        · subst hva
          rw [getD_set_self _ _ _ _ halen] at hv
          exact absurd hv (by decide)
        · rw [getD_set_ne _ _ _ _ _ hva] at hv
          exact List.mem_erase_of_ne hva |>.mpr (gCov v hv)
      have hXD : ∀ v ∈ remove_node s'.q a, iRowJA ST v ≠ [] := by
        intro v hv
        exact gD v (mem_of_mem_remove _ _ _ hv)
      have hb := bumpNeighbors_core S ST row hSTS a harow
        { s' with
            vec := s'.vec.set a FGPT,
            q := remove_node s'.q a,
            num_left := s'.num_left - 1 }
        hXQ hXCov hXD (nodup_remove_node _ _ gND)
      obtain ⟨bvec, bnum, bcol, bq, bcov, bD, bND⟩ := hb
      have hacnt := count_set_lt UNPT s'.vec a FGPT halen
      rw [hau, if_pos rfl, if_neg (by decide)] at hacnt
      have hacntC := count_set_lt CGPT s'.vec a FGPT halen
      rw [hau, if_neg (by decide), if_neg (by decide)] at hacntC
      refine ⟨⟨?_, ?_, ?_, ?_, ?_, bD, bND, ?_⟩, ?_, ?_, ?_⟩
      · rw [bvec]
        dsimp only
        rw [List.length_set]
        exact gL
      · intro v hv
        rw [bvec]
        exact bq v hv
      · intro v hv
        rw [bvec] at hv
        exact bcov v hv
      · rw [bnum, bvec]
        dsimp only
        rw [gN]
        omega
      · rw [bcol, bvec]
        dsimp only
        rw [gC]
        omega
      · intro v
        rw [bvec]
        dsimp only
        by_cases hva : v = a
        · subst hva
          rw [getD_set_self _ _ _ _ halen]
          right; right; left; rfl
        · rw [getD_set_ne _ _ _ _ _ hva]
          exact gV4 v
      · rw [bnum]
        dsimp only
        omega
      · intro v
        rw [bvec]
        dsimp only
        by_cases hva : v = a
        · subst hva
          rw [getD_set_self _ _ _ _ halen]
          rcases gpres v with h' | h'
          · rw [hau] at h'
            exact Or.inr ⟨h'.symm, rfl⟩
          · exact absurd h'.2 (by rw [hau]; decide)
        · rw [getD_set_ne _ _ _ _ _ hva]
          exact gpres v
      · intro x hx
        rw [bvec]
        dsimp only
        rcases List.mem_append.mp hx with h' | h'
        · by_cases hxa : x = a
          · subst hxa
            rw [getD_set_self _ _ _ _ halen]
            decide
          · rw [getD_set_ne _ _ _ _ _ hxa]
            exact gdec x h'
        · have hxa : x = a := by simpa using h'
          subst hxa
          rw [getD_set_self _ _ _ _ halen]
          decide
    · rw [if_neg hau]
      refine ⟨⟨gL, gQ, gCov, gN, gC, gD, gND, gV4⟩, gnum, gpres, ?_⟩
      intro x hx
      rcases List.mem_append.mp hx with h' | h'
      · exact gdec x h'
      · have hxa : x = a := by simpa using h'
        subst hxa
        exact hau
  have jcore := hfold1.1
  have jnum := hfold1.2.1
  have jpres := hfold1.2.2.1
  have jdec := hfold1.2.2.2
  obtain ⟨jL, jQ, jCov, jN, jC, jD, jND, jV4⟩ := jcore
  have h2 := p1loop2_inv S ST row hrowJA hSTS maxnode hmrow _
    ⟨jL, jQ, jCov, jN, jC, jD, jND, jV4⟩
  obtain ⟨⟨kL, kQ, kCov, kN, kC, kD, kND, kV4⟩, knum, kpres⟩ := h2
  have hstnum : 1 ≤ st.num_left := by
    rw [hN]
    omega
  have hlt1 : st.num_left - 1 < st.num_left := by omega
  refine ⟨⟨⟨kL, kQ, kCov, kN, kC, kD, kND, kV4⟩, ?_⟩,
    lt_of_le_of_lt (le_trans knum jnum) hlt1⟩
  rcases hE with ⟨v, hvrow, hFI⟩ | hnoC
  · left
    have hvm : v ≠ maxnode := by
      intro he
      subst he
      rw [hmU] at hFI
      rcases hFI with h' | h' <;> exact absurd h' (by decide)
    have h0val : (st.vec.set maxnode CGPT).getD v 0 = st.vec.getD v 0 :=
      getD_set_ne _ _ _ _ _ hvm
    have h1val : _ ∨ _ := jpres v
    have hfival : ∀ w, (w = FGPT ∨ w = ISPT) → w ≠ UNPT := by
      intro w hw
      rcases hw with h' | h' <;> rw [h'] <;> decide
    refine ⟨v, hvrow, ?_⟩
    rcases h1val with h1 | h1
    · rw [h0val] at h1
      rcases kpres v with h2 | h2
      · rw [h2, h1]
        exact hFI
      · exfalso
        rw [h1] at h2
        exact hfival _ hFI h2.1
    · rw [h0val] at h1
      exfalso
      exact hfival _ hFI h1.1
  · left
    obtain ⟨j0, hj0⟩ := List.exists_mem_of_ne_nil _ (hD maxnode hmq)
    obtain ⟨hj0S, hj0row⟩ := hSTmem maxnode hmrow j0 hj0
    have hj0ne : j0 ≠ maxnode := by
      intro he
      subst he
      exact hloop j0 hj0S
    have h0val : (st.vec.set maxnode CGPT).getD j0 0 = st.vec.getD j0 0 :=
      getD_set_ne _ _ _ _ _ hj0ne
    have hj0dec := jdec j0 hj0
    refine ⟨j0, hj0row, ?_⟩
    rcases jpres j0 with h1 | h1
    · rw [h0val] at h1
      rcases hV4 j0 with hv' | hv' | hv' | hv'
      · exfalso
        rw [hv'] at h1
        exact hj0dec h1
      · rcases kpres j0 with h2 | h2
        · right
          rw [h2, h1, hv']
        · exfalso
          rw [h1, hv'] at h2
          exact absurd h2.1 (by decide)
      · rcases kpres j0 with h2 | h2
        · left
          rw [h2, h1, hv']
        · exfalso
          rw [h1, hv'] at h2
          exact absurd h2.1 (by decide)
      · exact absurd hv' (hnoC j0)
    · rcases kpres j0 with h2 | h2
      · left
        rw [h2, h1.2]
      · exfalso
        rw [h1.2] at h2
        exact absurd h2.1 (by decide)

/-- At the end of step 3 the main-loop invariant holds. -/
theorem p1SInv_to_MInv (ST : iCSRmat) (row : ℕ) (vec0 lam1 : List ℤ)
    (st : P1State) (h : p1SInv ST row vec0 lam1 row st) : p1MInv ST row st := by
  obtain ⟨hL, hQ, hC, hN, hE, hF, hG, hH, hV, hFU, hcol, hD, hD2, hND⟩ := h
  have hnoC : ∀ v, st.vec.getD v 0 ≠ CGPT := by
    intro v
    rcases hV v with h' | h' | h' <;> rw [h'] <;> decide
  refine ⟨⟨hL, hQ, ?_, hN, ?_, hD, hND, ?_⟩, Or.inr hnoC⟩
  · intro v hu
    have hvlen : v < st.vec.length := getD_lt_length _ _ _ (by decide) hu
    exact hC v (by omega) hu
  · rw [hcol, count_eq_zero_of_forall_ne _ _ hnoC]
    rfl
  · intro v
    rcases hV v with h' | h' | h'
    · exact Or.inl h'
    · exact Or.inr (Or.inl h')
    · exact Or.inr (Or.inr (Or.inl h'))

/-- Running the main loop with enough fuel decides every vertex while keeping
the main-loop invariant. -/
theorem p1main_inv (S ST : iCSRmat) (row : ℕ)
    (hrowJA : ∀ x, x < row → ∀ w ∈ iRowJA S x, w < row)
    (hSTS : ∀ x, x < row → ∀ w ∈ iRowJA S x, iRowJA ST w ≠ [])
    (hSTmem : ∀ v, v < row → ∀ j, j ∈ iRowJA ST v → v ∈ iRowJA S j ∧ j < row)
    (hloop : ∀ v, v ∉ iRowJA S v) :
    ∀ (fuel : ℕ) (st : P1State), p1MInv ST row st → st.num_left ≤ fuel →
    p1MInv ST row (p1main S ST fuel st) ∧ (p1main S ST fuel st).num_left = 0 := by
  intro fuel
  induction fuel with
  | zero =>
    intro st h hle
    unfold p1main
    exact ⟨h, by omega⟩
  | succ f ih =>
    intro st h hle
    unfold p1main
    by_cases h0 : st.num_left = 0
    · rw [if_pos h0]
      exact ⟨h, h0⟩
    · rw [if_neg h0]
      obtain ⟨hL, hQ, hCov, hN, hC, hD, hND, hV4⟩ := h.1
      have hqne : st.q ≠ [] := by
        intro hnil
        have hnone : ∀ v, st.vec.getD v 0 ≠ UNPT := by
          intro v hv
          have := hCov v hv
          rw [hnil] at this
          exact absurd this (List.not_mem_nil v)
        have : st.vec.count UNPT = 0 := count_eq_zero_of_forall_ne _ _ hnone
        rw [hN] at h0
        exact h0 this
      obtain ⟨m, hm⟩ := extract_max_some st.lam st.q hqne
      rw [hm]
      have hmq : m ∈ st.q := extract_max_mem _ _ _ hm
      have hb := p1mainBody_inv S ST row hrowJA hSTS hSTmem hloop st m hmq h
      exact ih _ hb.1 (by omega)

/-- Positions of a row are bounded by the total entry count when the row
offsets are monotone and end at the total. -/
theorem rowPos_mem_lt (IA : List ℕ) (n nnz : ℕ)
    (hmono : ∀ k, k < n → IA.getD k 0 ≤ IA.getD (k + 1) 0)
    (hlast : IA.getD n 0 = nnz) (i : ℕ) (hi : i < n) :
    ∀ p ∈ rowPos IA i, p < nnz := by
  intro p hp
  unfold rowPos at hp
  have hm := List.mem_range'_1.mp hp
  have h1 : IA.getD (i + 1) 0 ≤ IA.getD n 0 :=
    getD_chain_mono IA n hmono (i + 1) n (by omega) (le_refl n)
  have h2 := hmono i hi
  omega

/-- Column indices of a row of a structurally valid iCSRmat are below col. -/
theorem iRowJA_mem_lt (S : iCSRmat) (h : icsrValid S) (i : ℕ) (hi : i < S.row) :
    ∀ w ∈ iRowJA S i, w < S.col := by
  obtain ⟨h0, hlast, hmono, hJAlen, hcolb⟩ := h
  intro w hw
  obtain ⟨p, hp, rfl⟩ := List.mem_map.mp hw
  exact hcolb p (rowPos_mem_lt S.IA S.row S.nnz hmono hlast i hi p hp)

/-- A column index of a row of a valid iCSRmat occurs in the column array. -/
theorem iRowJA_mem_JA (S : iCSRmat) (h : icsrValid S) (i : ℕ) (hi : i < S.row) :
    ∀ w ∈ iRowJA S i, w ∈ S.JA := by
  obtain ⟨h0, hlast, hmono, hJAlen, hcolb⟩ := h
  intro w hw
  obtain ⟨p, hp, rfl⟩ := List.mem_map.mp hw
  refine getD_mem S.JA p 0 ?_
  have := rowPos_mem_lt S.IA S.row S.nnz hmono hlast i hi p hp
  omega

/-- The transpose row of vertex v has the in-degree of v as its length. -/
theorem icsr_trans_row_len (S : iCSRmat) (h : icsrValid S) (v : ℕ)
    (hv : v < S.col) :
    (iRowJA (fasp_icsr_trans S) v).length = S.JA.count v := by
  have hJAlen := h.2.2.2.1
  have htake : S.JA.take S.nnz = S.JA := by
    rw [← hJAlen, List.take_length]
  have h1 := fasp_icsr_trans_IA S h v (by omega)
  have h2 := fasp_icsr_trans_IA S h (v + 1) (by omega)
  unfold iRowJA rowPos
  rw [List.length_map, List.length_range', h1, h2, countP_lt_succ]
  rw [htake]
  omega

/-- A vertex occurring as a column of S has a nonempty transpose row. -/
theorem icsr_trans_row_ne (S : iCSRmat) (h : icsrValid S) (v : ℕ)
    (hv : v < S.col) (hmem : v ∈ S.JA) :
    iRowJA (fasp_icsr_trans S) v ≠ [] := by
  intro hnil
  have h1 := icsr_trans_row_len S h v hv
  rw [hnil] at h1
  have h2 : 1 ≤ S.JA.countP (fun x => x == v) :=
    countP_pos_of_mem S.JA _ v hmem (by simp)
  have h3 : S.JA.count v = S.JA.countP (fun x => x == v) := rfl
  rw [h3] at h1
  simp at h1
  omega

/-- The bitwise-or fold is zero only on two zeros, given enough fuel. -/
theorem bitFold_or_eq_zero :
    ∀ fuel m n, m + n < fuel → bitFold or fuel m n = 0 → m = 0 ∧ n = 0 := by
  intro fuel
  induction fuel with
  | zero =>
    intro m n h
    omega
  | succ f ih =>
    intro m n hlt h
    by_cases h00 : m = 0 ∧ n = 0
    · exact h00
    · unfold bitFold at h
      rw [if_neg h00] at h
      have hrec : bitFold or f (m / 2) (n / 2) = 0 := by omega
      have hbit : (if or (decide (m % 2 = 1)) (decide (n % 2 = 1)) then 1 else 0) = 0 := by
        omega
      have hb : or (decide (m % 2 = 1)) (decide (n % 2 = 1)) = false := by
        by_contra hb
        rw [if_pos (by revert hb ; cases or (decide (m % 2 = 1)) (decide (n % 2 = 1)) <;> simp)] at hbit
        omega
      have hm2 : ¬ m % 2 = 1 := by
        intro hx
        rw [hx] at hb
        simp at hb
      have hn2 : ¬ n % 2 = 1 := by
        intro hx
        rw [hx] at hb
        simp at hb
      have := ih (m / 2) (n / 2) (by omega) hrec
      omega

/-- natOr is zero only on two zeros. -/
theorem natOr_eq_zero (m n : ℕ) (h : natOr m n = 0) : m = 0 ∧ n = 0 :=
  bitFold_or_eq_zero (m + n + 1) m n (by omega) h

/-- The two's-complement bitwise or of the source's `ci_tilde_mark |= i`
vanishes only when both operands vanish. -/
theorem intOr_eq_zero (m n : ℤ) (h : intOr m n = 0) : m = 0 ∧ n = 0 := by
  cases m with
  | ofNat a =>
    cases n with
    | ofNat b =>
      simp only [intOr] at h
      have hz : natOr a b = 0 := by
        rw [Int.ofNat_eq_natCast] at h
        exact_mod_cast h
      obtain ⟨ha, hb⟩ := natOr_eq_zero a b hz
      subst ha
      subst hb
      exact ⟨rfl, rfl⟩
    | negSucc b =>
      exact absurd h (by simp only [intOr] ; simp)
  | negSucc a =>
    cases n with
    | ofNat b => exact absurd h (by simp only [intOr] ; simp)
    | negSucc b => exact absurd h (by simp only [intOr] ; simp)

/-- Promoting a fine vertex to coarse preserves the coverage of any vertex. -/
theorem covered_promote (S : iCSRmat) (vec : List ℤ) (x v : ℕ)
    (hx : vec.getD x 0 = FGPT) (h : covered S vec v) :
    covered S (vec.set x CGPT) v := by
  by_cases hxl : x < vec.length
  · rcases h with ⟨c, hc, hcC⟩ | hall
    · by_cases hcx : c = x
      · subst hcx
        exact Or.inl ⟨c, hc, getD_set_self _ _ _ _ hxl⟩
      · exact Or.inl ⟨c, hc, by rw [getD_set_ne _ _ _ _ _ hcx] ; exact hcC⟩
    · refine Or.inr ?_
      intro j hj
      have hjx : j ≠ x := by
        intro he
        subst he
        rw [hall j hj] at hx
        exact absurd hx (by decide)
      rw [getD_set_ne _ _ _ _ _ hjx]
      exact hall j hj
  · rw [List.set_eq_of_length_le (by omega)]
    exact h

/-- The preparation of steps 1-3 of form_coarse_level establishes the
main-loop invariant, and the main loop then decides every vertex: the core
pipeline of phase one, stated over any initial label and measure arrays with
the properties steps 1-2 give them. -/
theorem phase1_pipeline (S : iCSRmat) (row : ℕ) (vec0 lam1 : List ℤ)
    (hS : icsrValid S) (hSrow : S.row = row) (hScol : S.col = row)
    (hloop : ∀ v, v ∉ iRowJA S v)
    (hv0len : vec0.length = row)
    (hv0 : ∀ v, v < row → vec0.getD v 0 = UNPT ∨ vec0.getD v 0 = ISPT)
    (hv0out : ∀ v, row ≤ v → vec0.getD v 0 = FGPT)
    (hlam1 : ∀ v, v < row → vec0.getD v 0 ≠ ISPT →
      lam1.getD v 0 = (S.JA.count v : ℤ))
    (hlam1is : ∀ v, v < row → vec0.getD v 0 = ISPT → lam1.getD v 0 = 0)
    (hlam1out : ∀ v, row ≤ v → lam1.getD v 0 = 0) :
    p1MInv (fasp_icsr_trans S) row
      (p1main S (fasp_icsr_trans S)
        (P1State.num_left ((List.range row).foldl (p1step3 S)
          { vec := vec0, lam := lam1, q := [],
            num_left := (vec0.filter (fun v => v == UNPT)).length, col := 0 }))
        ((List.range row).foldl (p1step3 S)
          { vec := vec0, lam := lam1, q := [],
            num_left := (vec0.filter (fun v => v == UNPT)).length, col := 0 })) ∧
    P1State.num_left (p1main S (fasp_icsr_trans S)
        (P1State.num_left ((List.range row).foldl (p1step3 S)
          { vec := vec0, lam := lam1, q := [],
            num_left := (vec0.filter (fun v => v == UNPT)).length, col := 0 }))
        ((List.range row).foldl (p1step3 S)
          { vec := vec0, lam := lam1, q := [],
            num_left := (vec0.filter (fun v => v == UNPT)).length, col := 0 }))
      = 0 := by
  have hrowJA : ∀ x, x < row → ∀ w ∈ iRowJA S x, w < row := by
    intro x hx w hw
    have := iRowJA_mem_lt S hS x (by omega) w hw
    omega
  have hSTS : ∀ x, x < row → ∀ w ∈ iRowJA S x, iRowJA (fasp_icsr_trans S) w ≠ [] := by
    intro x hx w hw
    exact icsr_trans_row_ne S hS w (by have := hrowJA x hx w hw ; omega)
      (iRowJA_mem_JA S hS x (by omega) w hw)
  have hSTmem : ∀ v, v < row → ∀ j, j ∈ iRowJA (fasp_icsr_trans S) v →
      v ∈ iRowJA S j ∧ j < row := by
    intro v hv j hj
    have := (fasp_icsr_trans_mem S hS v j (by omega)).mp hj
    exact ⟨this.2, by omega⟩
  have hstrong : ∀ i j, i < row → j ∈ iRowJA S i → vec0.getD j 0 ≠ ISPT →
      1 ≤ lam1.getD j 0 := by
    intro i j hi hj hne
    have hjrow : j < row := hrowJA i hi j hj
    rw [hlam1 j hjrow hne]
    have hmem : j ∈ S.JA := iRowJA_mem_JA S hS i (by omega) j hj
    have hcnt : 1 ≤ S.JA.countP (fun x => x == j) :=
      countP_pos_of_mem S.JA _ j hmem (by simp)
    have h3 : S.JA.count j = S.JA.countP (fun x => x == j) := rfl
    omega
  have hindeg : ∀ v, 1 ≤ lam1.getD v 0 → iRowJA (fasp_icsr_trans S) v ≠ [] := by
    intro v hv
    by_cases hvr : v < row
    · by_cases hvis : vec0.getD v 0 = ISPT
      · rw [hlam1is v hvr hvis] at hv
        omega
      · rw [hlam1 v hvr hvis] at hv
        intro hnil
        have h1 := icsr_trans_row_len S hS v (by omega)
        rw [hnil] at h1
        simp at h1
        omega
    · rw [hlam1out v (by omega)] at hv
      omega
  have h0 : p1SInv (fasp_icsr_trans S) row vec0 lam1 0
      { vec := vec0, lam := lam1, q := [],
        num_left := (vec0.filter (fun v => v == UNPT)).length, col := 0 } := by
    refine ⟨hv0len, ?_, ?_, ?_, fun v _ => rfl, ?_, fun v => le_refl _, ?_, ?_,
      ?_, rfl, ?_, ?_, List.nodup_nil⟩
    · intro v hv
      exact absurd hv (List.not_mem_nil v)
    · intro v hv _
      exact absurd hv (Nat.not_lt_zero v)
    · show (vec0.filter (fun v => v == UNPT)).length = vec0.countP (fun v => v == UNPT)
      exact (List.countP_eq_length_filter _ _).symm
    · intro v hvF
      by_cases hvr : v < row
      · rcases hv0 v hvr with h' | h' <;> rw [h'] at hvF <;>
          exact absurd hvF (by decide)
      · rw [hlam1out v (by omega)]
    · intro v hv
      exact absurd hv (List.not_mem_nil v)
    · intro v
      by_cases hvr : v < row
      · rcases hv0 v hvr with h' | h'
        · exact Or.inl h'
        · exact Or.inr (Or.inl h')
      · exact Or.inr (Or.inr (hv0out v (by omega)))
    · intro v hvr hvF
      rcases hv0 v hvr with h' | h' <;> rw [h'] at hvF ⊢ <;>
        first
          | rfl
          | exact absurd hvF (by decide)
    · intro v hv
      exact absurd hv (List.not_mem_nil v)
    · intro v hlt
      exact absurd hlt (lt_irrefl _)
  have h3 := p1step3_fold S (fasp_icsr_trans S) row vec0 lam1 hv0 hstrong hSTS
    hindeg _ h0
  have hM := p1SInv_to_MInv (fasp_icsr_trans S) row vec0 lam1 _ h3
  exact p1main_inv S (fasp_icsr_trans S) row hrowJA hSTS hSTmem hloop _ _ hM
    (le_refl _)

/-- Phase one of form_coarse_level leaves every vertex decided, the invariant
of the main loop intact and no undecided vertex behind. -/
theorem phase1Final_inv (A : dCSRmat) (S : iCSRmat) (row : ℕ)
    (hS : icsrValid S) (hSrow : S.row = row) (hScol : S.col = row)
    (hloop : ∀ v, v ∉ iRowJA S v) :
    p1MInv (fasp_icsr_trans S) row (phase1Final A S row) ∧
    (phase1Final A S row).num_left = 0 := by
  have hmain := phase1_pipeline S row
    ((List.range row).map (fun i =>
      if A.IA.getD (i + 1) 0 - A.IA.getD i 0 ≤ 1 then ISPT else UNPT))
    ((List.range row).map (fun i =>
      if A.IA.getD (i + 1) 0 - A.IA.getD i 0 ≤ 1 then 0
      else ((List.range row).map (fun k =>
        ((fasp_icsr_trans S).IA.getD (k + 1) 0 : ℤ) -
          ((fasp_icsr_trans S).IA.getD k 0 : ℤ))).getD i 0))
    hS hSrow hScol hloop (by simp) ?_ ?_ ?_ ?_ ?_
  · exact hmain
  · intro v hv
    rw [getD_map_range _ _ _ _ hv]
    by_cases hc : A.IA.getD (v + 1) 0 - A.IA.getD v 0 ≤ 1
    · rw [if_pos hc]
      exact Or.inr rfl
    · rw [if_neg hc]
      exact Or.inl rfl
  · intro v hv
    rw [getD_default _ _ _ (by simp ; omega)]
    rfl
  · intro v hv hne
    rw [getD_map_range _ _ _ _ hv] at hne ⊢
    by_cases hc : A.IA.getD (v + 1) 0 - A.IA.getD v 0 ≤ 1
    · exact absurd (if_pos hc) hne
    · rw [if_neg hc, getD_map_range _ _ _ _ hv]
      have hJAlen := hS.2.2.2.1
      have htake : S.JA.take S.nnz = S.JA := by
        rw [← hJAlen, List.take_length]
      have h1 := fasp_icsr_trans_IA S hS v (by omega)
      have h2 := fasp_icsr_trans_IA S hS (v + 1) (by omega)
      rw [h1, h2, countP_lt_succ, htake]
      push_cast
      ring
  · intro v hv his
    rw [getD_map_range _ _ _ _ hv] at his ⊢
    by_cases hc : A.IA.getD (v + 1) 0 - A.IA.getD v 0 ≤ 1
    · rw [if_pos hc]
    · rw [if_neg hc] at his
      exact absurd his (by decide)
  · intro v hv
    rw [getD_default _ _ _ (by simp ; omega)]

/-- Fuel arithmetic of the phase-two loop: an advancing step. -/
theorem fuel_step_adv (row i f c : ℕ) (hc : c ≤ 1) (hi : i < row)
    (h : 2 * (row - i) + 1 + c ≤ f + 1) : 2 * (row - (i + 1)) + 1 + c ≤ f := by
  omega

/-- Fuel arithmetic of the phase-two loop: re-examining the same vertex after
switching C_i_nonempty on. -/
theorem fuel_step_same (row i f : ℕ) (h : 2 * (row - i) + 1 + 1 ≤ f + 1) :
    2 * (row - i) + 1 + 0 ≤ f := by
  omega

/-- Fuel arithmetic of the phase-two loop: advancing while switching
C_i_nonempty off. -/
theorem fuel_step_ci (row i f : ℕ) (hi : i < row)
    (h : 2 * (row - i) + 1 + 0 ≤ f + 1) : 2 * (row - (i + 1)) + 1 + 1 ≤ f := by
  omega

/-- Phase two of form_coarse_level establishes coverage of every fine vertex
while keeping col equal to the coarse count and a non-coarse vertex alive;
the fuel bound is the measure the source loop respects (each iteration either
advances the scan or switches C_i_nonempty on). -/
theorem phase2_inv (S : iCSRmat) (row : ℕ)
    (hrowJA : ∀ x, x < row → ∀ w ∈ iRowJA S x, w < row)
    (hloop : ∀ v, v ∉ iRowJA S v) :
    ∀ fuel i st, p2Inv S row i st →
      2 * (row - i) + 1 + (if st.ci = 0 then 1 else 0) ≤ fuel →
      p2Post S row (phase2 S row fuel i st) := by
  intro fuel
  induction fuel with
  | zero =>
    intro i st _ hfuel
    by_cases hc : st.ci = 0
    · rw [if_pos hc] at hfuel
      omega
    · rw [if_neg hc] at hfuel
      omega
  | succ f ih =>
    intro i st hInv hfuel
    obtain ⟨hL, hG, hV3, hB, hGA, hC, hCT, hE⟩ := hInv
    unfold phase2
    by_cases hrow : row ≤ i
    · rw [if_pos hrow]
      exact ⟨hL, fun v hv => hB v (by omega), hC, hE⟩
    · rw [if_neg hrow]
      have hirow : i < row := by omega
      have hct1 : (if intOr st.mark (i : ℤ) ≠ 0 then (-1 : ℤ) else st.ci_tilde) > -1 →
          (if intOr st.mark (i : ℤ) ≠ 0 then (-1 : ℤ) else st.ci_tilde) = st.ci_tilde ∧
          st.mark = 0 ∧ i = 0 := by
        intro h1
        by_cases hm : intOr st.mark (i : ℤ) ≠ 0
        · rw [if_pos hm] at h1
          omega
        · push_neg at hm
          have h2 := intOr_eq_zero st.mark (i : ℤ) hm
          refine ⟨if_neg (fun hcc => hcc hm), h2.1, ?_⟩
          exact_mod_cast h2.2
      by_cases hF : st.vec.getD i 0 = FGPT
      · rw [if_pos hF]
        dsimp only
        set ga2 := (iRowJA S i).foldl
          (fun g j => if st.vec.getD j 0 = CGPT then g.set j (i : ℤ) else g)
          st.ga with hga2def
        have hga2 : ga2.length = row ∧ ∀ p, p < row →
            (ga2.getD p 0 = st.ga.getD p 0 ∨
              (ga2.getD p 0 = (i : ℤ) ∧ p ∈ iRowJA S i ∧
                st.vec.getD p 0 = CGPT)) := by
          rw [hga2def]
          refine foldl_inv
            (fun g j => if st.vec.getD j 0 = CGPT then g.set j (i : ℤ) else g)
            (fun g => g.length = row ∧ ∀ p, p < row →
              (g.getD p 0 = st.ga.getD p 0 ∨
                (g.getD p 0 = (i : ℤ) ∧ p ∈ iRowJA S i ∧
                  st.vec.getD p 0 = CGPT)))
            (iRowJA S i) st.ga ?_ ⟨hG, fun p hp => Or.inl rfl⟩
          intro g a ha hP
          dsimp only at hP ⊢
          by_cases hc : st.vec.getD a 0 = CGPT
          · rw [if_pos hc]
            have harow : a < row := hrowJA i hirow a ha
            refine ⟨by rw [List.length_set] ; exact hP.1, ?_⟩
            intro p hp
            by_cases hpa : p = a
            · subst hpa
              right
              rw [getD_set_self _ _ _ _ (by rw [hP.1] ; exact harow)]
              exact ⟨rfl, ha, hc⟩
            · rw [getD_set_ne _ _ _ _ _ hpa]
              exact hP.2 p hp
          · rw [if_neg hc]
            exact hP
        obtain ⟨hga2len, hga2or⟩ := hga2
        have hga2i : ∀ p, p < row → ga2.getD p 0 = (i : ℤ) →
            p ∈ iRowJA S i ∧ st.vec.getD p 0 = CGPT := by
          intro p hp he
          rcases hga2or p hp with h' | h'
          · rcases hGA p hp with hlt | ⟨heq, hmem, hc⟩
            · have h2 : st.ga.getD p 0 = (i : ℤ) := by rw [← h', he]
              rw [h2] at hlt
              exact absurd hlt (lt_irrefl _)
            · exact ⟨hmem, hc⟩
          · exact ⟨h'.2.1, h'.2.2⟩
        have hga2le : ∀ p, p < row → ga2.getD p 0 ≤ (i : ℤ) := by
          intro p hp
          rcases hga2or p hp with h' | h'
          · rcases hGA p hp with hlt | ⟨heq, _, _⟩
            · rw [h']
              omega
            · rw [h', heq]
          · rw [h'.1]
        split
        · rename_i hfind
          -- no promotable neighbor: vertex i is already covered
          have hnone := List.find?_eq_none.mp hfind
          have hcovi : covered S st.vec i := by
            by_cases hallI : ∀ j ∈ iRowJA S i, st.vec.getD j 0 = ISPT
            · exact Or.inr hallI
            · push_neg at hallI
              obtain ⟨j, hj, hjne⟩ := hallI
              rcases hV3 j with h' | h' | h'
              · exact absurd h' hjne
              · have hp := hnone j hj
                rw [h'] at hp
                simp only [beq_self_eq_true, Bool.true_and,
                  Bool.not_eq_true] at hp
                unfold setEmpty at hp
                rw [List.all_eq_false] at hp
                obtain ⟨jj, hjj, hjjp⟩ := hp
                have hjjeq : ga2.getD jj 0 = (i : ℤ) := by
                  simpa using hjjp
                have hjjrow : jj < row := hrowJA j (hrowJA i hirow j hj) jj hjj
                have h2 := hga2i jj hjjrow hjjeq
                exact Or.inl ⟨jj, h2.1, h2.2⟩
              · exact Or.inl ⟨j, hj, h'⟩
          refine ih (i + 1) _ ⟨hL, hga2len, hV3, ?_, ?_, hC, ?_, hE⟩ ?_
          · intro v hv hFv
            rcases Nat.lt_or_ge v i with h' | h'
            · exact hB v h' hFv
            · have hvi : v = i := by omega
              subst hvi
              exact hcovi
          · intro p hp
            left
            have := hga2le p hp
            push_cast
            omega
          · dsimp only
            intro hgt
            obtain ⟨hcteq, hmark0, hi0⟩ := hct1 hgt
            rw [hcteq] at hgt ⊢
            have h2 := hCT hgt
            exact ⟨h2.1, fun _ => h2.2 hmark0⟩
          · dsimp only
            by_cases hci : st.ci = 0
            · rw [if_pos hci] at hfuel ⊢
              exact fuel_step_adv row i f 1 (by omega) hirow hfuel
            · rw [if_neg hci] at hfuel ⊢
              exact fuel_step_adv row i f 0 (by omega) hirow hfuel
        · rename_i j hfind
          have hjmem : j ∈ iRowJA S i := List.mem_of_find?_eq_some hfind
          have hjp := List.find?_some hfind
          have hjF : st.vec.getD j 0 = FGPT := by
            simp only [Bool.and_eq_true, beq_iff_eq] at hjp
            exact hjp.1
          have hjrow : j < row := hrowJA i hirow j hjmem
          have hjni : j ≠ i := by
            intro he
            subst he
            exact hloop j hjmem
          have hilen : i < st.vec.length := by omega
          have hjlen : j < st.vec.length := by omega
          by_cases hci : st.ci ≠ 0
          · rw [if_pos hci]
            by_cases hd : (if intOr st.mark (i : ℤ) ≠ 0 then (-1 : ℤ) else st.ci_tilde) > -1
            · rw [if_pos hd, if_pos hd, if_pos hd]
              obtain ⟨hcteq, hmark0, hi0⟩ := hct1 hd
              rw [hcteq] at hd ⊢
              obtain ⟨hctC, hctmem0⟩ := hCT hd
              have hctmem : st.ci_tilde.toNat ∈ iRowJA S 0 := hctmem0 hmark0
              subst hi0
              have htrow : st.ci_tilde.toNat < row := hrowJA 0 hirow _ hctmem
              have htne0 : st.ci_tilde.toNat ≠ 0 := by
                intro he
                rw [he] at hctmem
                exact hloop 0 hctmem
              have htlen2 : st.ci_tilde.toNat < (st.vec.set 0 CGPT).length := by
                rw [List.length_set]
                omega
              have hvec2t : (st.vec.set 0 CGPT).getD st.ci_tilde.toNat 0 = CGPT := by
                rw [getD_set_ne _ _ _ _ _ htne0]
                exact hctC
              have hvec3t : ((st.vec.set 0 CGPT).set st.ci_tilde.toNat FGPT).getD
                  st.ci_tilde.toNat 0 = FGPT := getD_set_self _ _ _ _ htlen2
              have hvec30 : ((st.vec.set 0 CGPT).set st.ci_tilde.toNat FGPT).getD
                  0 0 = CGPT := by
                rw [getD_set_ne _ _ _ _ _ (fun he => htne0 he.symm)]
                exact getD_set_self _ _ _ _ hilen
              have hcnt1 := count_set_lt CGPT st.vec 0 CGPT hilen
              rw [hF, if_neg (by decide), if_pos rfl] at hcnt1
              have hcnt2 := count_set_lt CGPT (st.vec.set 0 CGPT)
                st.ci_tilde.toNat FGPT htlen2
              rw [hvec2t, if_pos rfl, if_neg (by decide)] at hcnt2
              refine ih 1 _ ⟨?_, hga2len, ?_, ?_, ?_, ?_, ?_, ?_⟩ ?_
              · dsimp only
                rw [List.length_set, List.length_set]
                exact hL
              · dsimp only
                intro v
                by_cases hvt : v = st.ci_tilde.toNat
                · subst hvt
                  rw [hvec3t]
                  exact Or.inr (Or.inl rfl)
                · rw [getD_set_ne _ _ _ _ _ hvt]
                  by_cases hv0 : v = 0
                  · subst hv0
                    rw [getD_set_self _ _ _ _ hilen]
                    exact Or.inr (Or.inr rfl)
                  · rw [getD_set_ne _ _ _ _ _ hv0]
                    exact hV3 v
              · dsimp only
                intro v hv hFv
                have hv0 : v = 0 := by omega
                subst hv0
                rw [hvec30] at hFv
                exact absurd hFv (by decide)
              · dsimp only
                intro p hp
                left
                have := hga2le p hp
                push_cast
                omega
              · dsimp only
                rw [hC]
                have : ((st.vec.set 0 CGPT).set st.ci_tilde.toNat FGPT).count CGPT
                    = st.vec.count CGPT := by omega
                rw [this]
              · dsimp only
                intro hgt
                exact absurd hgt (by decide)
              · dsimp only
                left
                exact ⟨st.ci_tilde.toNat, htrow, Or.inl hvec3t⟩
              · dsimp only
                rw [if_pos rfl]
                rw [if_neg hci] at hfuel
                exact fuel_step_ci row 0 f hirow hfuel
            · rw [if_neg hd, if_neg hd, if_neg hd]
              have hcnt1 := count_set_lt CGPT st.vec i CGPT hilen
              rw [hF, if_neg (by decide), if_pos rfl] at hcnt1
              refine ih (i + 1) _ ⟨?_, hga2len, ?_, ?_, ?_, ?_, ?_, ?_⟩ ?_
              · dsimp only
                rw [List.length_set]
                exact hL
              · dsimp only
                intro v
                by_cases hvi : v = i
                · subst hvi
                  rw [getD_set_self _ _ _ _ hilen]
                  exact Or.inr (Or.inr rfl)
                · rw [getD_set_ne _ _ _ _ _ hvi]
                  exact hV3 v
              · dsimp only
                intro v hv hFv
                by_cases hvi : v = i
                · subst hvi
                  rw [getD_set_self _ _ _ _ hilen] at hFv
                  exact absurd hFv (by decide)
                · have hvlt : v < i := by omega
                  rw [getD_set_ne _ _ _ _ _ hvi] at hFv
                  exact covered_promote S st.vec i v hF (hB v hvlt hFv)
              · dsimp only
                intro p hp
                left
                have := hga2le p hp
                push_cast
                omega
              · dsimp only
                rw [hC]
                push_cast
                omega
              · dsimp only
                intro hgt
                obtain ⟨hcteq, hmark0, hi0⟩ := hct1 hgt
                rw [hcteq] at hgt hd
                exact absurd hgt hd
              · dsimp only
                left
                refine ⟨j, hjrow, Or.inl ?_⟩
                rw [getD_set_ne _ _ _ _ _ hjni]
                exact hjF
              · dsimp only
                rw [if_pos rfl]
                rw [if_neg hci] at hfuel
                exact fuel_step_ci row i f hirow hfuel
          · rw [if_neg hci]
            push_neg at hci
            have hcnt1 := count_set_lt CGPT st.vec j CGPT hjlen
            rw [hjF, if_neg (by decide), if_pos rfl] at hcnt1
            refine ih i _ ⟨?_, hga2len, ?_, ?_, ?_, ?_, ?_, ?_⟩ ?_
            · dsimp only
              rw [List.length_set]
              exact hL
            · dsimp only
              intro v
              by_cases hvj : v = j
              · subst hvj
                rw [getD_set_self _ _ _ _ hjlen]
                exact Or.inr (Or.inr rfl)
              · rw [getD_set_ne _ _ _ _ _ hvj]
                exact hV3 v
            · dsimp only
              intro v hv hFv
              by_cases hvj : v = j
              · subst hvj
                rw [getD_set_self _ _ _ _ hjlen] at hFv
                exact absurd hFv (by decide)
              · rw [getD_set_ne _ _ _ _ _ hvj] at hFv
                exact covered_promote S st.vec j v hjF (hB v hv hFv)
            · dsimp only
              intro p hp
              rcases hga2or p hp with h' | h'
              · rcases hGA p hp with hlt | ⟨heq, hmem, hcc⟩
                · left
                  rw [h']
                  exact hlt
                · right
                  have hpj : p ≠ j := by
                    intro he
                    rw [he, hjF] at hcc
                    exact absurd hcc (by decide)
                  refine ⟨by rw [h'] ; exact heq, hmem, ?_⟩
                  rw [getD_set_ne _ _ _ _ _ hpj]
                  exact hcc
              · right
                have hpj : p ≠ j := by
                  intro he
                  rw [he, hjF] at h'
                  exact absurd h'.2.2 (by decide)
                refine ⟨h'.1, h'.2.1, ?_⟩
                rw [getD_set_ne _ _ _ _ _ hpj]
                exact h'.2.2
            · dsimp only
              rw [hC]
              push_cast
              omega
            · dsimp only
              intro _
              constructor
              · rw [Int.toNat_natCast]
                exact getD_set_self _ _ _ _ hjlen
              · intro hm
                have hi0 : i = 0 := by exact_mod_cast hm
                rw [Int.toNat_natCast, ← hi0]
                exact hjmem
            · dsimp only
              left
              refine ⟨i, hirow, Or.inl ?_⟩
              rw [getD_set_ne _ _ _ _ _ (fun he => hjni he.symm)]
              exact hF
            · dsimp only
              rw [if_neg (by decide)]
              rw [if_pos hci] at hfuel
              exact fuel_step_same row i f hfuel
      · rw [if_neg hF]
        refine ih (i + 1) _ ⟨hL, hG, hV3, ?_, ?_, hC, ?_, hE⟩ ?_
        · intro v hv hFv
          rcases Nat.lt_or_ge v i with h' | h'
          · exact hB v h' hFv
          · have hvi : v = i := by omega
            subst hvi
            exact absurd hFv hF
        · intro p hp
          left
          rcases hGA p hp with hlt | ⟨heq, _, _⟩
          · push_cast
            omega
          · rw [heq]
            push_cast
            omega
        · dsimp only
          intro hgt
          obtain ⟨hcteq, hmark0, hi0⟩ := hct1 hgt
          rw [hcteq] at hgt ⊢
          have h2 := hCT hgt
          exact ⟨h2.1, fun _ => h2.2 hmark0⟩
        · dsimp only
          by_cases hci : st.ci = 0
          · rw [if_pos hci] at hfuel ⊢
            exact fuel_step_adv row i f 1 (by omega) hirow hfuel
          · rw [if_neg hci] at hfuel ⊢
            exact fuel_step_adv row i f 0 (by omega) hirow hfuel

/-- The column bound of generate_S is that of A in both branches. -/
theorem generate_S_col (A : dCSRmat) (cap th : ℚ) :
    (generate_S A cap th).col = A.col := by
  simp only [generate_S]
  split <;> rfl

/-- A strength matrix with an edge comes from a matrix with at least one row. -/
theorem generate_S_row_pos (A : dCSRmat) (cap th : ℚ)
    (h : (generate_S A cap th).nnz ≠ 0) : 0 < A.row := by
  by_contra hc
  push_neg at hc
  apply h
  rw [generate_S_nnz_eq]
  have h0 : A.row = 0 := by omega
  rw [h0]
  simp

/-- The sum of a prefix is at most the sum of the list. -/
theorem take_sum_le (l : List ℕ) (a : ℕ) : (l.take a).sum ≤ l.sum := by
  conv_rhs => rw [← List.take_append_drop a l]
  rw [List.sum_append]
  omega

/-- Prefix sums of a list of naturals are monotone. -/
theorem take_sum_mono (l : List ℕ) (a b : ℕ) (h : a ≤ b) :
    (l.take a).sum ≤ (l.take b).sum := by
  have h1 : l.take a = (l.take b).take a := by
    rw [List.take_take, Nat.min_eq_left h]
  rw [h1]
  exact take_sum_le _ _

/-- The three weak-marking tests of genSmarkRow either mark the position weak
or leave the column index, and a kept column passed the diagonal test. -/
theorem ite3_neg_or {c1 c2 c3 : Prop} [Decidable c1] [Decidable c2]
    [Decidable c3] (x m : ℤ)
    (h : (if c1 then -1 else if c2 then -1 else if c3 then -1 else x) = m) :
    m = -1 ∨ (¬ c2 ∧ m = x) := by
  split_ifs at h
  · exact Or.inl h.symm
  · exact Or.inl h.symm
  · exact Or.inl h.symm
  · rename_i h1 h2 h3
    exact Or.inr ⟨h2, h.symm⟩

/-- A kept column of a row of generate_S comes from a stored position of that
row that is not the diagonal search's hit. -/
theorem genSkeptRow_mem_elim (A : dCSRmat) (cap th : ℚ) (diag : List ℚ)
    (i w : ℕ) (hw : w ∈ genSkeptRow A cap th diag i) :
    ∃ p ∈ rowPos A.IA i, w = A.JA.getD p 0 ∧
      (rowPos A.IA i).find? (fun q => A.JA.getD q 0 == i) ≠ some p := by
  unfold genSkeptRow at hw
  rw [List.mem_filterMap] at hw
  obtain ⟨m, hm, hsome⟩ := hw
  by_cases hm1 : m > -1
  · rw [if_pos hm1] at hsome
    have hw' : m.toNat = w := Option.some_inj.mp hsome
    simp only [genSmarkRow] at hm
    rw [List.mem_map] at hm
    obtain ⟨p, hp, hmeq⟩ := hm
    rcases ite3_neg_or _ _ hmeq with h' | ⟨hnd, h'⟩
    · rw [h'] at hm1
      exact absurd hm1 (by decide)
    · refine ⟨p, hp, ?_, hnd⟩
      rw [← hw', h', Int.toNat_natCast]
  · rw [if_neg hm1] at hsome
    exact absurd hsome (by simp)

/-- Kept columns of generate_S are bounded by the column count of A. -/
theorem genSkeptRow_mem_lt (A : dCSRmat) (cap th : ℚ) (diag : List ℚ) (i : ℕ)
    (hA : csrValid A) (hi : i < A.row) :
    ∀ w ∈ genSkeptRow A cap th diag i, w < A.col := by
  intro w hw
  obtain ⟨p, hp, rfl, _⟩ := genSkeptRow_mem_elim A cap th diag i w hw
  have hpn : p < A.nnz :=
    rowPos_mem_lt A.IA A.row A.nnz hA.2.2.1 hA.2.1 i hi p hp
  exact hA.2.2.2.2.2 p hpn

/-- A row with pairwise distinct columns never keeps its own diagonal as a
strong edge. -/
theorem genSkeptRow_no_self (A : dCSRmat) (cap th : ℚ) (diag : List ℚ)
    (i : ℕ) (hnodup : (dRowJA A i).Nodup) :
    i ∉ genSkeptRow A cap th diag i := by
  intro hw
  obtain ⟨p, hp, heq, hnd⟩ := genSkeptRow_mem_elim A cap th diag i i hw
  exact hnd ((diagFirst_iff A i p hnodup hp).mpr heq.symm)

/-- generate_S of a structurally valid matrix is structurally valid. -/
theorem generate_S_valid (A : dCSRmat) (cap th : ℚ) (hA : csrValid A)
    (hnnz : (generate_S A cap th).nnz ≠ 0) :
    icsrValid (generate_S A cap th) := by
  have hrow0 : 0 < A.row := generate_S_row_pos A cap th hnnz
  refine ⟨?_, ?_, ?_, ?_, ?_⟩
  · rw [generate_S_IA_getD A cap th 0 hrow0]
    simp
  · rw [generate_S_row, generate_S_IA_last A cap th hnnz, generate_S_nnz_eq,
      List.length_flatten]
  · rw [generate_S_row]
    intro k hk
    rw [generate_S_IA_getD A cap th k hk]
    rcases Nat.lt_or_ge (k + 1) A.row with h' | h'
    · rw [generate_S_IA_getD A cap th (k + 1) h']
      exact take_sum_mono _ _ _ (by omega)
    · have hk1 : k + 1 = A.row := by omega
      rw [hk1, generate_S_IA_last A cap th hnnz]
      exact take_sum_le _ _
  · rw [generate_S_JA_eq, generate_S_nnz_eq]
  · rw [generate_S_nnz_eq, generate_S_col, generate_S_JA_eq]
    intro p hp
    have hmem := getD_mem _ p 0 hp
    rw [List.mem_flatten] at hmem
    obtain ⟨l, hlK, hxl⟩ := hmem
    obtain ⟨i, hiR, rfl⟩ := List.mem_map.mp hlK
    exact genSkeptRow_mem_lt A cap th _ i hA (List.mem_range.mp hiR) _ hxl

/-- Strength rows beyond the row count are empty. -/
theorem generate_S_iRowJA_out (A : dCSRmat) (cap th : ℚ) (v : ℕ)
    (hv : A.row ≤ v) : iRowJA (generate_S A cap th) v = [] := by
  unfold iRowJA rowPos
  simp only [generate_S]
  split
  · rw [getD_default (α := ℕ) _ (v + 1) _ (by simp ; omega)]
    simp
  · rw [getD_default (α := ℕ) _ (v + 1) _ (by simp ; omega)]
    simp

/-- The strength graph of generate_S has no self loop when each row of A has
pairwise distinct columns. -/
theorem generate_S_no_self (A : dCSRmat) (cap th : ℚ)
    (hnodup : ∀ i, i < A.row → (dRowJA A i).Nodup)
    (hnnz : (generate_S A cap th).nnz ≠ 0) :
    ∀ v, v ∉ iRowJA (generate_S A cap th) v := by
  intro v hv
  rcases Nat.lt_or_ge v A.row with h' | h'
  · rw [generate_S_iRowJA A cap th hnnz v h'] at hv
    exact genSkeptRow_no_self A cap th _ v (hnodup v h') hv
  · rw [generate_S_iRowJA_out A cap th v h'] at hv
    exact List.not_mem_nil v hv

/-- form_coarse_level written through phase1Final and phase2: the definition
unfolded at its split on the interpolation type. -/
theorem form_coarse_level_eq (A : dCSRmat) (S : iCSRmat) (row : ℕ) (it : ℤ) :
    form_coarse_level A S row it =
      if it ≠ INTERP_STD then
        ((phase2 S row (2 * row + 2) 0
          { vec := (phase1Final A S row).vec, ga := List.replicate row (-1),
            ci_tilde := -1, mark := -1, ci := 0,
            col := (phase1Final A S row).col }).vec,
         (phase2 S row (2 * row + 2) 0
          { vec := (phase1Final A S row).vec, ga := List.replicate row (-1),
            ci_tilde := -1, mark := -1, ci := 0,
            col := (phase1Final A S row).col }).col)
      else ((phase1Final A S row).vec, (phase1Final A S row).col) := rfl

/-- The state of the C/F splitting after both phases of form_coarse_level on
the strength graph of generate_S: full length, every fine vertex covered, col
counting the coarse vertices, and a non-coarse vertex unless nothing is
coarse. -/
theorem form_coarse_level_post (A : dCSRmat) (cap th : ℚ) (it : ℤ)
    (hA : csrValid A) (hsq : A.col = A.row)
    (hnodup : ∀ i, i < A.row → (dRowJA A i).Nodup)
    (hnnz : (generate_S A cap th).nnz ≠ 0) (hstd : it ≠ INTERP_STD) :
    (form_coarse_level A (generate_S A cap th) A.row it).1.length = A.row ∧
    (∀ v, v < A.row →
      (form_coarse_level A (generate_S A cap th) A.row it).1.getD v 0 = FGPT →
      covered (generate_S A cap th)
        (form_coarse_level A (generate_S A cap th) A.row it).1 v) ∧
    (form_coarse_level A (generate_S A cap th) A.row it).2 =
      ((form_coarse_level A (generate_S A cap th) A.row it).1.count CGPT : ℤ) ∧
    ((∃ v, v < A.row ∧
        ((form_coarse_level A (generate_S A cap th) A.row it).1.getD v 0 = FGPT ∨
          (form_coarse_level A (generate_S A cap th) A.row it).1.getD v 0 = ISPT)) ∨
      (∀ v, (form_coarse_level A (generate_S A cap th) A.row it).1.getD v 0 ≠ CGPT)) := by
  have hSv := generate_S_valid A cap th hA hnnz
  have hSrow := generate_S_row A cap th
  have hScol : (generate_S A cap th).col = A.row := by
    rw [generate_S_col]
    exact hsq
  have hloopS := generate_S_no_self A cap th hnodup hnnz
  have hrowJA_S : ∀ x, x < A.row →
      ∀ w ∈ iRowJA (generate_S A cap th) x, w < A.row := by
    intro x hx w hw
    have := iRowJA_mem_lt _ hSv x (by omega) w hw
    omega
  obtain ⟨⟨⟨hL, hQ, hCov, hN, hC, hD, hND, hV4⟩, hE⟩, hnum0⟩ :=
    phase1Final_inv A (generate_S A cap th) A.row hSv hSrow hScol hloopS
  have hcnt0 : (phase1Final A (generate_S A cap th) A.row).vec.count UNPT = 0 := by
    rw [← hN]
    exact hnum0
  have hnoU := forall_ne_of_count_eq_zero _ UNPT (by decide) hcnt0
  have hInit : p2Inv (generate_S A cap th) A.row 0
      { vec := (phase1Final A (generate_S A cap th) A.row).vec,
        ga := List.replicate A.row (-1), ci_tilde := -1, mark := -1, ci := 0,
        col := (phase1Final A (generate_S A cap th) A.row).col } := by
    refine ⟨hL, by simp, ?_, ?_, ?_, hC, ?_, hE⟩
    · intro v
      rcases hV4 v with h' | h' | h' | h'
      · exact absurd h' (hnoU v)
      · exact Or.inl h'
      · exact Or.inr (Or.inl h')
      · exact Or.inr (Or.inr h')
    · intro v hv
      exact absurd hv (Nat.not_lt_zero v)
    · intro p hp
      left
      have hval : (List.replicate A.row (-1 : ℤ)).getD p 0 = -1 := by
        rw [List.getD_eq_getElem?_getD, List.getElem?_replicate, if_pos hp]
        rfl
      dsimp only
      rw [hval]
      omega
    · intro hgt
      dsimp only at hgt
      exact absurd hgt (by decide)
  have h2 := phase2_inv (generate_S A cap th) A.row hrowJA_S hloopS
    (2 * A.row + 2) 0 _ hInit (by dsimp only ; rw [if_pos rfl] ; omega)
  rw [form_coarse_level_eq, if_pos hstd]
  exact h2

/-- Claim C2 (amended): on a structurally valid square matrix whose rows have
pairwise distinct column indices and whose strength graph generate_S has at
least one edge, the classical Ruge-Stuben splitting of form_coarse_level with
a non-standard interpolation type leaves every fine vertex covered: it has a
strong neighbor labeled coarse, or every one of its strong neighbors is
isolated.  (The claimed two-hop reachability of a coarse vertex is amended to
this form: phase two in fact enforces a coarse neighbor at one hop, but a fine
vertex whose strength row is empty reaches no coarse vertex at all, refuting
the claim as stated.) -/
theorem form_coarse_level_fine_covered (A : dCSRmat) (cap th : ℚ) (it : ℤ)
    (hA : csrValid A) (hsq : A.col = A.row)
    (hnodup : ∀ i, i < A.row → (dRowJA A i).Nodup)
    (hnnz : (generate_S A cap th).nnz ≠ 0) (hstd : it ≠ INTERP_STD) :
    ∀ v, v < A.row →
      (form_coarse_level A (generate_S A cap th) A.row it).1.getD v 0 = FGPT →
      covered (generate_S A cap th)
        (form_coarse_level A (generate_S A cap th) A.row it).1 v :=
  fun v hv hF =>
    (form_coarse_level_post A cap th it hA hsq hnodup hnnz hstd).2.1 v hv hF

theorem aw_mark0 : genSmarkRow Aw 2 (1/2) [2, 2] 0 = [-1, 1] := by
  norm_num [genSmarkRow, show rowPos Aw.IA 0 = [0, 1] from by decide, aw_find0,
    dRowVal, show Aw.val = [2, -1, -1, 2] from rfl,
    show Aw.JA = [0, 1, 0, 1] from rfl, min_def, SMALLREAL]

theorem aw_mark1 : genSmarkRow Aw 2 (1/2) [2, 2] 1 = [0, -1] := by
  norm_num [genSmarkRow, show rowPos Aw.IA 1 = [2, 3] from by decide, aw_find1,
    dRowVal, show Aw.val = [2, -1, -1, 2] from rfl,
    show Aw.JA = [0, 1, 0, 1] from rfl, min_def, SMALLREAL]

theorem genS_Aw : generate_S Aw 2 (1/2) =
    { row := 2, col := 2, nnz := 2, IA := [0, 1, 2], JA := [1, 0] } := by
  have hk0 : genSkeptRow Aw 2 (1/2) [2, 2] 0 = [1] := by
    unfold genSkeptRow
    rw [aw_mark0]
    decide
  have hk1 : genSkeptRow Aw 2 (1/2) [2, 2] 1 = [0] := by
    unfold genSkeptRow
    rw [aw_mark1]
    decide
  simp only [generate_S, aw_getdiag]
  rw [show (List.range Aw.row) = [0, 1] from by decide]
  simp only [List.map_cons, List.map_nil, hk0, hk1]
  decide

/-- Witness for claim C2 at the concrete matrix Aw: its hypotheses hold and
its coverage conclusion applies. -/
theorem form_coarse_level_fine_covered_witness :
    csrValid Aw ∧ Aw.col = Aw.row ∧
    (∀ i, i < Aw.row → (dRowJA Aw i).Nodup) ∧
    (generate_S Aw 2 (1/2)).nnz ≠ 0 ∧ INTERP_REG ≠ INTERP_STD ∧
    (∀ v, v < Aw.row →
      (form_coarse_level Aw (generate_S Aw 2 (1/2)) Aw.row INTERP_REG).1.getD v 0
        = FGPT →
      covered (generate_S Aw 2 (1/2))
        (form_coarse_level Aw (generate_S Aw 2 (1/2)) Aw.row INTERP_REG).1 v) := by
  have hnnz : (generate_S Aw 2 (1/2)).nnz ≠ 0 := by
    rw [genS_Aw]
    decide
  exact ⟨by decide, by decide, by decide, hnnz, by decide,
    form_coarse_level_fine_covered Aw 2 (1/2) INTERP_REG (by decide) (by decide)
      (by decide) hnnz (by decide)⟩

/-- Reading a mapped pair of columns and values at an in-range position gives
the stored pair. -/
theorem getD_map_pair (L : List (ℕ × ℚ)) (p : ℕ) (hp : p < L.length) :
    ((L.map Prod.fst).getD p 0, (L.map Prod.snd).getD p 0) = L.getD p (0, 0) := by
  rw [getD_map_lt Prod.fst L p 0 hp, getD_map_lt Prod.snd L p 0 hp,
    List.getD_eq_getElem?_getD, List.getElem?_eq_getElem hp]
  rfl

/-- Row extraction from the shared CSR assembler csrOfRows: row i holds
exactly the i-th input row. -/
theorem dRowPairs_csrOfRows (row col : ℕ) (rows : List (List (ℕ × ℚ)))
    (hlen : rows.length = row) (i : ℕ) (hi : i < row) :
    dRowPairs (csrOfRows row col rows) i = rows.getD i [] := by
  unfold dRowPairs csrOfRows rowPos
  dsimp only
  have hIA : ∀ k, k < row + 1 →
      ((List.range (row + 1)).map (fun t =>
        ((rows.map List.length).take t).foldl (fun s c => s + c) 0)).getD k 0
      = ((rows.map List.length).take k).sum := by
    intro k hk
    rw [getD_map_range _ _ _ _ hk, sum_foldl_eq]
  rw [hIA i (by omega), hIA (i + 1) (by omega)]
  have hsucc : ((rows.map List.length).take (i + 1)).sum
      = ((rows.map List.length).take i).sum + (rows.getD i []).length := by
    rw [List.sum_take_succ _ _ (by simp ; omega)]
    congr 1
    rw [List.getElem_map]
    congr 1
    rw [List.getD_eq_getElem?_getD, List.getElem?_eq_getElem (by omega)]
    rfl
  rw [hsucc]
  have hdiff : ∀ s : ℕ, s + (rows.getD i []).length - s
      = (rows.getD i []).length := by
    intro s
    omega
  rw [hdiff]
  have hflatlen : rows.flatten.length = (rows.map List.length).sum :=
    List.length_flatten rows
  have hbound : ((rows.map List.length).take i).sum + (rows.getD i []).length
      ≤ rows.flatten.length := by
    rw [hflatlen, ← hsucc]
    exact take_sum_le _ _
  have hmem : ∀ p ∈ List.range' (((rows.map List.length).take i).sum)
      (rows.getD i []).length, p < rows.flatten.length := by
    intro p hp
    have := List.mem_range'_1.mp hp
    omega
  have hcong : ∀ p ∈ List.range' (((rows.map List.length).take i).sum)
      (rows.getD i []).length,
      ((rows.flatten.map Prod.fst).getD p 0,
        (rows.flatten.map Prod.snd).getD p 0) = rows.flatten.getD p (0, 0) :=
    fun p hp => getD_map_pair rows.flatten p (hmem p hp)
  rw [List.map_congr_left hcong]
  exact flatten_segment (0, 0) rows i (by omega)

/-- The column view of a row, through the pair view. -/
theorem dRowJA_eq_pairs (P : dCSRmat) (i : ℕ) :
    dRowJA P i = (dRowPairs P i).map Prod.fst := by
  unfold dRowJA dRowPairs
  rw [List.map_map]
  rfl

/-- The value view of a row, through the pair view. -/
theorem dRowVal_eq_pairs (P : dCSRmat) (i : ℕ) :
    dRowVal P i = (dRowPairs P i).map Prod.snd := by
  unfold dRowVal dRowPairs
  rw [List.map_map]
  rfl

/-- The shared CSR assembler produces a structurally valid matrix when given
row many rows with in-range columns. -/
theorem csrOfRows_valid (row col : ℕ) (rows : List (List (ℕ × ℚ)))
    (hlen : rows.length = row)
    (hcols : ∀ r ∈ rows, ∀ e ∈ r, e.1 < col) :
    csrValid (csrOfRows row col rows) := by
  have hIA : ∀ k, k < row + 1 →
      ((List.range (row + 1)).map (fun t =>
        ((rows.map List.length).take t).foldl (fun s c => s + c) 0)).getD k 0
      = ((rows.map List.length).take k).sum := by
    intro k hk
    rw [getD_map_range _ _ _ _ hk, sum_foldl_eq]
  have hnnz : (csrOfRows row col rows).nnz = (rows.map List.length).sum := by
    unfold csrOfRows
    exact sum_foldl_eq
  have hJlen : (csrOfRows row col rows).JA.length = (rows.map List.length).sum := by
    unfold csrOfRows
    dsimp only
    rw [List.length_map, List.length_flatten]
  refine ⟨?_, ?_, ?_, ?_, ?_, ?_⟩
  · exact (hIA 0 (by omega)).trans (by simp)
  · show ((List.range (row + 1)).map _).getD row 0 = _
    rw [hIA row (by omega), hnnz]
    congr 1
    rw [List.take_of_length_le (by simp ; omega)]
  · intro k hk
    have hrr : (csrOfRows row col rows).row = row := rfl
    rw [hrr] at hk
    show ((List.range (row + 1)).map _).getD k 0 ≤
      ((List.range (row + 1)).map _).getD (k + 1) 0
    rw [hIA k (by omega), hIA (k + 1) (by omega)]
    exact take_sum_mono _ _ _ (by omega)
  · rw [hJlen, hnnz]
  · show (rows.flatten.map Prod.snd).length = _
    rw [List.length_map, List.length_flatten, hnnz]
  · rw [hnnz]
    intro p hp
    show (rows.flatten.map Prod.fst).getD p 0 < col
    have hpl : p < rows.flatten.length := by
      rw [List.length_flatten]
      omega
    rw [getD_map_lt Prod.fst rows.flatten p 0 hpl]
    have hm : rows.flatten.get ⟨p, hpl⟩ ∈ rows.flatten := List.get_mem _ _ hpl
    rw [List.mem_flatten] at hm
    obtain ⟨r, hr, he⟩ := hm
    exact hcols r hr _ he

/-- The coarse count of the splitting is strictly below the row count: either
a fine or isolated vertex survives, or no vertex is coarse at all. -/
theorem form_coarse_level_col_lt (A : dCSRmat) (cap th : ℚ) (it : ℤ)
    (hA : csrValid A) (hsq : A.col = A.row)
    (hnodup : ∀ i, i < A.row → (dRowJA A i).Nodup)
    (hnnz : (generate_S A cap th).nnz ≠ 0) (hstd : it ≠ INTERP_STD)
    (hrow0 : 0 < A.row) :
    (form_coarse_level A (generate_S A cap th) A.row it).2.toNat < A.row := by
  obtain ⟨hlen, hcov, hcol, hEor⟩ :=
    form_coarse_level_post A cap th it hA hsq hnodup hnnz hstd
  rw [hcol, Int.toNat_natCast]
  rcases hEor with ⟨v, hv, hFI⟩ | hnoC
  · have hmem : (form_coarse_level A (generate_S A cap th) A.row it).1.getD v 0
        ∈ (form_coarse_level A (generate_S A cap th) A.row it).1 :=
      getD_mem _ v 0 (by omega)
    have hcc : (form_coarse_level A (generate_S A cap th) A.row it).1.count CGPT
        = (form_coarse_level A (generate_S A cap th) A.row it).1.countP
          (fun x => x == CGPT) := rfl
    have hnp : ¬ ((form_coarse_level A (generate_S A cap th) A.row it).1.getD v 0
        == CGPT) = true := by
      rcases hFI with h' | h' <;> rw [h'] <;> decide
    have hlt := countP_lt_length_of_not _ (fun x => x == CGPT) _ hmem hnp
    rw [hlen] at hlt
    rw [hcc]
    exact hlt
  · rw [count_eq_zero_of_forall_ne _ _ hnoC]
    exact hrow0

/-- The row count of the Galerkin product is that of R. -/
theorem rapGalerkin_row (R A P : dCSRmat) : (rapGalerkin R A P).row = R.row := rfl

/-- The Galerkin product R A P (with R the transpose of P) is a structurally
valid square matrix whose rows carry pairwise distinct column indices. -/
theorem rapGalerkin_good (R A P : dCSRmat) (hsq : R.row = P.col) :
    csrValid (rapGalerkin R A P) ∧
    (rapGalerkin R A P).col = (rapGalerkin R A P).row ∧
    (∀ i, i < (rapGalerkin R A P).row → (dRowJA (rapGalerkin R A P) i).Nodup) := by
  refine ⟨?_, ?_, ?_⟩
  · refine csrOfRows_valid R.row P.col _ (by simp) ?_
    intro r hr e he
    obtain ⟨i, hiR, rfl⟩ := List.mem_map.mp hr
    obtain ⟨j, hjR, rfl⟩ := List.mem_map.mp he
    simpa using List.mem_range.mp hjR
  · show P.col = R.row
    exact hsq.symm
  · intro i hi
    have hi' : i < R.row := hi
    rw [dRowJA_eq_pairs]
    have hrows := dRowPairs_csrOfRows R.row P.col
      ((List.range R.row).map (fun i => (List.range P.col).map (fun j =>
        (j, ((List.range A.row).map (fun k =>
          csrEntry R i k * ((List.range A.col).map (fun l =>
            csrEntry A k l * csrEntry P l j)).foldl (fun s v => s + v) 0)).foldl
          (fun s v => s + v) 0))))
      (by simp) i hi'
    rw [show dRowPairs (rapGalerkin R A P) i = dRowPairs (csrOfRows R.row P.col
      ((List.range R.row).map (fun i => (List.range P.col).map (fun j =>
        (j, ((List.range A.row).map (fun k =>
          csrEntry R i k * ((List.range A.col).map (fun l =>
            csrEntry A k l * csrEntry P l j)).foldl (fun s v => s + v) 0)).foldl
          (fun s v => s + v) 0))))) i from rfl]
    rw [hrows, getD_map_range _ _ _ _ hi', List.map_map]
    have hcomp : (List.range P.col).map (Prod.fst ∘ (fun j =>
        (j, ((List.range A.row).map (fun k =>
          csrEntry R i k * ((List.range A.col).map (fun l =>
            csrEntry A k l * csrEntry P l j)).foldl (fun s v => s + v) 0)).foldl
          (fun s v => s + v) 0))) = List.range P.col := by
      rw [show (Prod.fst ∘ (fun j : ℕ =>
        (j, ((List.range A.row).map (fun k =>
          csrEntry R i k * ((List.range A.col).map (fun l =>
            csrEntry A k l * csrEntry P l j)).foldl (fun s v => s + v) 0)).foldl
          (fun s v => s + v) 0))) = fun j => j from rfl]
      simp
    rw [hcomp]
    exact List.nodup_range P.col

/-- The main loop of fasp_amg_setup_rs keeps the level operator row counts
strictly decreasing, and runs a coarsening step only while the current row
count exceeds max(coarse_dof, 50) and levels remain. -/
theorem setupLoop_strict_mono
    (interp : dCSRmat → List ℤ → dCSRmat → iCSRmat → dCSRmat) (it : ℤ)
    (cap th : ℚ) (cdof maxlv : ℕ) (hstd : it ≠ INTERP_STD)
    (hicol : ∀ A cf P0 S0, (interp A cf P0 S0).col = P0.col) :
    ∀ (fuel : ℕ) (As Ps Rs : List dCSRmat) (cfs : List (List ℤ)) (level : ℕ),
    As.length = level + 1 →
    (∀ i, i + 1 < As.length →
      (As.getD (i + 1) default).row < (As.getD i default).row ∧
      (As.getD i default).row > max cdof 50 ∧ i < maxlv - 1) →
    csrValid (As.getD level default) →
    (As.getD level default).col = (As.getD level default).row →
    (∀ i, i < (As.getD level default).row →
      (dRowJA (As.getD level default) i).Nodup) →
    (setupLoop interp it cap th cdof maxlv fuel As Ps Rs cfs level).As.length
      = (setupLoop interp it cap th cdof maxlv fuel As Ps Rs cfs level).num_levels ∧
    (∀ i, i + 1 <
        (setupLoop interp it cap th cdof maxlv fuel As Ps Rs cfs level).num_levels →
      ((setupLoop interp it cap th cdof maxlv fuel As Ps Rs cfs level).As.getD
          (i + 1) default).row <
        ((setupLoop interp it cap th cdof maxlv fuel As Ps Rs cfs level).As.getD
          i default).row ∧
      ((setupLoop interp it cap th cdof maxlv fuel As Ps Rs cfs level).As.getD
          i default).row > max cdof 50 ∧ i < maxlv - 1) := by
  intro fuel
  induction fuel with
  | zero =>
    intro As Ps Rs cfs level hlen hinv hA hsq hnodup
    unfold setupLoop setupFinish
    dsimp only
    exact ⟨hlen, fun i hi => hinv i (by omega)⟩
  | succ f ih =>
    intro As Ps Rs cfs level hlen hinv hA hsq hnodup
    unfold setupLoop
    by_cases hg : (As.getD level default).row > max cdof 50 ∧ level < maxlv - 1
    · rw [if_pos hg]
      by_cases hnz : (generate_S (As.getD level default) cap th).nnz = 0
      · have hco : fasp_amg_coarsening_rs_classic (As.getD level default) it cap th
            = (RUN_FAIL, [],
               { row := 0, col := 0, nnz := 0, IA := [], JA := [], val := [] },
               generate_S (As.getD level default) cap th) := by
          unfold fasp_amg_coarsening_rs_classic
          rw [if_pos hnz]
        rw [hco]
        rw [if_pos (by decide : (RUN_FAIL : ℤ) < 0)]
        unfold setupFinish
        dsimp only
        exact ⟨hlen, fun i hi => hinv i (by omega)⟩
      · have hco : fasp_amg_coarsening_rs_classic (As.getD level default) it cap th
            = (SUCCESS,
               (form_coarse_level (As.getD level default)
                 (generate_S (As.getD level default) cap th)
                 (As.getD level default).row it).1,
               generate_sparsity_P (generate_S (As.getD level default) cap th)
                 (form_coarse_level (As.getD level default)
                   (generate_S (As.getD level default) cap th)
                   (As.getD level default).row it).1
                 (As.getD level default).row
                 (form_coarse_level (As.getD level default)
                   (generate_S (As.getD level default) cap th)
                   (As.getD level default).row it).2.toNat,
               generate_S (As.getD level default) cap th) := by
          unfold fasp_amg_coarsening_rs_classic
          rw [if_neg hnz]
        rw [hco]
        rw [if_neg (by decide : ¬ (SUCCESS : ℤ) < 0)]
        have hcollt := form_coarse_level_col_lt (As.getD level default) cap th it
          hA hsq hnodup hnz hstd (by omega)
        by_cases hP : (generate_sparsity_P (generate_S (As.getD level default) cap th)
            (form_coarse_level (As.getD level default)
              (generate_S (As.getD level default) cap th)
              (As.getD level default).row it).1
            (As.getD level default).row
            (form_coarse_level (As.getD level default)
              (generate_S (As.getD level default) cap th)
              (As.getD level default).row it).2.toNat).col ≤ 50
        · rw [if_pos hP]
          unfold setupFinish
          dsimp only
          exact ⟨hlen, fun i hi => hinv i (by omega)⟩
        · rw [if_neg hP]
          have hR : (fasp_dcsr_trans (interp (As.getD level default)
              (form_coarse_level (As.getD level default)
                (generate_S (As.getD level default) cap th)
                (As.getD level default).row it).1
              (generate_sparsity_P (generate_S (As.getD level default) cap th)
                (form_coarse_level (As.getD level default)
                  (generate_S (As.getD level default) cap th)
                  (As.getD level default).row it).1
                (As.getD level default).row
                (form_coarse_level (As.getD level default)
                  (generate_S (As.getD level default) cap th)
                  (As.getD level default).row it).2.toNat)
              (generate_S (As.getD level default) cap th))).row
              = (interp (As.getD level default)
              (form_coarse_level (As.getD level default)
                (generate_S (As.getD level default) cap th)
                (As.getD level default).row it).1
              (generate_sparsity_P (generate_S (As.getD level default) cap th)
                (form_coarse_level (As.getD level default)
                  (generate_S (As.getD level default) cap th)
                  (As.getD level default).row it).1
                (As.getD level default).row
                (form_coarse_level (As.getD level default)
                  (generate_S (As.getD level default) cap th)
                  (As.getD level default).row it).2.toNat)
              (generate_S (As.getD level default) cap th)).col := rfl
          have hA1row : ∀ P1 : dCSRmat,
              (rapGalerkin (fasp_dcsr_trans P1) (As.getD level default) P1).row
                = P1.col := fun P1 => rfl
          have hgood := rapGalerkin_good
            (fasp_dcsr_trans (interp (As.getD level default)
              (form_coarse_level (As.getD level default)
                (generate_S (As.getD level default) cap th)
                (As.getD level default).row it).1
              (generate_sparsity_P (generate_S (As.getD level default) cap th)
                (form_coarse_level (As.getD level default)
                  (generate_S (As.getD level default) cap th)
                  (As.getD level default).row it).1
                (As.getD level default).row
                (form_coarse_level (As.getD level default)
                  (generate_S (As.getD level default) cap th)
                  (As.getD level default).row it).2.toNat)
              (generate_S (As.getD level default) cap th)))
            (As.getD level default)
            (interp (As.getD level default)
              (form_coarse_level (As.getD level default)
                (generate_S (As.getD level default) cap th)
                (As.getD level default).row it).1
              (generate_sparsity_P (generate_S (As.getD level default) cap th)
                (form_coarse_level (As.getD level default)
                  (generate_S (As.getD level default) cap th)
                  (As.getD level default).row it).1
                (As.getD level default).row
                (form_coarse_level (As.getD level default)
                  (generate_S (As.getD level default) cap th)
                  (As.getD level default).row it).2.toNat)
              (generate_S (As.getD level default) cap th)) rfl
          set A1 := rapGalerkin
            (fasp_dcsr_trans (interp (As.getD level default)
              (form_coarse_level (As.getD level default)
                (generate_S (As.getD level default) cap th)
                (As.getD level default).row it).1
              (generate_sparsity_P (generate_S (As.getD level default) cap th)
                (form_coarse_level (As.getD level default)
                  (generate_S (As.getD level default) cap th)
                  (As.getD level default).row it).1
                (As.getD level default).row
                (form_coarse_level (As.getD level default)
                  (generate_S (As.getD level default) cap th)
                  (As.getD level default).row it).2.toNat)
              (generate_S (As.getD level default) cap th)))
            (As.getD level default)
            (interp (As.getD level default)
              (form_coarse_level (As.getD level default)
                (generate_S (As.getD level default) cap th)
                (As.getD level default).row it).1
              (generate_sparsity_P (generate_S (As.getD level default) cap th)
                (form_coarse_level (As.getD level default)
                  (generate_S (As.getD level default) cap th)
                  (As.getD level default).row it).1
                (As.getD level default).row
                (form_coarse_level (As.getD level default)
                  (generate_S (As.getD level default) cap th)
                  (As.getD level default).row it).2.toNat)
              (generate_S (As.getD level default) cap th)) with hA1
          have hA1r : A1.row < (As.getD level default).row := by
            rw [hA1]
            rw [hA1row, hicol]
            exact hcollt
          have hgA1 : (As ++ [A1]).getD (level + 1) default = A1 := by
            have := getD_append_last As A1 default
            rw [hlen] at this
            exact this
          have hgAs : ∀ k, k ≤ level → (As ++ [A1]).getD k default
              = As.getD k default := by
            intro k hk
            exact getD_append_left As [A1] k default (by omega)
          refine ih (As ++ [A1]) (Ps ++ [_]) (Rs ++ [_]) (cfs ++ [_]) (level + 1)
            (by rw [List.length_append, hlen] ; rfl) ?_ ?_ ?_ ?_
          · intro i hi
            rw [List.length_append, hlen] at hi
            simp only [List.length_singleton] at hi
            rcases Nat.lt_or_ge (i + 1) (level + 1) with h' | h'
            · rw [hgAs (i + 1) (by omega), hgAs i (by omega)]
              exact hinv i (by omega)
            · have hieq : i = level := by omega
              subst hieq
              rw [hgA1, hgAs i (le_refl i)]
              exact ⟨hA1r, hg.1, hg.2⟩
          · rw [hgA1]
            exact hgood.1
          · rw [hgA1]
            exact hgood.2.1
          · rw [hgA1]
            exact hgood.2.2
    · rw [if_neg hg]
      unfold setupFinish
      dsimp only
      exact ⟨hlen, fun i hi => hinv i (by omega)⟩

/-- Claim C5: the hierarchy of fasp_amg_setup_rs (classical configuration) has
strictly decreasing level operator row counts, and each coarsening step runs
only while the current row count exceeds max(coarse_dof, 50) and the level
count is below max_levels - 1. -/
theorem fasp_amg_setup_rs_strict_mono (A0 : dCSRmat) (cap th trunc : ℚ)
    (cdof maxlv : ℕ) (hA : csrValid A0) (hsq : A0.col = A0.row)
    (hnodup : ∀ i, i < A0.row → (dRowJA A0 i).Nodup) :
    ∀ i, i + 1 <
        (fasp_amg_setup_rs_classic A0 cap th trunc cdof maxlv).num_levels →
      ((fasp_amg_setup_rs_classic A0 cap th trunc cdof maxlv).As.getD (i + 1)
          default).row <
        ((fasp_amg_setup_rs_classic A0 cap th trunc cdof maxlv).As.getD i
          default).row ∧
      ((fasp_amg_setup_rs_classic A0 cap th trunc cdof maxlv).As.getD i
          default).row > max cdof 50 ∧ i < maxlv - 1 := by
  have h := setupLoop_strict_mono
    (fun A vec P0 _ => interp_RS A vec P0 trunc) INTERP_REG cap th cdof maxlv
    (by decide) (fun A cf P0 S0 => rfl) maxlv [A0] [] [] [] 0
    (by rw [List.length_singleton]) ?_ hA hsq hnodup
  · exact h.2
  · intro i hi
    rw [List.length_singleton] at hi
    omega

/-- Witness for claim C5 at the concrete matrix Aw (its hypotheses hold; the
loop stops immediately since Aw has 2 rows). -/
theorem fasp_amg_setup_rs_strict_mono_witness :
    csrValid Aw ∧ Aw.col = Aw.row ∧
    (∀ i, i < Aw.row → (dRowJA Aw i).Nodup) ∧
    (∀ i, i + 1 < (fasp_amg_setup_rs_classic Aw 2 (1/2) (1/5) 0 5).num_levels →
      ((fasp_amg_setup_rs_classic Aw 2 (1/2) (1/5) 0 5).As.getD (i + 1)
          default).row <
        ((fasp_amg_setup_rs_classic Aw 2 (1/2) (1/5) 0 5).As.getD i
          default).row ∧
      ((fasp_amg_setup_rs_classic Aw 2 (1/2) (1/5) 0 5).As.getD i
          default).row > max 0 50 ∧ i < 5 - 1) :=
  ⟨by decide, by decide, by decide,
    fasp_amg_setup_rs_strict_mono Aw 2 (1/2) (1/5) 0 5 (by decide) (by decide)
      (by decide)⟩

/-- Claim C6: a strength graph with no edges makes fasp_amg_coarsening_rs
report RUN_FAIL (not the fatal unrecognized-type error), and the setup loop
then stops at the current level keeping every previously built level: the
result carries the untouched level list, num_levels = level + 1 and the
RUN_FAIL status, with no further coarsening attempted. -/
theorem coarsening_zero_nnz_nonfatal
    (interp : dCSRmat → List ℤ → dCSRmat → iCSRmat → dCSRmat)
    (it ct : ℤ) (cap th : ℚ) (cdof maxlv fuel : ℕ)
    (As Ps Rs : List dCSRmat) (cfs : List (List ℤ)) (level : ℕ)
    (hnz : (generate_S (As.getD level default) cap th).nnz = 0)
    (hct : ct = COARSE_RS ∨ ct = COARSE_AC ∨ ct = COARSE_CR)
    (hg : (As.getD level default).row > max cdof 50 ∧ level < maxlv - 1) :
    fasp_amg_coarsening_rs_status (As.getD level default) ct cap th = RUN_FAIL ∧
    RUN_FAIL ≠ ERROR_AMG_COARSE_TYPE ∧
    setupLoop interp it cap th cdof maxlv (fuel + 1) As Ps Rs cfs level
      = setupFinish As Ps Rs cfs level RUN_FAIL ∧
    (setupLoop interp it cap th cdof maxlv (fuel + 1) As Ps Rs cfs level).As
      = As ∧
    (setupLoop interp it cap th cdof maxlv (fuel + 1) As Ps Rs
      cfs level).num_levels = level + 1 ∧
    (setupLoop interp it cap th cdof maxlv (fuel + 1) As Ps Rs
      cfs level).status = RUN_FAIL := by
  have hstat : fasp_amg_coarsening_rs_status (As.getD level default) ct cap th
      = RUN_FAIL := by
    unfold fasp_amg_coarsening_rs_status
    rw [if_pos hct, if_pos hnz]
  have hco : fasp_amg_coarsening_rs_classic (As.getD level default) it cap th
      = (RUN_FAIL, [],
         { row := 0, col := 0, nnz := 0, IA := [], JA := [], val := [] },
         generate_S (As.getD level default) cap th) := by
    unfold fasp_amg_coarsening_rs_classic
    rw [if_pos hnz]
  have hloopeq : setupLoop interp it cap th cdof maxlv (fuel + 1) As Ps Rs cfs
      level = setupFinish As Ps Rs cfs level RUN_FAIL := by
    unfold setupLoop
    rw [if_pos hg, hco]
    rw [if_pos (by decide : (RUN_FAIL : ℤ) < 0)]
  refine ⟨hstat, by decide, hloopeq, ?_, ?_, ?_⟩ <;> rw [hloopeq] <;> rfl

/-- Witness for claim C6: the 51-row empty matrix Az satisfies the hypotheses
and the conclusions apply with the trivial starting hierarchy. -/
theorem coarsening_zero_nnz_nonfatal_witness :
    (generate_S Az 2 (1/2)).nnz = 0 ∧
    (COARSE_RS = COARSE_RS ∨ COARSE_RS = COARSE_AC ∨ COARSE_RS = COARSE_CR) ∧
    (Az.row > max 0 50 ∧ 0 < 5 - 1) ∧
    fasp_amg_coarsening_rs_status Az COARSE_RS 2 (1/2) = RUN_FAIL ∧
    (setupLoop (fun _ _ P0 _ => P0) INTERP_REG 2 (1/2) 0 5 5 [Az] [] [] []
      0).num_levels = 0 + 1 ∧
    (setupLoop (fun _ _ P0 _ => P0) INTERP_REG 2 (1/2) 0 5 5 [Az] [] [] []
      0).status = RUN_FAIL := by
  have hnz : (generate_S ([Az].getD 0 default) 2 (1/2)).nnz = 0 := by decide
  have h := coarsening_zero_nnz_nonfatal (fun _ _ P0 _ => P0) INTERP_REG
    COARSE_RS 2 (1/2) 0 5 4 [Az] [] [] [] 0 hnz (Or.inl rfl)
    ⟨by decide, by decide⟩
  exact ⟨hnz, Or.inl rfl, ⟨by decide, by decide⟩, h.1, h.2.2.2.2.1, h.2.2.2.2.2⟩

/-- Claim C7, the coarsening half and the interpolation half: the coarse-type
error of fasp_amg_coarsening_rs fires exactly on unrecognized coarsening
types, but the interpolation dispatch diverges from the claim: selecting the
recognized standard interpolation DOES trigger the fatal
interpolation-type error, because the INTERP_STD case of fasp_amg_interp has
no break and falls through into the default's fasp_chkerr call. -/
theorem fasp_amg_interp_std_fires :
    (∀ (A : dCSRmat) (ct : ℤ) (cap th : ℚ),
      fasp_amg_coarsening_rs_status A ct cap th = ERROR_AMG_COARSE_TYPE ↔
        ¬(ct = COARSE_RS ∨ ct = COARSE_AC ∨ ct = COARSE_CR)) ∧
    fasp_amg_interp_fatal COARSE_RS INTERP_REG = false ∧
    fasp_amg_interp_fatal COARSE_RS INTERP_ENG_MIN = false ∧
    fasp_amg_interp_fatal COARSE_RS INTERP_STD = true ∧
    fasp_amg_interp_fatal COARSE_AC INTERP_REG = true := by
  refine ⟨?_, by decide, by decide, by decide, by decide⟩
  intro A ct cap th
  unfold fasp_amg_coarsening_rs_status
  by_cases h : ct = COARSE_RS ∨ ct = COARSE_AC ∨ ct = COARSE_CR
  · rw [if_pos h]
    constructor
    · intro he
      by_cases hz : (generate_S A cap th).nnz = 0
      · rw [if_pos hz] at he
        exact absurd he (by decide)
      · rw [if_neg hz] at he
        exact absurd he (by decide)
    · intro hn
      exact absurd h hn
  · rw [if_neg h]
    exact ⟨fun _ => h, fun _ => rfl⟩

/-- Claim C9: the adaptive strength-threshold update after VMB aggregation
halves the threshold when the aggregate count times 4 exceeds the row count,
doubles it when the aggregate count times 1.25 falls below the row count, and
otherwise leaves it unchanged. -/
theorem adaptStrongCoupled_cases (na rowN : ℤ) (sc : ℚ) :
    (na * 4 > rowN → adaptStrongCoupled na rowN sc = sc / 2) ∧
    (¬ na * 4 > rowN → (na : ℚ) * (125 / 100) < (rowN : ℚ) →
      adaptStrongCoupled na rowN sc = sc * 2) ∧
    (¬ na * 4 > rowN → ¬ (na : ℚ) * (125 / 100) < (rowN : ℚ) →
      adaptStrongCoupled na rowN sc = sc) := by
  unfold adaptStrongCoupled
  refine ⟨?_, ?_, ?_⟩
  · intro h
    rw [if_pos h]
  · intro h1 h2
    rw [if_neg h1, if_pos h2]
  · intro h1 h2
    rw [if_neg h1, if_neg h2]

/-- Witness for claim C9: with 1 aggregate on 2 rows the threshold is halved. -/
theorem adaptStrongCoupled_cases_witness :
    (1 : ℤ) * 4 > 2 ∧ adaptStrongCoupled 1 2 1 = 1 / 2 :=
  ⟨by decide, (adaptStrongCoupled_cases 1 2 1).1 (by decide)⟩

/-- Setting the same value at the same slot of two lists of equal length gives
the same read back. -/
theorem getD_set_eq_of_length_eq {α : Type} (l l2 : List α) (i : ℕ) (v d : α)
    (h : l.length = l2.length) :
    (l.set i v).getD i d = (l2.set i v).getD i d := by
  by_cases hc : i < l.length
  · rw [getD_set_self _ _ _ _ hc, getD_set_self _ _ _ _ (by omega)]
  · rw [List.set_eq_of_length_le (by omega), List.set_eq_of_length_le (by omega),
      getD_default _ _ _ (by omega), getD_default _ _ _ (by omega)]

/-- A parallel fold preserves a binary relation whose step does. -/
theorem foldl_rel {α σ : Type} (f g : σ → α → σ) (R : σ → σ → Prop)
    (l : List α)
    (hstep : ∀ s s' a, a ∈ l → R s s' → R (f s a) (g s' a)) :
    ∀ s s', R s s' → R (l.foldl f s) (l.foldl g s') := by
  induction l with
  | nil =>
    intro s s' h
    exact h
  | cons a t ih =>
    intro s s' h
    exact ih (fun s s' b hb hR => hstep s s' b (List.mem_cons_of_mem a hb) hR)
      _ _ (hstep s s' a (List.mem_cons_self a t) h)

/-- The recursive cycle never changes the shapes of the per-level vectors. -/
theorem mgrecur_lengths (pre post csolve : dCSRmat → List ℚ → List ℚ → List ℚ)
    (levels : List AMGLevel) (n : ℕ) (ct : ℤ) :
    ∀ (fuel level : ℕ) (st : List (List ℚ) × List (List ℚ)),
      (fasp_solver_mgrecur pre post csolve levels n ct fuel level st).1.length
        = st.1.length ∧
      (fasp_solver_mgrecur pre post csolve levels n ct fuel level st).2.length
        = st.2.length := by
  intro fuel
  induction fuel with
  | zero =>
    intro level st
    exact ⟨rfl, rfl⟩
  | succ f ih =>
    intro level st
    unfold fasp_solver_mgrecur
    by_cases h : level < n - 1
    · rw [if_pos h]
      dsimp only
      have key : ∀ s0 : List (List ℚ) × List (List ℚ),
          (((List.range ct.toNat).foldl
            (fun s (_ : ℕ) => fasp_solver_mgrecur pre post csolve levels n ct f
              (level + 1) s) s0).1.length = s0.1.length ∧
           ((List.range ct.toNat).foldl
            (fun s (_ : ℕ) => fasp_solver_mgrecur pre post csolve levels n ct f
              (level + 1) s) s0).2.length = s0.2.length) := by
        intro s0
        refine foldl_inv _
          (fun s => s.1.length = s0.1.length ∧ s.2.length = s0.2.length)
          (List.range ct.toNat) s0 ?_ ⟨rfl, rfl⟩
        intro s' a ha hP
        exact ⟨((ih (level + 1) s').1).trans hP.1,
          ((ih (level + 1) s').2).trans hP.2⟩
      constructor
      · refine ((key _).1).trans ?_
        rw [List.length_set]
      · rw [List.length_set]
        refine ((key _).2).trans ?_
        rw [List.length_set, List.length_set]
    · rw [if_neg h]
      dsimp only
      exact ⟨rfl, by rw [List.length_set]⟩

/-- A fold of recursive cycle invocations preserves the shapes too. -/
theorem mgrecur_fold_lengths
    (pre post csolve : dCSRmat → List ℚ → List ℚ → List ℚ)
    (levels : List AMGLevel) (n : ℕ) (ct : ℤ) (f lvl : ℕ) (L : List ℕ)
    (s0 : List (List ℚ) × List (List ℚ)) :
    ((L.foldl (fun s (_ : ℕ) =>
      fasp_solver_mgrecur pre post csolve levels n ct f lvl s) s0).1.length
        = s0.1.length ∧
     (L.foldl (fun s (_ : ℕ) =>
      fasp_solver_mgrecur pre post csolve levels n ct f lvl s) s0).2.length
        = s0.2.length) := by
  refine foldl_inv _
    (fun s => s.1.length = s0.1.length ∧ s.2.length = s0.2.length)
    L s0 ?_ ⟨rfl, rfl⟩
  intro s' a ha hP
  exact ⟨((mgrecur_lengths pre post csolve levels n ct f lvl s').1).trans hP.1,
    ((mgrecur_lengths pre post csolve levels n ct f lvl s').2).trans hP.2⟩

/-- The cycle on one level touches no right-hand side at or below its level
and no iterate strictly below its level. -/
theorem mgrecur_untouched (pre post csolve : dCSRmat → List ℚ → List ℚ → List ℚ)
    (levels : List AMGLevel) (n : ℕ) (ct : ℤ) :
    ∀ (fuel level : ℕ) (st : List (List ℚ) × List (List ℚ)) (k : ℕ),
      (k ≤ level →
        (fasp_solver_mgrecur pre post csolve levels n ct fuel level st).1.getD
          k [] = st.1.getD k []) ∧
      (k < level →
        (fasp_solver_mgrecur pre post csolve levels n ct fuel level st).2.getD
          k [] = st.2.getD k []) := by
  intro fuel
  induction fuel with
  | zero =>
    intro level st k
    exact ⟨fun _ => rfl, fun _ => rfl⟩
  | succ f ih =>
    intro level st k
    unfold fasp_solver_mgrecur
    by_cases h : level < n - 1
    · rw [if_pos h]
      dsimp only
      have key : k ≤ level → ∀ s0 : List (List ℚ) × List (List ℚ),
          (((List.range ct.toNat).foldl
            (fun s (_ : ℕ) => fasp_solver_mgrecur pre post csolve levels n ct f
              (level + 1) s) s0).1.getD k [] = s0.1.getD k [] ∧
           ((List.range ct.toNat).foldl
            (fun s (_ : ℕ) => fasp_solver_mgrecur pre post csolve levels n ct f
              (level + 1) s) s0).2.getD k [] = s0.2.getD k []) := by
        intro hk s0
        refine foldl_inv _
          (fun s => s.1.getD k [] = s0.1.getD k [] ∧
            s.2.getD k [] = s0.2.getD k [])
          (List.range ct.toNat) s0 ?_ ⟨rfl, rfl⟩
        intro s' a ha hP
        exact ⟨((ih (level + 1) s' k).1 (by omega)).trans hP.1,
          ((ih (level + 1) s' k).2 (by omega)).trans hP.2⟩
      constructor
      · intro hk
        refine ((key hk _).1).trans ?_
        rw [getD_set_ne _ _ _ _ _ (by omega : k ≠ level + 1)]
      · intro hk
        rw [getD_set_ne _ _ _ _ _ (by omega : k ≠ level)]
        refine ((key (by omega) _).2).trans ?_
        rw [getD_set_ne _ _ _ _ _ (by omega : k ≠ level + 1),
          getD_set_ne _ _ _ _ _ (by omega : k ≠ level)]
    · rw [if_neg h]
      dsimp only
      exact ⟨fun _ => rfl,
        fun hk => getD_set_ne _ _ _ _ _ (by omega : k ≠ level)⟩

/-- The output of the cycle at a level depends only on the shapes and on the
right-hand side and iterate of that level: the coarser-level slots are
overwritten (restriction) and zero-initialized before every use, so no state
carried in them can influence the result. -/
theorem mgrecur_state_independent
    (pre post csolve : dCSRmat → List ℚ → List ℚ → List ℚ)
    (levels : List AMGLevel) (n : ℕ) (ct : ℤ) :
    ∀ (fuel level : ℕ) (st st' : List (List ℚ) × List (List ℚ)),
      st.1.length = st'.1.length → st.2.length = st'.2.length →
      st.1.getD level [] = st'.1.getD level [] →
      st.2.getD level [] = st'.2.getD level [] →
      (fasp_solver_mgrecur pre post csolve levels n ct fuel level st).2.getD
        level []
      = (fasp_solver_mgrecur pre post csolve levels n ct fuel level st').2.getD
        level [] := by
  intro fuel
  induction fuel with
  | zero =>
    intro level st st' h1 h2 hb hx
    exact hx
  | succ f ih =>
    intro level st st' h1 h2 hb hx
    unfold fasp_solver_mgrecur
    by_cases h : level < n - 1
    · rw [if_pos h, if_pos h]
      dsimp only
      rw [hb, hx]
      set lvl := levels.getD level { A := default, R := default, P := default }
        with hlvl
      set x0v := pre lvl.A (st'.1.getD level []) (st'.2.getD level []) with hx0v
      set rv := residual lvl.A.row (st'.1.getD level []) (matvec lvl.A x0v)
        with hrv
      set b1v := matvec lvl.R rv with hb1v
      set m1v := (levels.getD (level + 1)
        { A := default, R := default, P := default }).A.row with hm1v
      have hfold := foldl_rel
        (fun s (_ : ℕ) =>
          fasp_solver_mgrecur pre post csolve levels n ct f (level + 1) s)
        (fun s (_ : ℕ) =>
          fasp_solver_mgrecur pre post csolve levels n ct f (level + 1) s)
        (fun s s' =>
          s.1.length = s'.1.length ∧ s.2.length = s'.2.length ∧
          s.1.getD level [] = s'.1.getD level [] ∧
          s.2.getD level [] = s'.2.getD level [] ∧
          s.1.getD (level + 1) [] = s'.1.getD (level + 1) [] ∧
          s.2.getD (level + 1) [] = s'.2.getD (level + 1) [])
        (List.range ct.toNat) ?_
        (st.1.set (level + 1) b1v,
          (st.2.set level x0v).set (level + 1) (List.replicate m1v 0))
        (st'.1.set (level + 1) b1v,
          (st'.2.set level x0v).set (level + 1) (List.replicate m1v 0))
        ?_
      on_goal 2 =>
        intro s s' a ha hR
        have r1 := hR.1
        have r2 := hR.2.1
        have r3 := hR.2.2.1
        have r4 := hR.2.2.2.1
        have r5 := hR.2.2.2.2.1
        have r6 := hR.2.2.2.2.2
        refine ⟨?_, ?_, ?_, ?_, ?_, ?_⟩
        · rw [(mgrecur_lengths pre post csolve levels n ct f (level + 1) s).1,
            (mgrecur_lengths pre post csolve levels n ct f (level + 1) s').1]
          exact r1
        · rw [(mgrecur_lengths pre post csolve levels n ct f (level + 1) s).2,
            (mgrecur_lengths pre post csolve levels n ct f (level + 1) s').2]
          exact r2
        · rw [(mgrecur_untouched pre post csolve levels n ct f (level + 1) s
              level).1 (by omega),
            (mgrecur_untouched pre post csolve levels n ct f (level + 1) s'
              level).1 (by omega)]
          exact r3
        · rw [(mgrecur_untouched pre post csolve levels n ct f (level + 1) s
              level).2 (by omega),
            (mgrecur_untouched pre post csolve levels n ct f (level + 1) s'
              level).2 (by omega)]
          exact r4
        · rw [(mgrecur_untouched pre post csolve levels n ct f (level + 1) s
              (level + 1)).1 (le_refl _),
            (mgrecur_untouched pre post csolve levels n ct f (level + 1) s'
              (level + 1)).1 (le_refl _)]
          exact r5
        · exact ih (level + 1) s s' r1 r2 r5 r6
      on_goal 2 =>
        refine ⟨?_, ?_, ?_, ?_, ?_, ?_⟩
        · rw [List.length_set, List.length_set]
          exact h1
        · rw [List.length_set, List.length_set, List.length_set,
            List.length_set]
          exact h2
        · rw [getD_set_ne _ _ _ _ _ (by omega : level ≠ level + 1),
            getD_set_ne _ _ _ _ _ (by omega : level ≠ level + 1)]
          exact hb
        · rw [getD_set_ne _ _ _ _ _ (by omega : level ≠ level + 1),
            getD_set_ne _ _ _ _ _ (by omega : level ≠ level + 1)]
          exact getD_set_eq_of_length_eq st.2 st'.2 level x0v [] h2
        · exact getD_set_eq_of_length_eq st.1 st'.1 (level + 1) b1v [] h1
        · exact getD_set_eq_of_length_eq (st.2.set level x0v)
            (st'.2.set level x0v) (level + 1) (List.replicate m1v 0) []
            (by rw [List.length_set, List.length_set] ; exact h2)
      have g1 := hfold.1
      have g2 := hfold.2.1
      have g3 := hfold.2.2.1
      have g4 := hfold.2.2.2.1
      have g6 := hfold.2.2.2.2.2
      rw [g3, g4, g6]
      exact getD_set_eq_of_length_eq _ _ level _ [] g2
    · rw [if_neg h, if_neg h]
      dsimp only
      rw [hb, hx]
      exact getD_set_eq_of_length_eq st.2 st'.2 level _ [] h2

/-- Claim C8: invoking the multigrid cycle a second time with the iterate
re-zeroed at the top level and the same right-hand side reproduces the first
run's result exactly, even though the second run starts from the per-level
work vectors the first run left behind: no mutable state leaks between
invocations. -/
theorem fasp_solver_mgrecur_two_run
    (pre post csolve : dCSRmat → List ℚ → List ℚ → List ℚ)
    (levels : List AMGLevel) (n : ℕ) (ct : ℤ) (fuel : ℕ)
    (bs xs : List (List ℚ)) (m : ℕ) :
    (fasp_solver_mgrecur pre post csolve levels n ct fuel 0
      ((fasp_solver_mgrecur pre post csolve levels n ct fuel 0
        (bs, xs.set 0 (List.replicate m 0))).1,
       (fasp_solver_mgrecur pre post csolve levels n ct fuel 0
        (bs, xs.set 0 (List.replicate m 0))).2.set 0
          (List.replicate m 0))).2.getD 0 []
    = (fasp_solver_mgrecur pre post csolve levels n ct fuel 0
        (bs, xs.set 0 (List.replicate m 0))).2.getD 0 [] := by
  refine mgrecur_state_independent pre post csolve levels n ct fuel 0
    _ (bs, xs.set 0 (List.replicate m 0)) ?_ ?_ ?_ ?_
  · exact (mgrecur_lengths pre post csolve levels n ct fuel 0
      (bs, xs.set 0 (List.replicate m 0))).1
  · rw [List.length_set]
    exact (mgrecur_lengths pre post csolve levels n ct fuel 0
      (bs, xs.set 0 (List.replicate m 0))).2
  · exact (mgrecur_untouched pre post csolve levels n ct fuel 0
      (bs, xs.set 0 (List.replicate m 0)) 0).1 (le_refl 0)
  · refine getD_set_eq_of_length_eq _ _ 0 (List.replicate m 0) [] ?_
    rw [(mgrecur_lengths pre post csolve levels n ct fuel 0
      (bs, xs.set 0 (List.replicate m 0))).2, List.length_set]

/-- Claim C4: one invocation of the recursive cycle on a non-terminal level
performs exactly the spec's pipeline: pre-smooth, residual, restrict,
zero-initialize the coarse iterate, recurse cycle_type times, prolong,
post-smooth; on the terminal level it performs only the coarse solve. -/
theorem fasp_solver_mgrecur_is_pipeline
    (pre post csolve : dCSRmat → List ℚ → List ℚ → List ℚ)
    (levels : List AMGLevel) (n : ℕ) (ct : ℤ) (fuel level : ℕ)
    (st : List (List ℚ) × List (List ℚ)) (hx : level < st.2.length) :
    fasp_solver_mgrecur pre post csolve levels n ct (fuel + 1) level st
      = specCyclePipeline pre post csolve levels n ct fuel level st := by
  unfold fasp_solver_mgrecur specCyclePipeline
  by_cases h : level < n - 1
  · rw [if_pos h, if_pos h]
    dsimp only
    rw [getD_set_self st.2 level _ [] hx]
    set Fs := (List.range ct.toNat).foldl
      (fun s (_ : ℕ) =>
        fasp_solver_mgrecur pre post csolve levels n ct fuel (level + 1) s)
      (st.1.set (level + 1) (matvec (levels.getD level default).R
        (residual (levels.getD level default).A.row (st.1.getD level [])
          (matvec (levels.getD level default).A
            (pre (levels.getD level default).A (st.1.getD level [])
              (st.2.getD level []))))),
       (st.2.set level (pre (levels.getD level default).A (st.1.getD level [])
          (st.2.getD level []))).set (level + 1)
         (List.replicate (levels.getD (level + 1) default).A.row 0))
      with hFs
    have hlen2 : level < Fs.2.length := by
      rw [hFs]
      rw [(mgrecur_fold_lengths pre post csolve levels n ct fuel (level + 1)
        (List.range ct.toNat) _).2]
      rw [List.length_set, List.length_set]
      exact hx
    rw [getD_set_self Fs.2 level _ [] hlen2]
    rw [List.set_set]
    rfl
  · rw [if_neg h, if_neg h]
    rfl

/-- Witness for claim C4 at a one-level state (the terminal branch). -/
theorem fasp_solver_mgrecur_is_pipeline_witness :
    0 < ([[(1 : ℚ)]], [[(0 : ℚ)]]).2.length ∧
    fasp_solver_mgrecur (fun _ _ x => x) (fun _ _ x => x) (fun _ _ x => x)
      [] 0 1 1 0 ([[(1 : ℚ)]], [[(0 : ℚ)]])
    = specCyclePipeline (fun _ _ x => x) (fun _ _ x => x) (fun _ _ x => x)
      [] 0 1 0 0 ([[(1 : ℚ)]], [[(0 : ℚ)]]) :=
  ⟨by decide, fasp_solver_mgrecur_is_pipeline (fun _ _ x => x) (fun _ _ x => x)
    (fun _ _ x => x) [] 0 1 0 0 ([[(1 : ℚ)]], [[(0 : ℚ)]]) (by decide)⟩

/-- A nonempty list of negative rationals has negative sum. -/
theorem sum_neg_of_all_neg (l : List ℚ) (hne : l ≠ []) :
    (∀ x ∈ l, x < 0) → l.sum < 0 := by
  induction l with
  | nil => exact fun _ => absurd rfl hne
  | cons a t ih =>
    intro hall
    rw [List.sum_cons]
    by_cases ht : t = []
    · subst ht
      simpa using hall a (List.mem_cons_self a [])
    · have h1 := ih ht (fun x hx => hall x (List.mem_cons_of_mem a hx))
      have ha := hall a (List.mem_cons_self a t)
      linarith

/-- A nonempty list of positive rationals has positive sum. -/
theorem sum_pos_of_all_pos (l : List ℚ) (hne : l ≠ []) :
    (∀ x ∈ l, 0 < x) → 0 < l.sum := by
  induction l with
  | nil => exact fun _ => absurd rfl hne
  | cons a t ih =>
    intro hall
    rw [List.sum_cons]
    by_cases ht : t = []
    · subst ht
      simpa using hall a (List.mem_cons_self a [])
    · have h1 := ih ht (fun x hx => hall x (List.mem_cons_of_mem a hx))
      have ha := hall a (List.mem_cons_self a t)
      linarith

/-- The statistics fold of the truncation pass computes the sum of the
negative entries, the sum of the positive entries, a lower bound mMin attained
by a negative entry (or zero), and an upper bound pMax attained by a positive
entry (or zero). -/
theorem truncRowStats_spec (vals : List ℚ) :
    ((truncRowStats vals).1 = 0 ∨
      ((truncRowStats vals).1 ∈ vals ∧ (truncRowStats vals).1 < 0)) ∧
    (∀ v ∈ vals, v < 0 → (truncRowStats vals).1 ≤ v) ∧
    (truncRowStats vals).2.1 = (vals.filter (fun v => decide (v < 0))).sum ∧
    ((truncRowStats vals).2.2.1 = 0 ∨
      ((truncRowStats vals).2.2.1 ∈ vals ∧ 0 < (truncRowStats vals).2.2.1)) ∧
    (∀ v ∈ vals, 0 < v → v ≤ (truncRowStats vals).2.2.1) ∧
    (truncRowStats vals).2.2.2 = (vals.filter (fun v => decide (v > 0))).sum := by
  unfold truncRowStats
  have hmain := foldl_prefix_inv
    (fun st v =>
      let st1 := if v < 0 then
        (if v < st.1 then v else st.1, st.2.1 + v, st.2.2.1, st.2.2.2) else st
      if v > 0 then
        (st1.1, st1.2.1, if v > st1.2.2.1 then v else st1.2.2.1, st1.2.2.2 + v)
      else st1)
    vals
    (fun E st =>
      (st.1 = 0 ∨ (st.1 ∈ E ∧ st.1 < 0)) ∧
      (∀ v ∈ E, v < 0 → st.1 ≤ v) ∧
      st.2.1 = (E.filter (fun v => decide (v < 0))).sum ∧
      (st.2.2.1 = 0 ∨ (st.2.2.1 ∈ E ∧ 0 < st.2.2.1)) ∧
      (∀ v ∈ E, 0 < v → v ≤ st.2.2.1) ∧
      st.2.2.2 = (E.filter (fun v => decide (v > 0))).sum)
    ?_ vals [] (0, 0, 0, 0) rfl
    ⟨Or.inl rfl, fun v hv _ => absurd hv (List.not_mem_nil v), rfl,
      Or.inl rfl, fun v hv _ => absurd hv (List.not_mem_nil v), rfl⟩
  · exact ⟨hmain.1, hmain.2.1, hmain.2.2.1, hmain.2.2.2.1,
      hmain.2.2.2.2.1, hmain.2.2.2.2.2⟩
  · intro E a r s hEr hQ
    obtain ⟨q1, q2, q3, q4, q5, q6⟩ := hQ
    by_cases hn : a < 0
    · have hp : ¬ a > 0 := fun hpp => lt_irrefl (0 : ℚ) (lt_trans hpp hn)
      dsimp only
      rw [if_pos hn, if_neg hp]
      refine ⟨?_, ?_, ?_, ?_, ?_, ?_⟩
      · by_cases hm : a < s.1
        · rw [if_pos hm]
          exact Or.inr ⟨List.mem_append_right E (List.mem_singleton.mpr rfl), hn⟩
        · rw [if_neg hm]
          rcases q1 with h' | ⟨hm1, hm2⟩
          · exfalso
            have h2 : s.1 ≤ a := not_lt.mp hm
            rw [h'] at h2
            exact lt_irrefl (0 : ℚ) (lt_of_le_of_lt h2 hn)
          · exact Or.inr ⟨List.mem_append_left _ hm1, hm2⟩
      · intro v hv hvneg
        rcases List.mem_append.mp hv with hvE | hva
        · have h2 := q2 v hvE hvneg
          by_cases hm : a < s.1
          · rw [if_pos hm]
            linarith
          · rw [if_neg hm]
            exact h2
        · have hva2 : v = a := by simpa using hva
          subst hva2
          by_cases hm : v < s.1
          · rw [if_pos hm]
          · rw [if_neg hm]
            exact not_lt.mp hm
      · rw [List.filter_append, List.sum_append, q3]
        have hone : ([a].filter (fun v => decide (v < 0))) = [a] := by
          simp [hn]
        rw [hone, List.sum_singleton]
      · rcases q4 with h' | ⟨hm1, hm2⟩
        · exact Or.inl h'
        · exact Or.inr ⟨List.mem_append_left _ hm1, hm2⟩
      · intro v hv hvpos
        rcases List.mem_append.mp hv with hvE | hva
        · exact q5 v hvE hvpos
        · have hva2 : v = a := by simpa using hva
          subst hva2
          exact absurd hvpos (not_lt.mpr (le_of_lt hn))
      · rw [List.filter_append, List.sum_append, q6]
        have hone : ([a].filter (fun v => decide (v > 0))) = [] := by
          simp [hp]
        rw [hone, List.sum_nil, add_zero]
    · by_cases hp : a > 0
      · dsimp only
        rw [if_neg hn, if_pos hp]
        refine ⟨?_, ?_, ?_, ?_, ?_, ?_⟩
        · rcases q1 with h' | ⟨hm1, hm2⟩
          · exact Or.inl h'
          · exact Or.inr ⟨List.mem_append_left _ hm1, hm2⟩
        · intro v hv hvneg
          rcases List.mem_append.mp hv with hvE | hva
          · exact q2 v hvE hvneg
          · have hva2 : v = a := by simpa using hva
            subst hva2
            exact absurd hvneg (not_lt.mpr (le_of_lt hp))
        · rw [List.filter_append, List.sum_append, q3]
          have hone : ([a].filter (fun v => decide (v < 0))) = [] := by
            simp [hn]
          rw [hone, List.sum_nil, add_zero]
        · by_cases hm : a > s.2.2.1
          · rw [if_pos hm]
            exact Or.inr ⟨List.mem_append_right E (List.mem_singleton.mpr rfl), hp⟩
          · rw [if_neg hm]
            rcases q4 with h' | ⟨hm1, hm2⟩
            · exfalso
              have h2 : a ≤ s.2.2.1 := not_lt.mp hm
              rw [h'] at h2
              exact lt_irrefl (0 : ℚ) (lt_of_lt_of_le hp h2)
            · exact Or.inr ⟨List.mem_append_left _ hm1, hm2⟩
        · intro v hv hvpos
          rcases List.mem_append.mp hv with hvE | hva
          · have h2 := q5 v hvE hvpos
            by_cases hm : a > s.2.2.1
            · rw [if_pos hm]
              linarith
            · rw [if_neg hm]
              exact h2
          · have hva2 : v = a := by simpa using hva
            subst hva2
            by_cases hm : v > s.2.2.1
            · rw [if_pos hm]
            · rw [if_neg hm]
              exact not_lt.mp hm
        · rw [List.filter_append, List.sum_append, q6]
          have hone : ([a].filter (fun v => decide (v > 0))) = [a] := by
            simp [hp]
          rw [hone, List.sum_singleton]
      · dsimp only
        rw [if_neg hn, if_neg hp]
        refine ⟨?_, ?_, ?_, ?_, ?_, ?_⟩
        · rcases q1 with h' | ⟨hm1, hm2⟩
          · exact Or.inl h'
          · exact Or.inr ⟨List.mem_append_left _ hm1, hm2⟩
        · intro v hv hvneg
          rcases List.mem_append.mp hv with hvE | hva
          · exact q2 v hvE hvneg
          · have hva2 : v = a := by simpa using hva
            subst hva2
            exact absurd hvneg hn
        · rw [List.filter_append, List.sum_append, q3]
          have hone : ([a].filter (fun v => decide (v < 0))) = [] := by
            simp [hn]
          rw [hone, List.sum_nil, add_zero]
        · rcases q4 with h' | ⟨hm1, hm2⟩
          · exact Or.inl h'
          · exact Or.inr ⟨List.mem_append_left _ hm1, hm2⟩
        · intro v hv hvpos
          rcases List.mem_append.mp hv with hvE | hva
          · exact q5 v hvE hvpos
          · have hva2 : v = a := by simpa using hva
            subst hva2
            exact absurd hvpos hp
        · rw [List.filter_append, List.sum_append, q6]
          have hone : ([a].filter (fun v => decide (v > 0))) = [] := by
            simp [hp]
          rw [hone, List.sum_nil, add_zero]

/-- Sign and sum analysis of the rescaling map of truncRow, for an arbitrary
kept list: scaling each negative entry by mSum/mTruncedSum and each positive
entry by pSum/pTruncedSum makes the negative outputs sum to mSum and the
positive outputs sum to pSum. -/
theorem truncScale_sign_sums (kept : List (ℕ × ℚ)) (MS PS MT PT : ℚ)
    (hMT : MT = ((kept.map Prod.snd).filter
      (fun v => decide (v < 0))).foldl (fun s v => s + v) 0)
    (hPT : PT = ((kept.map Prod.snd).filter
      (fun v => decide (v > 0))).foldl (fun s v => s + v) 0)
    (hneg : (∃ e ∈ kept, e.2 < 0) → MS < 0)
    (hnegz : (∀ e ∈ kept, ¬ e.2 < 0) → MS = 0)
    (hpos : (∃ e ∈ kept, e.2 > 0) → 0 < PS)
    (hposz : (∀ e ∈ kept, ¬ e.2 > 0) → PS = 0)
    (hsign : ∀ e ∈ kept, e.2 < 0 ∨ e.2 > 0) :
    (((kept.map (fun e => if e.2 < 0 then (e.1, e.2 / MT * MS)
        else (e.1, e.2 / PT * PS))).map Prod.snd).filter
      (fun v => decide (v < 0))).sum = MS ∧
    (((kept.map (fun e => if e.2 < 0 then (e.1, e.2 / MT * MS)
        else (e.1, e.2 / PT * PS))).map Prod.snd).filter
      (fun v => decide (v > 0))).sum = PS := by
  have hMTs : MT = ((kept.map Prod.snd).filter (fun v => decide (v < 0))).sum := by
    rw [hMT, sum_foldl_eq]
  have hPTs : PT = ((kept.map Prod.snd).filter (fun v => decide (v > 0))).sum := by
    rw [hPT, sum_foldl_eq]
  have hnegfacts : (∃ e ∈ kept, e.2 < 0) → MS < 0 ∧ MT < 0 := by
    intro hex
    refine ⟨hneg hex, ?_⟩
    obtain ⟨e, he, hlt⟩ := hex
    rw [hMTs]
    apply sum_neg_of_all_neg
    · intro hnil
      have hm : e.2 ∈ (kept.map Prod.snd).filter (fun v => decide (v < 0)) :=
        List.mem_filter.mpr ⟨List.mem_map_of_mem Prod.snd he, by simpa using hlt⟩
      rw [hnil] at hm
      exact absurd hm (List.not_mem_nil _)
    · intro x hx
      simpa using (List.mem_filter.mp hx).2
  have hposfacts : (∃ e ∈ kept, e.2 > 0) → 0 < PS ∧ 0 < PT := by
    intro hex
    refine ⟨hpos hex, ?_⟩
    obtain ⟨e, he, hlt⟩ := hex
    rw [hPTs]
    apply sum_pos_of_all_pos
    · intro hnil
      have hm : e.2 ∈ (kept.map Prod.snd).filter (fun v => decide (v > 0)) :=
        List.mem_filter.mpr ⟨List.mem_map_of_mem Prod.snd he, by simpa using hlt⟩
      rw [hnil] at hm
      exact absurd hm (List.not_mem_nil _)
    · intro x hx
      simpa using (List.mem_filter.mp hx).2
  have hfun : ∀ e ∈ kept,
      (Prod.snd ∘ (fun e : ℕ × ℚ => if e.2 < 0 then (e.1, e.2 / MT * MS)
        else (e.1, e.2 / PT * PS))) e
      = (fun e : ℕ × ℚ => if e.2 < 0 then e.2 / MT * MS else e.2 / PT * PS) e := by
    intro e _
    by_cases hc : e.2 < 0
    · simp [hc]
    · simp [hc]
  constructor
  · rw [List.map_map, List.map_congr_left hfun, List.filter_map]
    have hcls : ∀ e ∈ kept,
        ((fun v : ℚ => decide (v < 0)) ∘
          (fun e : ℕ × ℚ => if e.2 < 0 then e.2 / MT * MS else e.2 / PT * PS)) e
        = (fun e : ℕ × ℚ => decide (e.2 < 0)) e := by
      intro e he
      rcases hsign e he with hc | hc
      · have hf := hnegfacts ⟨e, he, hc⟩
        have hlt : e.2 / MT * MS < 0 :=
          mul_neg_of_pos_of_neg (div_pos_of_neg_of_neg hc hf.2) hf.1
        simp [Function.comp_apply, if_pos hc, hlt, hc]
      · have hf := hposfacts ⟨e, he, hc⟩
        have hnc : ¬ e.2 < 0 := not_lt.mpr (le_of_lt hc)
        have hgt : 0 < e.2 / PT * PS := mul_pos (div_pos hc hf.2) hf.1
        simp [Function.comp_apply, if_neg hnc, not_lt.mpr (le_of_lt hgt), hnc]
    rw [List.filter_congr hcls]
    have hval : ∀ e ∈ kept.filter (fun e : ℕ × ℚ => decide (e.2 < 0)),
        (fun e : ℕ × ℚ => if e.2 < 0 then e.2 / MT * MS else e.2 / PT * PS) e
        = (fun e : ℕ × ℚ => MS / MT * e.2) e := by
      intro e he
      have hc : e.2 < 0 := by simpa using (List.mem_filter.mp he).2
      dsimp only
      rw [if_pos hc]
      ring
    rw [List.map_congr_left hval, List.sum_map_mul_left]
    have hswap : ((kept.filter (fun e : ℕ × ℚ => decide (e.2 < 0))).map
        (fun e : ℕ × ℚ => e.2))
        = (kept.map Prod.snd).filter (fun v => decide (v < 0)) := by
      rw [List.filter_map]
      rfl
    rw [hswap, ← hMTs]
    by_cases hmt : MT = 0
    · rw [hmt, mul_zero]
      have hnone : ∀ e ∈ kept, ¬ e.2 < 0 := by
        intro e he hc
        exact absurd hmt (ne_of_lt (hnegfacts ⟨e, he, hc⟩).2)
      rw [hnegz hnone]
    · exact div_mul_cancel₀ MS hmt
  · rw [List.map_map, List.map_congr_left hfun, List.filter_map]
    have hcls : ∀ e ∈ kept,
        ((fun v : ℚ => decide (v > 0)) ∘
          (fun e : ℕ × ℚ => if e.2 < 0 then e.2 / MT * MS else e.2 / PT * PS)) e
        = (fun e : ℕ × ℚ => decide (e.2 > 0)) e := by
      intro e he
      rcases hsign e he with hc | hc
      · have hf := hnegfacts ⟨e, he, hc⟩
        have hlt : e.2 / MT * MS < 0 :=
          mul_neg_of_pos_of_neg (div_pos_of_neg_of_neg hc hf.2) hf.1
        have hnc : ¬ e.2 > 0 := not_lt.mpr (le_of_lt hc)
        simp [Function.comp_apply, if_pos hc, not_lt.mpr (le_of_lt hlt), hnc]
      · have hf := hposfacts ⟨e, he, hc⟩
        have hnc : ¬ e.2 < 0 := not_lt.mpr (le_of_lt hc)
        have hgt : 0 < e.2 / PT * PS := mul_pos (div_pos hc hf.2) hf.1
        simp [Function.comp_apply, if_neg hnc, hgt, hc]
    rw [List.filter_congr hcls]
    have hval : ∀ e ∈ kept.filter (fun e : ℕ × ℚ => decide (e.2 > 0)),
        (fun e : ℕ × ℚ => if e.2 < 0 then e.2 / MT * MS else e.2 / PT * PS) e
        = (fun e : ℕ × ℚ => PS / PT * e.2) e := by
      intro e he
      have hc : e.2 > 0 := by simpa using (List.mem_filter.mp he).2
      dsimp only
      rw [if_neg (not_lt.mpr (le_of_lt hc))]
      ring
    rw [List.map_congr_left hval, List.sum_map_mul_left]
    have hswap : ((kept.filter (fun e : ℕ × ℚ => decide (e.2 > 0))).map
        (fun e : ℕ × ℚ => e.2))
        = (kept.map Prod.snd).filter (fun v => decide (v > 0)) := by
      rw [List.filter_map]
      rfl
    rw [hswap, ← hPTs]
    by_cases hpt : PT = 0
    · rw [hpt, mul_zero]
      have hnone : ∀ e ∈ kept, ¬ e.2 > 0 := by
        intro e he hc
        exact absurd (hposfacts ⟨e, he, hc⟩).2 (by rw [hpt]; exact lt_irrefl 0)
      rw [hposz hnone]
    · exact div_mul_cancel₀ PS hpt

/-- truncRow preserves the sum of the negative entries and the sum of the
positive entries of a row, provided the truncation parameter is at most 1. -/
theorem truncRow_sign_sums (eps : ℚ) (h1 : eps ≤ 1) (entries : List (ℕ × ℚ)) :
    (((truncRow eps entries).map Prod.snd).filter (fun v => decide (v < 0))).sum
      = ((entries.map Prod.snd).filter (fun v => decide (v < 0))).sum ∧
    (((truncRow eps entries).map Prod.snd).filter (fun v => decide (v > 0))).sum
      = ((entries.map Prod.snd).filter (fun v => decide (v > 0))).sum := by
  obtain ⟨m1, m2, m3, m4, m5, m6⟩ := truncRowStats_spec (entries.map Prod.snd)
  have hrw : truncRow eps entries = (entries.filter (fun e : ℕ × ℚ => (e.2 < 0 ∧ ¬(e.2 > (truncRowStats (entries.map Prod.snd)).1 * eps)) ∨ (e.2 > 0 ∧ ¬(e.2 < (truncRowStats (entries.map Prod.snd)).2.2.1 * eps)))).map (fun e : ℕ × ℚ => if e.2 < 0 then (e.1, e.2 / ((((entries.filter (fun e : ℕ × ℚ => (e.2 < 0 ∧ ¬(e.2 > (truncRowStats (entries.map Prod.snd)).1 * eps)) ∨ (e.2 > 0 ∧ ¬(e.2 < (truncRowStats (entries.map Prod.snd)).2.2.1 * eps)))).map Prod.snd).filter (fun v => decide (v < 0))).foldl (fun s v => s + v) 0) * ((truncRowStats (entries.map Prod.snd)).2.1)) else (e.1, e.2 / ((((entries.filter (fun e : ℕ × ℚ => (e.2 < 0 ∧ ¬(e.2 > (truncRowStats (entries.map Prod.snd)).1 * eps)) ∨ (e.2 > 0 ∧ ¬(e.2 < (truncRowStats (entries.map Prod.snd)).2.2.1 * eps)))).map Prod.snd).filter (fun v => decide (v > 0))).foldl (fun s v => s + v) 0) * ((truncRowStats (entries.map Prod.snd)).2.2.2))) := rfl
  have hkmem : ∀ e ∈ (entries.filter (fun e : ℕ × ℚ => (e.2 < 0 ∧ ¬(e.2 > (truncRowStats (entries.map Prod.snd)).1 * eps)) ∨ (e.2 > 0 ∧ ¬(e.2 < (truncRowStats (entries.map Prod.snd)).2.2.1 * eps)))), e ∈ entries ∧ (e.2 < 0 ∨ e.2 > 0) := by
    intro e he
    have h2 := List.mem_filter.mp he
    refine ⟨h2.1, ?_⟩
    have h3 := h2.2
    simp only [decide_eq_true_eq] at h3
    rcases h3 with ⟨hc, h4⟩ | ⟨hc, h4⟩
    · exact Or.inl hc
    · exact Or.inr hc
  have hsign2 : ∀ e ∈ (entries.filter (fun e : ℕ × ℚ => (e.2 < 0 ∧ ¬(e.2 > (truncRowStats (entries.map Prod.snd)).1 * eps)) ∨ (e.2 > 0 ∧ ¬(e.2 < (truncRowStats (entries.map Prod.snd)).2.2.1 * eps)))), e.2 < 0 ∨ e.2 > 0 := fun e he => (hkmem e he).2
  have hneg2 : (∃ e ∈ (entries.filter (fun e : ℕ × ℚ => (e.2 < 0 ∧ ¬(e.2 > (truncRowStats (entries.map Prod.snd)).1 * eps)) ∨ (e.2 > 0 ∧ ¬(e.2 < (truncRowStats (entries.map Prod.snd)).2.2.1 * eps)))), e.2 < 0) → ((truncRowStats (entries.map Prod.snd)).2.1) < 0 := by
    intro hex
    obtain ⟨e, he, hlt⟩ := hex
    rw [m3]
    apply sum_neg_of_all_neg
    · intro hnil
      have hm : e.2 ∈ (entries.map Prod.snd).filter (fun v => decide (v < 0)) :=
        List.mem_filter.mpr ⟨List.mem_map_of_mem Prod.snd (hkmem e he).1,
          by simpa using hlt⟩
      rw [hnil] at hm
      exact absurd hm (List.not_mem_nil _)
    · intro x hx
      simpa using (List.mem_filter.mp hx).2
  have hpos2 : (∃ e ∈ (entries.filter (fun e : ℕ × ℚ => (e.2 < 0 ∧ ¬(e.2 > (truncRowStats (entries.map Prod.snd)).1 * eps)) ∨ (e.2 > 0 ∧ ¬(e.2 < (truncRowStats (entries.map Prod.snd)).2.2.1 * eps)))), e.2 > 0) → 0 < ((truncRowStats (entries.map Prod.snd)).2.2.2) := by
    intro hex
    obtain ⟨e, he, hlt⟩ := hex
    rw [m6]
    apply sum_pos_of_all_pos
    · intro hnil
      have hm : e.2 ∈ (entries.map Prod.snd).filter (fun v => decide (v > 0)) :=
        List.mem_filter.mpr ⟨List.mem_map_of_mem Prod.snd (hkmem e he).1,
          by simpa using hlt⟩
      rw [hnil] at hm
      exact absurd hm (List.not_mem_nil _)
    · intro x hx
      simpa using (List.mem_filter.mp hx).2
  have hnegz2 : (∀ e ∈ (entries.filter (fun e : ℕ × ℚ => (e.2 < 0 ∧ ¬(e.2 > (truncRowStats (entries.map Prod.snd)).1 * eps)) ∨ (e.2 > 0 ∧ ¬(e.2 < (truncRowStats (entries.map Prod.snd)).2.2.1 * eps)))), ¬ e.2 < 0) → ((truncRowStats (entries.map Prod.snd)).2.1) = 0 := by
    intro hall
    rw [m3]
    have hfe : (entries.map Prod.snd).filter (fun v => decide (v < 0)) = [] := by
      rw [List.filter_eq_nil_iff]
      intro a ha
      simp only [decide_eq_true_eq]
      intro haneg
      rcases m1 with h0' | ⟨hmem, hneg0⟩
      · have h2 := m2 a ha haneg
        rw [h0'] at h2
        exact absurd (lt_of_le_of_lt h2 haneg) (lt_irrefl 0)
      · obtain ⟨e, he, heq⟩ := List.mem_map.mp hmem
        have hekept : e ∈ (entries.filter (fun e : ℕ × ℚ => (e.2 < 0 ∧ ¬(e.2 > (truncRowStats (entries.map Prod.snd)).1 * eps)) ∨ (e.2 > 0 ∧ ¬(e.2 < (truncRowStats (entries.map Prod.snd)).2.2.1 * eps)))) := by
          refine List.mem_filter.mpr ⟨he, ?_⟩
          simp only [decide_eq_true_eq]
          left
          refine ⟨?_, ?_⟩
          · rw [heq]
            exact hneg0
          · rw [heq]
            have hle : (truncRowStats (entries.map Prod.snd)).1 * 1 ≤ (truncRowStats (entries.map Prod.snd)).1 * eps :=
              mul_le_mul_of_nonpos_left h1 (le_of_lt hneg0)
            rw [mul_one] at hle
            exact not_lt.mpr hle
        exact hall e hekept (by rw [heq]; exact hneg0)
    rw [hfe, List.sum_nil]
  have hposz2 : (∀ e ∈ (entries.filter (fun e : ℕ × ℚ => (e.2 < 0 ∧ ¬(e.2 > (truncRowStats (entries.map Prod.snd)).1 * eps)) ∨ (e.2 > 0 ∧ ¬(e.2 < (truncRowStats (entries.map Prod.snd)).2.2.1 * eps)))), ¬ e.2 > 0) → ((truncRowStats (entries.map Prod.snd)).2.2.2) = 0 := by
    intro hall
    rw [m6]
    have hfe : (entries.map Prod.snd).filter (fun v => decide (v > 0)) = [] := by
      rw [List.filter_eq_nil_iff]
      intro a ha
      simp only [decide_eq_true_eq]
      intro hapos
      rcases m4 with h0' | ⟨hmem, hpos0⟩
      · have h2 := m5 a ha hapos
        rw [h0'] at h2
        exact absurd (lt_of_lt_of_le hapos h2) (lt_irrefl 0)
      · obtain ⟨e, he, heq⟩ := List.mem_map.mp hmem
        have hekept : e ∈ (entries.filter (fun e : ℕ × ℚ => (e.2 < 0 ∧ ¬(e.2 > (truncRowStats (entries.map Prod.snd)).1 * eps)) ∨ (e.2 > 0 ∧ ¬(e.2 < (truncRowStats (entries.map Prod.snd)).2.2.1 * eps)))) := by
          refine List.mem_filter.mpr ⟨he, ?_⟩
          simp only [decide_eq_true_eq]
          right
          refine ⟨?_, ?_⟩
          · rw [heq]
            exact hpos0
          · rw [heq]
            have hle : (truncRowStats (entries.map Prod.snd)).2.2.1 * eps ≤ (truncRowStats (entries.map Prod.snd)).2.2.1 * 1 :=
              mul_le_mul_of_nonneg_left h1 (le_of_lt hpos0)
            rw [mul_one] at hle
            exact not_lt.mpr hle
        exact hall e hekept (by rw [heq]; exact hpos0)
    rw [hfe, List.sum_nil]
  have key := truncScale_sign_sums (entries.filter (fun e : ℕ × ℚ => (e.2 < 0 ∧ ¬(e.2 > (truncRowStats (entries.map Prod.snd)).1 * eps)) ∨ (e.2 > 0 ∧ ¬(e.2 < (truncRowStats (entries.map Prod.snd)).2.2.1 * eps)))) ((truncRowStats (entries.map Prod.snd)).2.1) ((truncRowStats (entries.map Prod.snd)).2.2.2) ((((entries.filter (fun e : ℕ × ℚ => (e.2 < 0 ∧ ¬(e.2 > (truncRowStats (entries.map Prod.snd)).1 * eps)) ∨ (e.2 > 0 ∧ ¬(e.2 < (truncRowStats (entries.map Prod.snd)).2.2.1 * eps)))).map Prod.snd).filter (fun v => decide (v < 0))).foldl (fun s v => s + v) 0) ((((entries.filter (fun e : ℕ × ℚ => (e.2 < 0 ∧ ¬(e.2 > (truncRowStats (entries.map Prod.snd)).1 * eps)) ∨ (e.2 > 0 ∧ ¬(e.2 < (truncRowStats (entries.map Prod.snd)).2.2.1 * eps)))).map Prod.snd).filter (fun v => decide (v > 0))).foldl (fun s v => s + v) 0) rfl rfl
    hneg2 hnegz2 hpos2 hposz2 hsign2
  rw [hrw]
  exact ⟨key.1.trans m3, key.2.trans m6⟩

/-- Claim C3: for each row of the interpolation operator, the concluding
truncation pass (interpolation.c, shared by all interpolation variants)
preserves the row's signed partial sums exactly over exact arithmetic: the
sum of the surviving negative entries equals the pre-truncation sum of
negative entries and the sum of the surviving positive entries equals the
pre-truncation sum of positive entries, the truncation parameter being a
configured fraction in [0, 1]. -/
theorem truncation_preserves_sign_sums (eps : ℚ) (h0 : 0 ≤ eps) (h1 : eps ≤ 1)
    (P : dCSRmat) (i : ℕ) (hi : i < P.row) :
    dRowPairs (truncationP eps P) i = truncRow eps (dRowPairs P i) ∧
    (((dRowPairs (truncationP eps P) i).map Prod.snd).filter
        (fun v => decide (v < 0))).sum
      = (((dRowPairs P i).map Prod.snd).filter (fun v => decide (v < 0))).sum ∧
    (((dRowPairs (truncationP eps P) i).map Prod.snd).filter
        (fun v => decide (v > 0))).sum
      = (((dRowPairs P i).map Prod.snd).filter (fun v => decide (v > 0))).sum := by
  have hrow : dRowPairs (truncationP eps P) i = truncRow eps (dRowPairs P i) := by
    unfold truncationP
    rw [dRowPairs_csrOfRows P.row P.col _ (by simp) i hi]
    rw [getD_map_range _ _ _ _ hi]
  refine ⟨hrow, ?_, ?_⟩
  · rw [hrow]
    exact (truncRow_sign_sums eps h1 (dRowPairs P i)).1
  · rw [hrow]
    exact (truncRow_sign_sums eps h1 (dRowPairs P i)).2

/-- Concrete instance of claim C3 at the 2x2 matrix Aw, row 0, with
truncation fraction 1/2. -/
theorem truncation_preserves_sign_sums_witness :
    (0:ℚ) ≤ 1/2 ∧ (1/2:ℚ) ≤ 1 ∧ 0 < Aw.row ∧
    (dRowPairs (truncationP (1/2) Aw) 0 = truncRow (1/2) (dRowPairs Aw 0) ∧
     (((dRowPairs (truncationP (1/2) Aw) 0).map Prod.snd).filter
        (fun v => decide (v < 0))).sum
       = (((dRowPairs Aw 0).map Prod.snd).filter (fun v => decide (v < 0))).sum ∧
     (((dRowPairs (truncationP (1/2) Aw) 0).map Prod.snd).filter
        (fun v => decide (v > 0))).sum
       = (((dRowPairs Aw 0).map Prod.snd).filter (fun v => decide (v > 0))).sum) :=
  ⟨by norm_num, by norm_num, by decide,
    truncation_preserves_sign_sums (1/2) (by norm_num) (by norm_num) Aw 0 (by decide)⟩

end Fasp
